import Mathlib

/-!
A shallow embedding of the core of the Bitsy bit-vector library
(`src/bitsy/rank/two_layer_rank_combined_bitvector.hpp`,
`src/bitsy/select/two_layer_select.hpp`, `src/bitsy/select/word_select.hpp`,
`src/bitsy/util/math.hpp`), instantiated at the default compile-time
parameters `BlockWidth = 512`, `BlockHeaderWidth = 14`, `Stride = 32768`,
`UseBinarySearch = true`, together with proofs of the specification
properties of rank, select and the finalization pass.

Machine words (`std::uint64_t`) are modelled as `Nat` together with the
invariant `w < 2 ^ 64`; bitwise operators are `Nat`'s truncation-free
bitwise operators, with explicit `% 2 ^ 64` or masking wherever the C++
code relies on 64-bit truncation.  Buffers are modelled as functions
`Nat → Nat` together with their allocated sizes; reads that the C++ code
performs out of bounds are visible in the model as reads of unspecified
(universally quantified) memory contents.
-/

namespace Bitsy

/-! ### Compile-time constants (`two_layer_rank_combined_bitvector.hpp`) -/

def kWordWidth : Nat := 64

def kBlockWidth : Nat := 512

def kBlockHeaderWidth : Nat := 14

/-- `kBlockDataWidth = kBlockWidth - kBlockHeaderWidth`. -/
def kBlockDataWidth : Nat := kBlockWidth - kBlockHeaderWidth

/-- `kHeaderDataWidth = kWordWidth - kBlockHeaderWidth`. -/
def kHeaderDataWidth : Nat := kWordWidth - kBlockHeaderWidth

/-- `kNumWordsPerBlock = kBlockWidth / kWordWidth`. -/
def kNumWordsPerBlock : Nat := kBlockWidth / kWordWidth

/-- `kSuperblockWidth = math::pow2(BlockHeaderWidth)`. -/
def kSuperblockWidth : Nat := 2 ^ kBlockHeaderWidth

/-- `kNumBlocksPerSuperblock = kSuperblockWidth / kBlockWidth`. -/
def kNumBlocksPerSuperblock : Nat := kSuperblockWidth / kBlockWidth

/-- `kNumWordsPerSuperblock = kSuperblockWidth / kWordWidth`. -/
def kNumWordsPerSuperblock : Nat := kSuperblockWidth / kWordWidth

/-- `kSuperblockDataWidth =
kSuperblockWidth - kNumBlocksPerSuperblock * kBlockHeaderWidth`. -/
def kSuperblockDataWidth : Nat :=
  kSuperblockWidth - kNumBlocksPerSuperblock * kBlockHeaderWidth

theorem kWordWidth_eq : kWordWidth = 64 := rfl

theorem kBlockHeaderWidth_eq : kBlockHeaderWidth = 14 := rfl

theorem kBlockDataWidth_eq : kBlockDataWidth = 498 := rfl

theorem kHeaderDataWidth_eq : kHeaderDataWidth = 50 := rfl

theorem kNumWordsPerBlock_eq : kNumWordsPerBlock = 8 := rfl

theorem kSuperblockWidth_eq : kSuperblockWidth = 16384 := rfl

theorem kNumBlocksPerSuperblock_eq : kNumBlocksPerSuperblock = 32 := rfl

theorem kNumWordsPerSuperblock_eq : kNumWordsPerSuperblock = 256 := rfl

theorem kSuperblockDataWidth_eq : kSuperblockDataWidth = 15936 := rfl

/-! ### `bitsy/util/math.hpp` -/

/-- `math::div_ceil`. -/
def div_ceil (x y : Nat) : Nat := x / y + if x % y ≠ 0 then 1 else 0

/-- `math::setbits<std::uint64_t>`: a mask of `num_set_bits` consecutive ones
starting at bit `start`. -/
def setbits (num_set_bits : Nat) (start : Nat := 0) : Nat :=
  if num_set_bits = 0 then 0
  else ((2 ^ 64 - 1) >>> (64 - num_set_bits)) <<< start

/-- Bitwise complement of a 64-bit word (C++ `~w` on `std::uint64_t`). -/
def compl64 (w : Nat) : Nat := (2 ^ 64 - 1) ^^^ w

/-- `std::popcount` on a 64-bit word: the number of set bits among bit
positions `0 ≤ i < 64`. -/
def popcount (w : Nat) : Nat := (List.range 64).countP (fun i => w.testBit i)

/-! ### The rank-combined bit vector state

The C++ object owns `_data` (a `StaticVector` of
`_num_blocks * kNumWordsPerBlock + kNumBlocksPerSuperblock * kNumWordsPerBlock`
words) and `_superblock_data` (a `StaticVector` of `_num_superblocks` words).
We model the two buffers as functions from word index to word value; the
allocated sizes are recovered from `length` exactly as the constructor
computes them. -/

structure BV where
  length : Nat
  data : Nat → Nat
  sbdata : Nat → Nat

/-- `_num_blocks = math::div_ceil(length, kBlockDataWidth)`. -/
def BV.num_blocks (bv : BV) : Nat := div_ceil bv.length kBlockDataWidth

/-- `_num_superblocks = math::div_ceil(length, kSuperblockDataWidth)`. -/
def BV.num_superblocks (bv : BV) : Nat :=
  div_ceil bv.length kSuperblockDataWidth

/-- The allocated size (in words) of `_data`, including the pad blocks. -/
def BV.dataSize (bv : BV) : Nat :=
  bv.num_blocks * kNumWordsPerBlock +
    kNumBlocksPerSuperblock * kNumWordsPerBlock

/-- `TwoLayerRankCombinedBitVector(length)`: allocates `_data` and
`_superblock_data` without initializing them (the `StaticVector` constructor
calls `malloc`; the unspecified initial contents are the parameters `mem` and
`sbmem`, truncated to 64-bit words), then zero-fills the
`kNumWordsPerBlock` words of the last real block when `_num_blocks > 0`. -/
def mkBV (length : Nat) (mem sbmem : Nat → Nat) : BV :=
  let num_blocks := div_ceil length kBlockDataWidth
  { length := length
    data := fun j =>
      if 0 < num_blocks ∧ (num_blocks - 1) * kNumWordsPerBlock ≤ j ∧
          j < num_blocks * kNumWordsPerBlock
      then 0
      else mem j % 2 ^ 64
    sbdata := fun s => sbmem s % 2 ^ 64 }

/-- `TwoLayerRankCombinedBitVector::unset(pos)`. -/
def BV.unset (bv : BV) (pos : Nat) : BV :=
  let num_block := pos / kBlockDataWidth
  let block_pos := pos % kBlockDataWidth + kBlockHeaderWidth
  let num_local_word := block_pos / kWordWidth
  let num_word := num_block * kNumWordsPerBlock + num_local_word
  { bv with
    data := Function.update bv.data num_word
      (bv.data num_word &&& compl64 (1 <<< (block_pos % kWordWidth))) }

/-- `TwoLayerRankCombinedBitVector::set(pos)`. -/
def BV.set (bv : BV) (pos : Nat) : BV :=
  let num_block := pos / kBlockDataWidth
  let block_pos := pos % kBlockDataWidth + kBlockHeaderWidth
  let num_local_word := block_pos / kWordWidth
  let num_word := num_block * kNumWordsPerBlock + num_local_word
  { bv with
    data := Function.update bv.data num_word
      (bv.data num_word ||| (1 <<< (block_pos % kWordWidth))) }

/-- `TwoLayerRankCombinedBitVector::set(pos, value)`: the branchless form
`(w & ~mask) | (-value & mask)`, where `-value` on a 64-bit word is all ones
when `value` is `true` and zero otherwise. -/
def BV.setv (bv : BV) (pos : Nat) (value : Bool) : BV :=
  let num_block := pos / kBlockDataWidth
  let block_pos := pos % kBlockDataWidth + kBlockHeaderWidth
  let num_local_word := block_pos / kWordWidth
  let num_word := num_block * kNumWordsPerBlock + num_local_word
  let mask := 1 <<< (block_pos % kWordWidth)
  { bv with
    data := Function.update bv.data num_word
      ((bv.data num_word &&& compl64 mask) |||
        ((if value then 2 ^ 64 - 1 else 0) &&& mask)) }

/-- The body of `TwoLayerRankCombinedBitVector::is_set(pos)`, phrased over the
raw data buffer. -/
def bitOf (d : Nat → Nat) (pos : Nat) : Bool :=
  let num_block := pos / kBlockDataWidth
  let block_pos := pos % kBlockDataWidth + kBlockHeaderWidth
  let num_local_word := block_pos / kWordWidth
  let num_word := num_block * kNumWordsPerBlock + num_local_word
  let word := d num_word
  let word_pos := block_pos % kWordWidth
  (word >>> word_pos) &&& 1 == 1

/-- `TwoLayerRankCombinedBitVector::is_set(pos)`. -/
def BV.is_set (bv : BV) (pos : Nat) : Bool := bitOf bv.data pos

/-- `TwoLayerRankCombinedBitVector::block_popcount(data)`: the popcount of the
payload of the block starting at word index `base`, masking the header out of
the first word. -/
def blockPopcountAt (d : Nat → Nat) (base : Nat) : Nat :=
  popcount (d base >>> kBlockHeaderWidth) +
    ((List.range (kNumWordsPerBlock - 1)).map
      (fun i => popcount (d (base + 1 + i)))).sum

/-- `TwoLayerRankCombinedBitVector::block_popcount(num_block)`. -/
def BV.block_popcount (bv : BV) (num_block : Nat) : Nat :=
  blockPopcountAt bv.data (num_block * kNumWordsPerBlock)

/-! ### `TwoLayerRankCombinedBitVector::update()` -/

/-- The running state of `update()`'s loops. -/
structure UpdState where
  data : Nat → Nat
  sb : Nat → Nat
  cur_rank : Nat
  cur_block_rank : Nat
  cur_num_super_block : Nat

/-- One iteration of the first loop of `update()`, at word index `i` (the
first word of a real block): handle a superblock boundary, merge
`cur_block_rank` into the low header bits of word `i`, and add the block's
payload popcount (read back through the just-written word, exactly as the
C++ code reads `data + i` after the store). -/
def updStep (st : UpdState) (i : Nat) : UpdState :=
  let st :=
    if i % kNumWordsPerSuperblock = 0 then
      let cur_rank := st.cur_rank + st.cur_block_rank
      { st with
        cur_rank := cur_rank
        sb := Function.update st.sb st.cur_num_super_block cur_rank
        cur_num_super_block := st.cur_num_super_block + 1
        cur_block_rank := 0 }
    else st
  let data := Function.update st.data i
    ((st.data i &&& setbits kHeaderDataWidth kBlockHeaderWidth) |||
      st.cur_block_rank)
  { st with
    data := data
    cur_block_rank := st.cur_block_rank + blockPopcountAt data i }

/-- The first loop of `update()` over the `n` remaining real blocks, the next
of which starts at word index `i`. -/
def updLoop1 (st : UpdState) (i : Nat) : Nat → UpdState
  | 0 => st
  | n + 1 => updLoop1 (updStep st i) (i + kNumWordsPerBlock) n

/-- The second loop of `update()` over the `n` remaining pad blocks, the next
of which starts at word index `i`: reset `cur_block_rank` at superblock
boundaries and store it as the pad block's first word. -/
def updLoop2 (d : Nat → Nat) (cur_block_rank : Nat) (i : Nat) :
    Nat → (Nat → Nat)
  | 0 => d
  | n + 1 =>
    let cur_block_rank :=
      if i % kNumWordsPerSuperblock = 0 then 0 else cur_block_rank
    updLoop2 (Function.update d i cur_block_rank) cur_block_rank
      (i + kNumWordsPerBlock) n

/-- `TwoLayerRankCombinedBitVector::update()`. -/
def BV.update (bv : BV) : BV :=
  let st := updLoop1 ⟨bv.data, bv.sbdata, 0, 0, 0⟩ 0 bv.num_blocks
  let data := updLoop2 st.data st.cur_block_rank
    (bv.num_blocks * kNumWordsPerBlock) kNumBlocksPerSuperblock
  { bv with data := data, sbdata := st.sb }

/-! ### `TwoLayerRankCombinedBitVector::rank1` / `rank0` -/

/-- `TwoLayerRankCombinedBitVector::rank1(pos)`.  All intermediate sums stay
below `2 ^ 64` on the C++ side, so no truncation is modelled. -/
def BV.rank1 (bv : BV) (pos : Nat) : Nat :=
  let num_block := pos / kBlockDataWidth
  let block_pos := pos % kBlockDataWidth + kBlockHeaderWidth
  let num_word := block_pos / kWordWidth
  let word_pos := block_pos % kWordWidth
  let num_superblock := pos / kSuperblockDataWidth
  let base := num_block * kNumWordsPerBlock
  let first_word := bv.data base
  let rank := bv.sbdata num_superblock +
    (first_word &&& setbits kBlockHeaderWidth)
  if num_word = 0 then
    let shift := kWordWidth + kBlockHeaderWidth - word_pos
    rank + popcount ((first_word >>> kBlockHeaderWidth) <<< shift) *
      (if word_pos ≠ kBlockHeaderWidth then 1 else 0)
  else
    let rank := rank + popcount (first_word >>> kBlockHeaderWidth)
    let rank := rank +
      ((List.range (num_word - 1)).map
        (fun k => popcount (bv.data (base + 1 + k)))).sum
    rank + popcount (bv.data (base + num_word) <<< (kWordWidth - word_pos)) *
      (if word_pos ≠ 0 then 1 else 0)

/-- `TwoLayerRankCombinedBitVector::rank0(pos)`: the 64-bit difference
`pos - rank1(pos)`, which the C++ code computes with wraparound; the explicit
`% 2 ^ 64` models the wraparound (it is the identity whenever
`rank1 pos ≤ pos < 2 ^ 64`). -/
def BV.rank0 (bv : BV) (pos : Nat) : Nat :=
  (2 ^ 64 + pos - bv.rank1 pos % 2 ^ 64) % 2 ^ 64

/-! ### Specification-side counting -/

/-- The number of set bits of `bv` at positions `< p` (the mathematical
rank). -/
def BV.ones (bv : BV) (p : Nat) : Nat :=
  (List.range p).countP (fun q => bv.is_set q)

/-- Well-formedness of a bit-vector state reachable through the public
mutation interface: every allocated data word is a 64-bit value, and the
payload bits of the real blocks at positions at or beyond `length` are zero
(the constructor zero-fills the last block and `set`/`unset` only touch
positions below `length`). -/
def WF (bv : BV) : Prop :=
  bv.length < 2 ^ 64 ∧
  (∀ j, j < bv.dataSize → bv.data j < 2 ^ 64) ∧
  (∀ p, p < bv.num_blocks * kBlockDataWidth → bv.length ≤ p →
    bv.is_set p = false)

/-! ### Counting toolkit -/

theorem countP_range_add (f : Nat → Bool) (m n : Nat) :
    (List.range (m + n)).countP f =
      (List.range m).countP f + (List.range n).countP (fun i => f (m + i)) := by
  induction n with
  | zero => simp
  | succ n ih =>
    rw [Nat.add_succ, List.range_succ, List.range_succ, List.countP_append,
      List.countP_append, ih]
    simp [List.countP_singleton, Nat.add_assoc]

theorem shiftRight_and_one (w p : Nat) :
    ((w >>> p) &&& 1 == 1) = w.testBit p := by
  rw [Nat.and_one_is_mod, Nat.testBit_to_div_mod, Nat.shiftRight_eq_div_pow]
  rcases Nat.mod_two_eq_zero_or_one (w / 2 ^ p) with h | h <;> simp [h]

theorem bitOf_eq_testBit (d : Nat → Nat) (pos : Nat) :
    bitOf d pos =
      (d (pos / kBlockDataWidth * kNumWordsPerBlock +
          (pos % kBlockDataWidth + kBlockHeaderWidth) / kWordWidth)).testBit
        ((pos % kBlockDataWidth + kBlockHeaderWidth) % kWordWidth) := by
  unfold bitOf
  exact shiftRight_and_one _ _

theorem popcount_def (w : Nat) :
    popcount w = (List.range 64).countP (fun i => w.testBit i) := rfl

theorem popcount_shiftRight (w k : Nat) (hk : k ≤ 64) (hw : w < 2 ^ 64) :
    popcount (w >>> k) =
      (List.range (64 - k)).countP (fun j => w.testBit (k + j)) := by
  unfold popcount
  have hsplit := countP_range_add (fun i => (w >>> k).testBit i) (64 - k) k
  rw [show (64 - k) + k = 64 by omega] at hsplit
  rw [hsplit]
  have h2 : (List.range k).countP
      (fun i => (w >>> k).testBit ((64 - k) + i)) = 0 := by
    apply List.countP_eq_zero.2
    intro i _
    rw [Nat.testBit_shiftRight]
    have hle : (64 : Nat) ≤ k + (64 - k + i) := by omega
    simp only [Bool.not_eq_true]
    exact Nat.testBit_lt_two_pow
      (lt_of_lt_of_le hw (Nat.pow_le_pow_right (by norm_num) hle))
  rw [h2, Nat.add_zero]
  apply List.countP_congr
  intro j _
  rw [Nat.testBit_shiftRight]

theorem popcount_shiftLeft (w s : Nat) (hs : s ≤ 64) :
    popcount (w <<< s) =
      (List.range (64 - s)).countP (fun j => w.testBit j) := by
  unfold popcount
  have hsplit := countP_range_add (fun i => (w <<< s).testBit i) s (64 - s)
  rw [show s + (64 - s) = 64 by omega] at hsplit
  rw [hsplit]
  have h1 : (List.range s).countP (fun i => (w <<< s).testBit i) = 0 := by
    apply List.countP_eq_zero.2
    intro i hi
    rw [List.mem_range] at hi
    rw [Nat.testBit_shiftLeft]
    simp [Nat.not_le.2 hi]
  rw [h1, Nat.zero_add]
  apply List.countP_congr
  intro j _
  rw [Nat.testBit_shiftLeft]
  simp

theorem setbits14_eq : setbits kBlockHeaderWidth = 2 ^ 14 - 1 := by decide

theorem setbits5014_eq :
    setbits kHeaderDataWidth kBlockHeaderWidth = (2 ^ 50 - 1) * 2 ^ 14 := by
  decide

theorem testBit_setbits14 (i : Nat) :
    (setbits kBlockHeaderWidth).testBit i = decide (i < 14) := by
  rw [setbits14_eq, Nat.testBit_two_pow_sub_one]

theorem testBit_setbits5014 (i : Nat) :
    (setbits kHeaderDataWidth kBlockHeaderWidth).testBit i =
      decide (14 ≤ i ∧ i < 64) := by
  rw [setbits5014_eq, ← Nat.shiftLeft_eq, Nat.testBit_shiftLeft,
    Nat.testBit_two_pow_sub_one]
  by_cases h14 : 14 ≤ i <;> by_cases h64 : i < 64 <;>
    simp [ge_iff_le, h14, h64] <;> omega

/-- A header write `(w &&& setbits 50 14) ||| c` with `c < 2 ^ 14`: bit view. -/
theorem testBit_headerWrite (w c i : Nat) (hc : c < 2 ^ 14) :
    ((w &&& setbits kHeaderDataWidth kBlockHeaderWidth) ||| c).testBit i =
      if i < 14 then c.testBit i
      else if i < 64 then w.testBit i else false := by
  rw [Nat.testBit_lor, Nat.testBit_land, testBit_setbits5014]
  by_cases h14 : i < 14
  · simp [h14, show ¬ (14 ≤ i) by omega]
  · have hcbit : c.testBit i = false :=
      Nat.testBit_lt_two_pow
        (lt_of_lt_of_le hc (Nat.pow_le_pow_right (by omega) (by omega)))
    by_cases h64 : i < 64
    · simp [h14, h64, hcbit, show 14 ≤ i by omega]
    · simp [h14, h64, hcbit, show ¬ (i < 64) by omega]

theorem headerWrite_lt (w c : Nat) (hc : c < 2 ^ 14) :
    (w &&& setbits kHeaderDataWidth kBlockHeaderWidth) ||| c < 2 ^ 64 := by
  have h1 : w &&& setbits kHeaderDataWidth kBlockHeaderWidth < 2 ^ 64 := by
    calc w &&& setbits kHeaderDataWidth kBlockHeaderWidth
        ≤ setbits kHeaderDataWidth kBlockHeaderWidth := Nat.and_le_right
      _ < 2 ^ 64 := by rw [setbits5014_eq]; norm_num
  have h2 : c < 2 ^ 64 := lt_of_lt_of_le hc (by norm_num)
  exact Nat.or_lt_two_pow h1 h2

/-- Extracting the low header bits of a written header word gives back the
header value. -/
theorem headerWrite_low (w c : Nat) (hc : c < 2 ^ 14) :
    ((w &&& setbits kHeaderDataWidth kBlockHeaderWidth) ||| c) &&&
      setbits kBlockHeaderWidth = c := by
  apply Nat.eq_of_testBit_eq
  intro i
  rw [Nat.testBit_land, testBit_setbits14, testBit_headerWrite w c i hc]
  by_cases h14 : i < 14
  · simp [h14]
  · have : c.testBit i = false :=
      Nat.testBit_lt_two_pow
        (lt_of_lt_of_le hc (Nat.pow_le_pow_right (by omega) (by omega)))
    by_cases h64 : i < 64 <;> simp [h14, h64, this]

theorem headerWrite_testBit_high (w c i : Nat) (hc : c < 2 ^ 14)
    (h14 : 14 ≤ i) (h64 : i < 64) :
    ((w &&& setbits kHeaderDataWidth kBlockHeaderWidth) ||| c).testBit i =
      w.testBit i := by
  rw [testBit_headerWrite w c i hc]
  simp [show ¬ i < 14 by omega, h64]

theorem popcount_headerWrite_shiftRight (w c : Nat) (hc : c < 2 ^ 14) :
    popcount (((w &&& setbits kHeaderDataWidth kBlockHeaderWidth) ||| c) >>>
        kBlockHeaderWidth) =
      (List.range 50).countP (fun j => w.testBit (14 + j)) := by
  show popcount (((w &&& setbits kHeaderDataWidth kBlockHeaderWidth) |||
      c) >>> 14) = (List.range (64 - 14)).countP (fun j => w.testBit (14 + j))
  rw [popcount_shiftRight _ 14 (by norm_num) (headerWrite_lt w c hc)]
  apply List.countP_congr
  intro j hj
  rw [List.mem_range] at hj
  rw [headerWrite_testBit_high w c _ hc (by omega) (by omega)]

/-! ### Positional counting of block payloads -/

/-- The number of payload ones of block `b`, counted positionally. -/
def blockOnes (d : Nat → Nat) (b : Nat) : Nat :=
  (List.range kBlockDataWidth).countP
    (fun r => bitOf d (b * kBlockDataWidth + r))

/-- The total number of payload ones of the blocks `< B`. -/
def prefixOnes (d : Nat → Nat) (B : Nat) : Nat :=
  ((List.range B).map (blockOnes d)).sum

theorem bitOf_block_word0 (d : Nat → Nat) (b r : Nat) (hr : r < 50) :
    bitOf d (b * kBlockDataWidth + r) =
      (d (b * kNumWordsPerBlock)).testBit (14 + r) := by
  rw [bitOf_eq_testBit]
  simp only [kBlockDataWidth_eq, kBlockHeaderWidth, kNumWordsPerBlock_eq,
    kWordWidth]
  have h1 : (b * 498 + r) / 498 = b := by omega
  have h2 : (b * 498 + r) % 498 = r := by omega
  rw [h1, h2]
  have h3 : (r + 14) / 64 = 0 := by omega
  have h4 : (r + 14) % 64 = 14 + r := by omega
  rw [h3, h4, Nat.add_zero]

theorem bitOf_block_wordt (d : Nat → Nat) (b t i : Nat) (ht : t < 7)
    (hi : i < 64) :
    bitOf d (b * kBlockDataWidth + (50 + 64 * t + i)) =
      (d (b * kNumWordsPerBlock + 1 + t)).testBit i := by
  rw [bitOf_eq_testBit]
  simp only [kBlockDataWidth_eq, kBlockHeaderWidth, kNumWordsPerBlock_eq,
    kWordWidth]
  have h1 : (b * 498 + (50 + 64 * t + i)) / 498 = b := by omega
  have h2 : (b * 498 + (50 + 64 * t + i)) % 498 = 50 + 64 * t + i := by omega
  rw [h1, h2]
  have h3 : (50 + 64 * t + i + 14) / 64 = 1 + t := by omega
  have h4 : (50 + 64 * t + i + 14) % 64 = i := by omega
  rw [h3, h4]
  have h5 : b * 8 + (1 + t) = b * 8 + 1 + t := by omega
  rw [h5]

theorem blockOnes_split (d : Nat → Nat) (b : Nat) :
    ∀ t, t ≤ 7 →
      (List.range (50 + 64 * t)).countP
          (fun r => bitOf d (b * kBlockDataWidth + r)) =
        (List.range 50).countP
          (fun j => (d (b * kNumWordsPerBlock)).testBit (14 + j)) +
        ((List.range t).map
          (fun u => popcount (d (b * kNumWordsPerBlock + 1 + u)))).sum := by
  intro t
  induction t with
  | zero =>
    intro _
    simp only [Nat.mul_zero, Nat.add_zero, List.range_zero, List.map_nil,
      List.sum_nil]
    apply List.countP_congr
    intro r hr
    rw [List.mem_range] at hr
    rw [bitOf_block_word0 d b r hr]
  | succ t ih =>
    intro ht
    have hsplit := countP_range_add
      (fun r => bitOf d (b * kBlockDataWidth + r)) (50 + 64 * t) 64
    rw [show 50 + 64 * t + 64 = 50 + 64 * (t + 1) by omega] at hsplit
    rw [hsplit, ih (by omega), List.sum_range_succ, Nat.add_assoc]
    congr 1
    congr 1
    rw [popcount_def]
    apply List.countP_congr
    intro i hi
    rw [List.mem_range] at hi
    rw [show b * kBlockDataWidth + (50 + 64 * t + i) =
      b * kBlockDataWidth + (50 + 64 * t) + i by omega] at *
    rw [← bitOf_block_wordt d b t i (by omega) hi]
    rw [show b * kBlockDataWidth + (50 + 64 * t + i) =
      b * kBlockDataWidth + (50 + 64 * t) + i by omega]

/-- The positional payload count of a block, as word popcounts.  The first
word contributes its bits `14 ≤ i < 64`; each later word contributes all of
its low 64 bits. -/
theorem blockOnes_eq_popcounts (d : Nat → Nat) (b : Nat) :
    blockOnes d b =
      (List.range 50).countP
        (fun j => (d (b * kNumWordsPerBlock)).testBit (14 + j)) +
      ((List.range 7).map
        (fun u => popcount (d (b * kNumWordsPerBlock + 1 + u)))).sum := by
  unfold blockOnes
  rw [show kBlockDataWidth = 50 + 64 * 7 from rfl]
  exact blockOnes_split d b 7 (by omega)

/-- `block_popcount` agrees with the positional payload count whenever the
first word of the block is a genuine 64-bit value. -/
theorem blockPopcountAt_eq_blockOnes (d : Nat → Nat) (b : Nat)
    (h0 : d (b * kNumWordsPerBlock) < 2 ^ 64) :
    blockPopcountAt d (b * kNumWordsPerBlock) = blockOnes d b := by
  rw [blockOnes_eq_popcounts]
  unfold blockPopcountAt
  rw [show kBlockHeaderWidth = 14 from rfl,
    popcount_shiftRight _ 14 (by norm_num) h0]
  rfl

theorem blockOnes_le (d : Nat → Nat) (b : Nat) :
    blockOnes d b ≤ kBlockDataWidth := by
  unfold blockOnes
  refine le_trans (List.countP_le_length _) ?h
  simp

theorem prefixOnes_zero (d : Nat → Nat) : prefixOnes d 0 = 0 := rfl

theorem prefixOnes_succ (d : Nat → Nat) (B : Nat) :
    prefixOnes d (B + 1) = prefixOnes d B + blockOnes d B :=
  List.sum_range_succ _ B

theorem prefixOnes_mono (d : Nat → Nat) {a b : Nat} (h : a ≤ b) :
    prefixOnes d a ≤ prefixOnes d b := by
  induction b with
  | zero => simp_all [prefixOnes_zero]
  | succ b ih =>
    rcases Nat.lt_or_ge a (b + 1) with h2 | h2
    · exact le_trans (ih (by omega)) (by rw [prefixOnes_succ]; omega)
    · have : a = b + 1 := by omega
      subst this
      exact le_refl _

theorem prefixOnes_sub_le (d : Nat → Nat) (a b : Nat) (h : a ≤ b) :
    prefixOnes d b - prefixOnes d a ≤ (b - a) * kBlockDataWidth := by
  induction b with
  | zero => simp [prefixOnes_zero]
  | succ b ih =>
    rcases Nat.lt_or_ge a (b + 1) with h2 | h2
    · have h3 := ih (by omega)
      have h4 := blockOnes_le d b
      rw [prefixOnes_succ]
      have h5 : (b + 1 - a) * kBlockDataWidth =
          (b - a) * kBlockDataWidth + kBlockDataWidth := by
        rw [show b + 1 - a = (b - a) + 1 by omega]
        ring
      omega
    · have : a = b + 1 := by omega
      subst this
      simp

/-! ### Ghost description of `update()`'s first loop -/

/-- The header value update() writes into real block `b`: the number of
payload ones from the start of `b`'s superblock up to the start of `b`,
computed on the pre-update data `d0`. -/
def hdrVal (d0 : Nat → Nat) (b : Nat) : Nat :=
  prefixOnes d0 b -
    prefixOnes d0 (kNumBlocksPerSuperblock * (b / kNumBlocksPerSuperblock))

/-- The data buffer after the first `k` iterations of update()'s first
loop. -/
def refData (d0 : Nat → Nat) (k : Nat) : Nat → Nat := fun j =>
  if j % kNumWordsPerBlock = 0 ∧ j < k * kNumWordsPerBlock then
    (d0 j &&& setbits kHeaderDataWidth kBlockHeaderWidth) |||
      hdrVal d0 (j / kNumWordsPerBlock)
  else d0 j

/-- The superblock table after the first `k` iterations of update()'s first
loop. -/
def refSb (d0 sb0 : Nat → Nat) (k : Nat) : Nat → Nat := fun s =>
  if kNumBlocksPerSuperblock * s < k then
    prefixOnes d0 (kNumBlocksPerSuperblock * s)
  else sb0 s

/-- The whole loop state after the first `k` iterations of update()'s first
loop. -/
def refSt (d0 sb0 : Nat → Nat) (k : Nat) : UpdState :=
  { data := refData d0 k
    sb := refSb d0 sb0 k
    cur_rank := prefixOnes d0
      (kNumBlocksPerSuperblock * ((k - 1) / kNumBlocksPerSuperblock))
    cur_block_rank := prefixOnes d0 k - prefixOnes d0
      (kNumBlocksPerSuperblock * ((k - 1) / kNumBlocksPerSuperblock))
    cur_num_super_block := div_ceil k kNumBlocksPerSuperblock }

theorem UpdState.ext (a b : UpdState) (h1 : a.data = b.data)
    (h2 : a.sb = b.sb) (h3 : a.cur_rank = b.cur_rank)
    (h4 : a.cur_block_rank = b.cur_block_rank)
    (h5 : a.cur_num_super_block = b.cur_num_super_block) : a = b := by
  cases a
  cases b
  simp_all

theorem refData_word0_lt (d0 : Nat → Nat) (k b : Nat) (hb : b < k) :
    refData d0 k (b * kNumWordsPerBlock) =
      (d0 (b * kNumWordsPerBlock) &&&
        setbits kHeaderDataWidth kBlockHeaderWidth) ||| hdrVal d0 b := by
  unfold refData
  rw [if_pos]
  · congr 2
    rw [kNumWordsPerBlock_eq]
    omega
  · rw [kNumWordsPerBlock_eq]
    omega

theorem refData_word0_ge (d0 : Nat → Nat) (k b : Nat) (hb : k ≤ b) :
    refData d0 k (b * kNumWordsPerBlock) = d0 (b * kNumWordsPerBlock) := by
  unfold refData
  rw [if_neg]
  rw [kNumWordsPerBlock_eq]
  omega

theorem refData_other (d0 : Nat → Nat) (k j : Nat)
    (hj : j % kNumWordsPerBlock ≠ 0) : refData d0 k j = d0 j := by
  unfold refData
  rw [if_neg]
  intro hcon
  exact hj hcon.1

/-- The header values written by update() always fit in the 14 header
bits. -/
theorem hdrVal_lt (d0 : Nat → Nat) (b : Nat) : hdrVal d0 b < 2 ^ 14 := by
  unfold hdrVal
  rw [kNumBlocksPerSuperblock_eq]
  have h1 : 32 * (b / 32) ≤ b := by omega
  have h2 := prefixOnes_sub_le d0 (32 * (b / 32)) b h1
  rw [kBlockDataWidth_eq] at h2
  have h3 : b - 32 * (b / 32) ≤ 32 := by omega
  have h4 : (b - 32 * (b / 32)) * 498 ≤ 32 * 498 := Nat.mul_le_mul_right 498 h3
  omega

/-- The running block rank maintained by update()'s first loop always fits
in the 14 header bits. -/
theorem curBlockRank_lt (d0 : Nat → Nat) (k : Nat) :
    prefixOnes d0 k - prefixOnes d0
      (kNumBlocksPerSuperblock * ((k - 1) / kNumBlocksPerSuperblock)) <
        2 ^ 14 := by
  rw [kNumBlocksPerSuperblock_eq]
  have h1 : 32 * ((k - 1) / 32) ≤ k := by omega
  have h2 := prefixOnes_sub_le d0 (32 * ((k - 1) / 32)) k h1
  rw [kBlockDataWidth_eq] at h2
  have h3 : k - 32 * ((k - 1) / 32) ≤ 32 := by omega
  have h4 : (k - 32 * ((k - 1) / 32)) * 498 ≤ 32 * 498 :=
    Nat.mul_le_mul_right 498 h3
  omega

/-- After update() writes a header into the first word of block `k`, the
popcount it reads back for the block is the positional payload count of the
pre-update data. -/
theorem blockPopcountAt_after_write (d0 : Nat → Nat) (k c : Nat)
    (hc : c < 2 ^ 14) :
    blockPopcountAt
      (Function.update (refData d0 k) (k * kNumWordsPerBlock)
        ((d0 (k * kNumWordsPerBlock) &&&
          setbits kHeaderDataWidth kBlockHeaderWidth) ||| c))
      (k * kNumWordsPerBlock) = blockOnes d0 k := by
  rw [blockOnes_eq_popcounts]
  unfold blockPopcountAt
  congr 1
  · rw [Function.update_same]
    exact popcount_headerWrite_shiftRight (d0 (k * kNumWordsPerBlock)) c hc
  · show (List.map _ (List.range (kNumWordsPerBlock - 1))).sum = _
    rw [show kNumWordsPerBlock - 1 = 7 from rfl]
    congr 1
    apply List.map_congr_left
    intro u hu
    rw [List.mem_range] at hu
    rw [Function.update_noteq (a := k * kNumWordsPerBlock + 1 + u)
      (by rw [kNumWordsPerBlock_eq]; omega)]
    rw [refData_other d0 k _ (by rw [kNumWordsPerBlock_eq]; omega)]

/-- One iteration of update()'s first loop takes the ghost state at block `k`
to the ghost state at block `k + 1`. -/
theorem updStep_ref (d0 sb0 : Nat → Nat) (k : Nat) :
    updStep (refSt d0 sb0 k) (k * kNumWordsPerBlock) =
      refSt d0 sb0 (k + 1) := by
  have hmono : prefixOnes d0
      (kNumBlocksPerSuperblock * ((k - 1) / kNumBlocksPerSuperblock)) ≤
      prefixOnes d0 k := by
    apply prefixOnes_mono
    rw [kNumBlocksPerSuperblock_eq]
    omega
  rw [kNumBlocksPerSuperblock_eq] at hmono
  have hsucc := prefixOnes_succ d0 k
  by_cases hk : k % kNumBlocksPerSuperblock = 0
  · -- block k starts a new superblock
    rw [kNumBlocksPerSuperblock_eq] at hk
    have hcond : (k * kNumWordsPerBlock) % kNumWordsPerSuperblock = 0 := by
      rw [kNumWordsPerBlock_eq, kNumWordsPerSuperblock_eq]
      omega
    have hdiv : 32 * ((k + 1 - 1) / 32) = k := by omega
    have hdiv0 : 32 * ((k - 1) / 32) ≤ k := by omega
    apply UpdState.ext
    · -- data
      funext j
      simp only [updStep, hcond, ite_true, refSt]
      by_cases hj : j = k * kNumWordsPerBlock
      · subst hj
        rw [Function.update_same, refData_word0_lt d0 (k + 1) k (by omega),
          refData_word0_ge d0 k k (le_refl k)]
        have hzero : hdrVal d0 k = 0 := by
          unfold hdrVal
          rw [kNumBlocksPerSuperblock_eq]
          rw [show 32 * (k / 32) = k by omega]
          omega
        rw [hzero]
      · rw [Function.update_noteq hj]
        unfold refData
        rw [kNumWordsPerBlock_eq] at hj ⊢
        by_cases hm : j % 8 = 0 ∧ j < k * 8
        · rw [if_pos hm, if_pos (by omega)]
        · rw [if_neg hm, if_neg (by omega)]
    · -- sb
      funext s
      simp only [updStep, hcond, ite_true, refSt]
      have hceil : div_ceil k kNumBlocksPerSuperblock = k / 32 := by
        unfold div_ceil
        rw [kNumBlocksPerSuperblock_eq]
        split_ifs <;> omega
      rw [hceil]
      by_cases hs : s = k / 32
      · subst hs
        rw [Function.update_same]
        unfold refSb
        rw [kNumBlocksPerSuperblock_eq,
          if_pos (by omega), show 32 * (k / 32) = k by omega]
        omega
      · rw [Function.update_noteq (Ne.symm (fun h => hs h.symm))]
        unfold refSb
        rw [kNumBlocksPerSuperblock_eq]
        by_cases hlt : 32 * s < k
        · rw [if_pos hlt, if_pos (by omega)]
        · rw [if_neg hlt, if_neg (by omega)]
    · -- cur_rank
      simp only [updStep, hcond, ite_true, refSt]
      rw [kNumBlocksPerSuperblock_eq, hdiv]
      omega
    · -- cur_block_rank
      simp only [updStep, hcond, ite_true, refSt]
      rw [refData_word0_ge d0 k k (le_refl k)]
      rw [blockPopcountAt_after_write d0 k 0 (by norm_num)]
      rw [kNumBlocksPerSuperblock_eq, hdiv]
      omega
    · -- cur_num_super_block
      simp only [updStep, hcond, ite_true, refSt]
      unfold div_ceil
      rw [kNumBlocksPerSuperblock_eq]
      split_ifs <;> omega
  · -- block k continues the current superblock
    rw [kNumBlocksPerSuperblock_eq] at hk
    have hcond : ¬ ((k * kNumWordsPerBlock) % kNumWordsPerSuperblock = 0) := by
      rw [kNumWordsPerBlock_eq, kNumWordsPerSuperblock_eq]
      omega
    have hdiv : (k + 1 - 1) / 32 = (k - 1) / 32 := by omega
    have hdivk : k / 32 = (k - 1) / 32 := by omega
    apply UpdState.ext
    · -- data
      funext j
      simp only [updStep, hcond, ite_false, refSt]
      by_cases hj : j = k * kNumWordsPerBlock
      · subst hj
        rw [Function.update_same, refData_word0_lt d0 (k + 1) k (by omega),
          refData_word0_ge d0 k k (le_refl k)]
        congr 1
        unfold hdrVal
        rw [kNumBlocksPerSuperblock_eq, hdivk]
      · rw [Function.update_noteq hj]
        unfold refData
        rw [kNumWordsPerBlock_eq] at hj ⊢
        by_cases hm : j % 8 = 0 ∧ j < k * 8
        · rw [if_pos hm, if_pos (by omega)]
        · rw [if_neg hm, if_neg (by omega)]
    · -- sb
      funext s
      simp only [updStep, hcond, ite_false, refSt]
      unfold refSb
      rw [kNumBlocksPerSuperblock_eq]
      by_cases hlt : 32 * s < k
      · rw [if_pos hlt, if_pos (by omega)]
      · rw [if_neg hlt, if_neg (by omega)]
    · -- cur_rank
      simp only [updStep, hcond, ite_false, refSt]
      rw [kNumBlocksPerSuperblock_eq, hdiv]
    · -- cur_block_rank
      simp only [updStep, hcond, ite_false, refSt]
      rw [refData_word0_ge d0 k k (le_refl k)]
      rw [kNumBlocksPerSuperblock_eq, hdiv]
      have hc : prefixOnes d0 k - prefixOnes d0 (32 * ((k - 1) / 32)) <
          2 ^ 14 := by
        have := curBlockRank_lt d0 k
        rwa [kNumBlocksPerSuperblock_eq] at this
      rw [blockPopcountAt_after_write d0 k
        (prefixOnes d0 k - prefixOnes d0 (32 * ((k - 1) / 32))) hc]
      omega
    · -- cur_num_super_block
      simp only [updStep, hcond, ite_false, refSt]
      unfold div_ceil
      rw [kNumBlocksPerSuperblock_eq]
      split_ifs <;> omega

theorem updLoop1_ref (d0 sb0 : Nat → Nat) :
    ∀ n k, updLoop1 (refSt d0 sb0 k) (k * kNumWordsPerBlock) n =
      refSt d0 sb0 (k + n) := by
  intro n
  induction n with
  | zero =>
    intro k
    rfl
  | succ n ih =>
    intro k
    show updLoop1 (updStep (refSt d0 sb0 k) (k * kNumWordsPerBlock))
      (k * kNumWordsPerBlock + kNumWordsPerBlock) n = _
    rw [updStep_ref,
      show k * kNumWordsPerBlock + kNumWordsPerBlock =
        (k + 1) * kNumWordsPerBlock by ring,
      ih (k + 1)]
    congr 1
    omega

theorem refSt_zero (d0 sb0 : Nat → Nat) :
    refSt d0 sb0 0 = ⟨d0, sb0, 0, 0, 0⟩ := by
  apply UpdState.ext
  · funext j
    show refData d0 0 j = d0 j
    unfold refData
    rw [if_neg]
    rw [kNumWordsPerBlock_eq]
    omega
  · funext s
    show refSb d0 sb0 0 s = sb0 s
    unfold refSb
    rw [if_neg]
    omega
  · show prefixOnes d0
      (kNumBlocksPerSuperblock * ((0 - 1) / kNumBlocksPerSuperblock)) = 0
    rw [kNumBlocksPerSuperblock_eq]
    norm_num
    exact prefixOnes_zero d0
  · show prefixOnes d0 0 - _ = 0
    rw [prefixOnes_zero]
    omega
  · show div_ceil 0 kNumBlocksPerSuperblock = 0
    unfold div_ceil
    simp

/-! ### Ghost description of `update()`'s pad loop -/

/-- The header value update()'s pad loop writes into pad block `b`, when the
loop starts at block `m` with running rank `c`: the rank is reset to zero at
the first superblock boundary at or after block `m`. -/
def padVal (c m b : Nat) : Nat :=
  if kNumBlocksPerSuperblock * div_ceil m kNumBlocksPerSuperblock ≤ b then 0
  else c

/-- The data buffer after the first `t` iterations of update()'s pad loop
starting at block `m` with running rank `c` over data `d1`. -/
def refPad (d1 : Nat → Nat) (c m t : Nat) : Nat → Nat := fun j =>
  if j % kNumWordsPerBlock = 0 ∧ m * kNumWordsPerBlock ≤ j ∧
      j < (m + t) * kNumWordsPerBlock then
    padVal c m (j / kNumWordsPerBlock)
  else d1 j

/-- The running rank of update()'s pad loop after `t` iterations. -/
def padCbr (c m t : Nat) : Nat :=
  if kNumBlocksPerSuperblock * div_ceil m kNumBlocksPerSuperblock < m + t
  then 0 else c

theorem refPad_zero (d1 : Nat → Nat) (c m : Nat) : refPad d1 c m 0 = d1 := by
  funext j
  unfold refPad
  rw [if_neg]
  rw [kNumWordsPerBlock_eq]
  omega

theorem padCbr_zero (c m : Nat) : padCbr c m 0 = c := by
  unfold padCbr div_ceil
  rw [kNumBlocksPerSuperblock_eq, if_neg]
  split_ifs <;> omega

/-- Facts about the first superblock boundary at or after block `m`. -/
theorem boundary_facts (m : Nat) :
    m ≤ kNumBlocksPerSuperblock * div_ceil m kNumBlocksPerSuperblock ∧
    (kNumBlocksPerSuperblock * div_ceil m kNumBlocksPerSuperblock) %
      kNumBlocksPerSuperblock = 0 ∧
    kNumBlocksPerSuperblock * div_ceil m kNumBlocksPerSuperblock <
      m + kNumBlocksPerSuperblock := by
  unfold div_ceil
  rw [kNumBlocksPerSuperblock_eq]
  split_ifs <;> refine ⟨by omega, by omega, by omega⟩

theorem updLoop2_ref (d1 : Nat → Nat) (c m : Nat) :
    ∀ n t, updLoop2 (refPad d1 c m t) (padCbr c m t)
        ((m + t) * kNumWordsPerBlock) n = refPad d1 c m (t + n) := by
  obtain ⟨hM1, hM2, hM3⟩ := boundary_facts m
  rw [kNumBlocksPerSuperblock_eq] at hM1 hM2 hM3
  intro n
  induction n with
  | zero =>
    intro t
    rfl
  | succ n ih =>
    intro t
    show updLoop2 _ _ ((m + t) * kNumWordsPerBlock + kNumWordsPerBlock) n = _
    have hbcbr :
        (if (m + t) * kNumWordsPerBlock % kNumWordsPerSuperblock = 0 then 0
          else padCbr c m t) = padCbr c m (t + 1) := by
      unfold padCbr
      rw [kNumBlocksPerSuperblock_eq]
      have hbd : (m + t) * kNumWordsPerBlock % kNumWordsPerSuperblock = 0 ↔
          (m + t) % 32 = 0 := by
        rw [kNumWordsPerBlock_eq, kNumWordsPerSuperblock_eq]
        omega
      by_cases hb : (m + t) % 32 = 0
      · rw [if_pos (hbd.2 hb), if_pos (by omega)]
      · rw [if_neg (fun h => hb (hbd.1 h))]
        by_cases hlt : 32 * div_ceil m 32 < m + t
        · rw [if_pos hlt, if_pos (by omega)]
        · rw [if_neg hlt, if_neg (by omega)]
    rw [hbcbr]
    have hdata :
        Function.update (refPad d1 c m t) ((m + t) * kNumWordsPerBlock)
          (padCbr c m (t + 1)) = refPad d1 c m (t + 1) := by
      funext j
      by_cases hj : j = (m + t) * kNumWordsPerBlock
      · subst hj
        rw [Function.update_same]
        unfold refPad
        rw [if_pos (by
          refine ⟨by rw [kNumWordsPerBlock_eq]; omega,
            by rw [kNumWordsPerBlock_eq]; omega,
            by rw [kNumWordsPerBlock_eq]; omega⟩)]
        unfold padVal padCbr
        rw [kNumBlocksPerSuperblock_eq]
        rw [show (m + t) * kNumWordsPerBlock / kNumWordsPerBlock = m + t by
          rw [kNumWordsPerBlock_eq]; omega]
        by_cases hle : 32 * div_ceil m 32 ≤ m + t
        · rw [if_pos hle, if_pos (by omega)]
        · rw [if_neg hle, if_neg (by omega)]
      · rw [Function.update_noteq hj]
        unfold refPad
        rw [kNumWordsPerBlock_eq] at hj ⊢
        by_cases hm : j % 8 = 0 ∧ m * 8 ≤ j ∧ j < (m + t) * 8
        · rw [if_pos hm, if_pos (by omega)]
        · rw [if_neg hm, if_neg (by omega)]
    rw [hdata]
    rw [show (m + t) * kNumWordsPerBlock + kNumWordsPerBlock =
      (m + (t + 1)) * kNumWordsPerBlock by ring]
    rw [ih (t + 1)]
    rw [show t + 1 + n = t + (n + 1) by omega]

/-! ### Word-level characterization of `update()` -/

/-- The running block rank at the end of update()'s first loop over `n`
blocks on pre-update data `d0`, which seeds the pad loop. -/
def finalCbr (d0 : Nat → Nat) (n : Nat) : Nat :=
  prefixOnes d0 n -
    prefixOnes d0 (kNumBlocksPerSuperblock * ((n - 1) / kNumBlocksPerSuperblock))

theorem update_eq (bv : BV) :
    bv.update =
      { bv with
        data := refPad (refData bv.data bv.num_blocks)
          (finalCbr bv.data bv.num_blocks) bv.num_blocks
          kNumBlocksPerSuperblock
        sbdata := refSb bv.data bv.sbdata bv.num_blocks } := by
  unfold BV.update
  have h1 : updLoop1 ⟨bv.data, bv.sbdata, 0, 0, 0⟩ 0 bv.num_blocks =
      refSt bv.data bv.sbdata bv.num_blocks := by
    rw [← refSt_zero bv.data bv.sbdata]
    have := updLoop1_ref bv.data bv.sbdata bv.num_blocks 0
    rw [show (0 : Nat) * kNumWordsPerBlock = 0 by omega] at this
    rw [this]
    congr 1
    omega
  rw [h1]
  have h2 : updLoop2 (refSt bv.data bv.sbdata bv.num_blocks).data
      (refSt bv.data bv.sbdata bv.num_blocks).cur_block_rank
      (bv.num_blocks * kNumWordsPerBlock) kNumBlocksPerSuperblock =
      refPad (refData bv.data bv.num_blocks) (finalCbr bv.data bv.num_blocks)
        bv.num_blocks kNumBlocksPerSuperblock := by
    have h3 := updLoop2_ref (refData bv.data bv.num_blocks)
      (finalCbr bv.data bv.num_blocks) bv.num_blocks kNumBlocksPerSuperblock 0
    rw [refPad_zero, padCbr_zero, Nat.add_zero, Nat.zero_add] at h3
    exact h3
  simp only [h2]
  rfl

theorem update_length (bv : BV) : (bv.update).length = bv.length := by
  rw [update_eq]

theorem update_num_blocks (bv : BV) :
    (bv.update).num_blocks = bv.num_blocks := by
  unfold BV.num_blocks
  rw [update_length]

theorem update_num_superblocks (bv : BV) :
    (bv.update).num_superblocks = bv.num_superblocks := by
  unfold BV.num_superblocks
  rw [update_length]

theorem update_data_real_word0 (bv : BV) (b : Nat) (hb : b < bv.num_blocks) :
    (bv.update).data (b * kNumWordsPerBlock) =
      (bv.data (b * kNumWordsPerBlock) &&&
        setbits kHeaderDataWidth kBlockHeaderWidth) ||| hdrVal bv.data b := by
  rw [update_eq]
  show refPad _ _ _ _ _ = _
  unfold refPad
  rw [if_neg (by rw [kNumWordsPerBlock_eq]; omega)]
  exact refData_word0_lt bv.data bv.num_blocks b hb

theorem update_data_pad_word0 (bv : BV) (b : Nat) (hb1 : bv.num_blocks ≤ b)
    (hb2 : b < bv.num_blocks + kNumBlocksPerSuperblock) :
    (bv.update).data (b * kNumWordsPerBlock) =
      padVal (finalCbr bv.data bv.num_blocks) bv.num_blocks b := by
  rw [update_eq]
  show refPad _ _ _ _ _ = _
  unfold refPad
  rw [kNumBlocksPerSuperblock_eq] at hb2
  rw [if_pos (by
    refine ⟨by rw [kNumWordsPerBlock_eq]; omega,
      by rw [kNumWordsPerBlock_eq]; omega, ?hc⟩
    rw [kNumWordsPerBlock_eq, kNumBlocksPerSuperblock_eq]
    omega)]
  rw [show b * kNumWordsPerBlock / kNumWordsPerBlock = b by
    rw [kNumWordsPerBlock_eq]; omega]

theorem update_data_other (bv : BV) (j : Nat)
    (hj : j % kNumWordsPerBlock ≠ 0) : (bv.update).data j = bv.data j := by
  rw [update_eq]
  show refPad _ _ _ _ _ = _
  unfold refPad
  rw [if_neg (fun h => hj h.1)]
  exact refData_other bv.data bv.num_blocks j hj

theorem update_sbdata (bv : BV) (s : Nat) :
    (bv.update).sbdata s =
      if kNumBlocksPerSuperblock * s < bv.num_blocks then
        prefixOnes bv.data (kNumBlocksPerSuperblock * s)
      else bv.sbdata s := by
  rw [update_eq]
  rfl

/-! ### Structural facts about block and superblock counts -/

theorem num_blocks_ge (bv : BV) :
    bv.length ≤ bv.num_blocks * kBlockDataWidth := by
  unfold BV.num_blocks div_ceil
  rw [kBlockDataWidth_eq]
  split_ifs <;> omega

theorem num_blocks_lt (bv : BV) :
    bv.num_blocks * kBlockDataWidth < bv.length + kBlockDataWidth := by
  unfold BV.num_blocks div_ceil
  rw [kBlockDataWidth_eq]
  split_ifs <;> omega

theorem num_superblocks_ge (bv : BV) :
    bv.length ≤ bv.num_superblocks * kSuperblockDataWidth := by
  unfold BV.num_superblocks div_ceil
  rw [kSuperblockDataWidth_eq]
  split_ifs <;> omega

theorem num_superblocks_lt (bv : BV) :
    bv.num_superblocks * kSuperblockDataWidth <
      bv.length + kSuperblockDataWidth := by
  unfold BV.num_superblocks div_ceil
  rw [kSuperblockDataWidth_eq]
  split_ifs <;> omega

/-! ### Effect of `update()` on `is_set` -/

/-- update() never changes a payload bit of a real block: `is_set` is
preserved at every position of the real blocks (in particular at every
position below `length`). -/
theorem update_is_set (bv : BV) (p : Nat)
    (hp : p < bv.num_blocks * kBlockDataWidth) :
    (bv.update).is_set p = bv.is_set p := by
  show bitOf (bv.update).data p = bitOf bv.data p
  rw [bitOf_eq_testBit, bitOf_eq_testBit]
  have hb : p / kBlockDataWidth < bv.num_blocks := by
    rw [kBlockDataWidth_eq] at *
    rcases Nat.lt_or_ge (p / 498) bv.num_blocks with h | h
    · exact h
    · exact absurd hp (by
        have := Nat.mul_le_mul_right 498 h
        omega)
  by_cases hlw : (p % kBlockDataWidth + kBlockHeaderWidth) / kWordWidth = 0
  · have h14 : 14 ≤ (p % kBlockDataWidth + kBlockHeaderWidth) % kWordWidth := by
      simp only [kBlockDataWidth_eq, kBlockHeaderWidth_eq, kWordWidth_eq] at *
      omega
    have h64 : (p % kBlockDataWidth + kBlockHeaderWidth) % kWordWidth < 64 := by
      simp only [kWordWidth_eq]
      omega
    rw [hlw, Nat.add_zero]
    rw [update_data_real_word0 bv (p / kBlockDataWidth) hb]
    rw [headerWrite_testBit_high _ _ _ (hdrVal_lt bv.data _) h14 h64]
  · rw [update_data_other]
    simp only [kBlockDataWidth_eq, kBlockHeaderWidth_eq, kWordWidth_eq,
      kNumWordsPerBlock_eq] at *
    omega

/-- The positional one-count below any position of the real blocks is
unchanged by update(). -/
theorem update_ones (bv : BV) (p : Nat)
    (hp : p ≤ bv.num_blocks * kBlockDataWidth) :
    (bv.update).ones p = bv.ones p := by
  unfold BV.ones
  apply List.countP_congr
  intro q hq
  rw [List.mem_range] at hq
  rw [update_is_set bv q (by omega)]

theorem prefixOnes_eq_countP (d : Nat → Nat) (B : Nat) :
    prefixOnes d B =
      (List.range (B * kBlockDataWidth)).countP (fun q => bitOf d q) := by
  induction B with
  | zero => simp [prefixOnes_zero]
  | succ B ih =>
    rw [prefixOnes_succ, ih,
      show (B + 1) * kBlockDataWidth = B * kBlockDataWidth + kBlockDataWidth
        by ring,
      countP_range_add]
    rfl

/-- `prefixOnes` is the positional rank at block boundaries. -/
theorem prefixOnes_eq_ones (bv : BV) (B : Nat) :
    prefixOnes bv.data B = bv.ones (B * kBlockDataWidth) := by
  rw [prefixOnes_eq_countP]
  rfl

theorem update_data_lt (bv : BV)
    (hword : ∀ j, j < bv.dataSize → bv.data j < 2 ^ 64) :
    ∀ j, j < bv.dataSize → (bv.update).data j < 2 ^ 64 := by
  intro j hj
  by_cases hm : j % kNumWordsPerBlock = 0
  · have hb8 : j = (j / kNumWordsPerBlock) * kNumWordsPerBlock := by
      rw [kNumWordsPerBlock_eq] at *
      omega
    by_cases hreal : j / kNumWordsPerBlock < bv.num_blocks
    · rw [hb8, update_data_real_word0 bv _ hreal]
      exact headerWrite_lt _ _ (hdrVal_lt _ _)
    · have hpad2 : j / kNumWordsPerBlock <
          bv.num_blocks + kNumBlocksPerSuperblock := by
        unfold BV.dataSize at hj
        rw [kNumWordsPerBlock_eq, kNumBlocksPerSuperblock_eq] at *
        omega
      rw [hb8, update_data_pad_word0 bv _ (by omega) hpad2]
      unfold padVal
      split_ifs
      · norm_num
      · calc finalCbr bv.data bv.num_blocks < 2 ^ 14 := curBlockRank_lt _ _
          _ < 2 ^ 64 := by norm_num
  · rw [update_data_other bv j hm]
    exact hword j hj

/-- update() preserves well-formedness. -/
theorem update_WF (bv : BV) (h : WF bv) : WF (bv.update) := by
  obtain ⟨h0, h1, h2⟩ := h
  refine ⟨by rw [update_length]; exact h0, ?ha, ?hb⟩
  · intro j hj
    have hds : (bv.update).dataSize = bv.dataSize := by
      unfold BV.dataSize
      rw [update_num_blocks]
    rw [hds] at hj
    exact update_data_lt bv h1 j hj
  · intro p hp1 hp2
    rw [update_length] at hp2
    rw [update_num_blocks] at hp1
    rw [update_is_set bv p hp1]
    exact h2 p hp1 hp2

theorem update_bitOf (bv : BV) (p : Nat)
    (hp : p < bv.num_blocks * kBlockDataWidth) :
    bitOf (bv.update).data p = bitOf bv.data p := update_is_set bv p hp

theorem update_prefixOnes (bv : BV) (B : Nat) (hB : B ≤ bv.num_blocks) :
    prefixOnes (bv.update).data B = prefixOnes bv.data B := by
  rw [prefixOnes_eq_countP, prefixOnes_eq_countP]
  apply List.countP_congr
  intro q hq
  rw [List.mem_range] at hq
  have hlt : q < bv.num_blocks * kBlockDataWidth :=
    lt_of_lt_of_le hq (Nat.mul_le_mul_right _ hB)
  rw [update_bitOf bv q hlt]

theorem prefixOnes_diff (d : Nat → Nat) (A B : Nat) (h : A ≤ B) :
    prefixOnes d B = prefixOnes d A +
      (List.range (B * kBlockDataWidth - A * kBlockDataWidth)).countP
        (fun r => bitOf d (A * kBlockDataWidth + r)) := by
  rw [prefixOnes_eq_countP, prefixOnes_eq_countP]
  have hsplit := countP_range_add (fun q => bitOf d q) (A * kBlockDataWidth)
    (B * kBlockDataWidth - A * kBlockDataWidth)
  rw [show A * kBlockDataWidth +
      (B * kBlockDataWidth - A * kBlockDataWidth) = B * kBlockDataWidth by
    have := Nat.mul_le_mul_right kBlockDataWidth h
    omega] at hsplit
  exact hsplit

/-- Reading back the low header bits of a finalized real block gives the
written header value. -/
theorem update_header (bv : BV) (b : Nat) (hb : b < bv.num_blocks) :
    (bv.update).data (b * kNumWordsPerBlock) &&& setbits kBlockHeaderWidth =
      hdrVal bv.data b := by
  rw [update_data_real_word0 bv b hb]
  exact headerWrite_low _ _ (hdrVal_lt _ _)

theorem headerWrite_and_mask (w c : Nat) (hc : c < 2 ^ 14) :
    ((w &&& setbits kHeaderDataWidth kBlockHeaderWidth) ||| c) &&&
      setbits kHeaderDataWidth kBlockHeaderWidth =
      w &&& setbits kHeaderDataWidth kBlockHeaderWidth := by
  apply Nat.eq_of_testBit_eq
  intro i
  rw [Nat.testBit_land, testBit_headerWrite w c i hc, Nat.testBit_land,
    testBit_setbits5014]
  by_cases h14 : i < 14
  · simp [h14, show ¬ (14 ≤ i) by omega]
  · by_cases h64 : i < 64
    · simp [h14, h64, show 14 ≤ i by omega]
    · simp [h14, h64]

theorem update_data_far (bv : BV) (j : Nat)
    (hj : (bv.num_blocks + kNumBlocksPerSuperblock) * kNumWordsPerBlock ≤ j) :
    (bv.update).data j = bv.data j := by
  rw [update_eq]
  show refPad _ _ _ _ _ = _
  unfold refPad
  rw [if_neg (by
    rw [kNumWordsPerBlock_eq, kNumBlocksPerSuperblock_eq] at *
    omega)]
  unfold refData
  rw [if_neg (by
    rw [kNumWordsPerBlock_eq, kNumBlocksPerSuperblock_eq] at *
    omega)]

theorem BV.ext2 (a b : BV) (h1 : a.length = b.length) (h2 : a.data = b.data)
    (h3 : a.sbdata = b.sbdata) : a = b := by
  cases a
  cases b
  simp_all

/-! ### Claims about the finalization pass -/

def zeroMem : Nat → Nat := fun _ => 0

/-- A length-1 bit vector with zeroed backing memory, used as a concrete
witness instance. -/
def bvOne : BV := mkBV 1 zeroMem zeroMem

/-- A one-block bit vector (length 498) with bit 0 set, used as a concrete
witness instance. -/
def bvB498 : BV := (mkBV 498 zeroMem zeroMem).set 0

/-- Claim C10: update() is idempotent: a second call to update() with no
intervening mutation leaves the data buffer (headers, payload and pad
blocks) and the superblock table exactly as the first call left them,
because block_popcount masks the header bits out of the first word before
counting, so headers are recomputed from payload only. -/
theorem claim_C10 (bv : BV) : bv.update.update = bv.update := by
  apply BV.ext2
  · rw [update_length]
  · funext j
    by_cases hm : j % kNumWordsPerBlock = 0
    · have hj8 : j = (j / kNumWordsPerBlock) * kNumWordsPerBlock := by
        rw [kNumWordsPerBlock_eq] at *
        omega
      by_cases hreal : j / kNumWordsPerBlock < bv.num_blocks
      · rw [hj8, update_data_real_word0 (bv.update) _
          (by rw [update_num_blocks]; exact hreal),
          update_data_real_word0 bv _ hreal,
          headerWrite_and_mask _ _ (hdrVal_lt bv.data _)]
        have he : hdrVal (bv.update).data (j / kNumWordsPerBlock) =
            hdrVal bv.data (j / kNumWordsPerBlock) := by
          unfold hdrVal
          rw [update_prefixOnes bv _ (le_of_lt hreal),
            update_prefixOnes bv _
              (by rw [kNumBlocksPerSuperblock_eq]; omega)]
        rw [he]
      · by_cases hpad : j / kNumWordsPerBlock <
            bv.num_blocks + kNumBlocksPerSuperblock
        · rw [hj8, update_data_pad_word0 (bv.update) _
            (by rw [update_num_blocks]; omega)
            (by rw [update_num_blocks]; exact hpad),
            update_data_pad_word0 bv _ (by omega) hpad,
            update_num_blocks]
          unfold padVal
          split_ifs with h
          · rfl
          · unfold finalCbr
            rw [update_prefixOnes bv _ (le_refl _),
              update_prefixOnes bv _ (by rw [kNumBlocksPerSuperblock_eq]; omega)]
        · rw [hj8, update_data_far (bv.update) _ (by
            rw [update_num_blocks]
            rw [kNumWordsPerBlock_eq, kNumBlocksPerSuperblock_eq] at *
            omega),
            update_data_far bv _ (by
            rw [kNumWordsPerBlock_eq, kNumBlocksPerSuperblock_eq] at *
            omega)]
    · rw [update_data_other _ j hm, update_data_other bv j hm]
  · funext s
    rw [update_sbdata (bv.update) s, update_num_blocks]
    by_cases hlt : kNumBlocksPerSuperblock * s < bv.num_blocks
    · rw [if_pos hlt, update_sbdata bv s, if_pos hlt]
      exact update_prefixOnes bv _ (by rw [kNumBlocksPerSuperblock_eq] at *; omega)
    · rw [if_neg hlt]

/-- The number of set bits of `bv` at positions in `[a, b)`. -/
def BV.onesIn (bv : BV) (a b : Nat) : Nat :=
  (List.range (b - a)).countP (fun r => bv.is_set (a + r))

/-- Claim C5: for every bit vector and every position `p < length`, the value
returned by is_set(p) is the same before and after a call to update():
update() modifies only the low header bits of each block's first word and
the superblock table, never the payload bits. -/
theorem claim_C5 (bv : BV) (p : Nat) (hp : p < bv.length) :
    (bv.update).is_set p = bv.is_set p := by
  apply update_is_set
  have := num_blocks_ge bv
  omega

/-- Witness for claim C5 at the length-1 vector and position 0. -/
theorem claim_C5_witness :
    0 < bvOne.length ∧ (bvOne.update).is_set 0 = bvOne.is_set 0 :=
  ⟨by decide, claim_C5 bvOne 0 (by decide)⟩

/-- Claim C3: after update(), for every superblock `s` and every real block
`b` lying inside superblock `s`, the low `kBlockHeaderWidth` bits of block
`b`'s first word equal the number of ones from the start of superblock `s`
up to the start of block `b`, and `superblock_data[s]` equals the total
number of ones in positions `[0, s * kSuperblockDataWidth)`. -/
theorem claim_C3 (bv : BV) (s b : Nat) (hs : s < bv.num_superblocks)
    (hb : b < bv.num_blocks) (hbs : b / kNumBlocksPerSuperblock = s) :
    ((bv.update).data (b * kNumWordsPerBlock) &&& setbits kBlockHeaderWidth =
      (bv.update).onesIn (s * kSuperblockDataWidth) (b * kBlockDataWidth)) ∧
    (bv.update).sbdata s = (bv.update).ones (s * kSuperblockDataWidth) := by
  have harith : s * kSuperblockDataWidth =
      (kNumBlocksPerSuperblock * s) * kBlockDataWidth := by
    rw [kSuperblockDataWidth_eq, kNumBlocksPerSuperblock_eq,
      kBlockDataWidth_eq]
    ring
  have h32s : kNumBlocksPerSuperblock * s < bv.num_blocks := by
    have h1 := num_superblocks_lt bv
    have h2 := num_blocks_ge bv
    rw [kNumBlocksPerSuperblock_eq]
    rw [kSuperblockDataWidth_eq] at h1
    rw [kBlockDataWidth_eq] at h2
    have h3 : s * 15936 + 15936 ≤ bv.num_superblocks * 15936 :=
      by
        have : s + 1 ≤ bv.num_superblocks := hs
        have := Nat.mul_le_mul_right 15936 this
        omega
    by_contra hcon
    have h4 : bv.num_blocks ≤ 32 * s := by omega
    have h5 := Nat.mul_le_mul_right 498 h4
    omega
  constructor
  · rw [update_header bv b hb]
    unfold hdrVal BV.onesIn
    rw [hbs]
    have hle : kNumBlocksPerSuperblock * s ≤ b := by
      rw [← hbs, kNumBlocksPerSuperblock_eq]
      omega
    have hdiff := prefixOnes_diff bv.data (kNumBlocksPerSuperblock * s) b hle
    rw [harith]
    rw [hdiff]
    rw [Nat.add_sub_cancel_left]
    apply List.countP_congr
    intro r hr
    rw [List.mem_range] at hr
    have hpos : kNumBlocksPerSuperblock * s * kBlockDataWidth + r <
        bv.num_blocks * kBlockDataWidth := by
      have := Nat.mul_le_mul_right kBlockDataWidth hb
      rw [kBlockDataWidth_eq] at *
      omega
    rw [show (bv.update).is_set
        (kNumBlocksPerSuperblock * s * kBlockDataWidth + r) =
        bitOf (bv.update).data
          (kNumBlocksPerSuperblock * s * kBlockDataWidth + r) from rfl]
    rw [update_bitOf bv _ hpos]
  · rw [update_sbdata bv s, if_pos h32s]
    rw [prefixOnes_eq_ones bv (kNumBlocksPerSuperblock * s), harith]
    rw [update_ones bv _ (by
      have := Nat.mul_le_mul_right kBlockDataWidth (le_of_lt h32s)
      rw [kBlockDataWidth_eq] at *
      omega)]

/-- Witness for claim C3 at the length-1 vector, superblock 0, block 0. -/
theorem claim_C3_witness :
    (0 < bvOne.num_superblocks ∧ 0 < bvOne.num_blocks ∧
      (0 : Nat) / kNumBlocksPerSuperblock = 0) ∧
    (((bvOne.update).data (0 * kNumWordsPerBlock) &&&
        setbits kBlockHeaderWidth =
      (bvOne.update).onesIn (0 * kSuperblockDataWidth)
        (0 * kBlockDataWidth)) ∧
    (bvOne.update).sbdata 0 = (bvOne.update).ones (0 * kSuperblockDataWidth))
    :=
  ⟨by decide, claim_C3 bvOne 0 0 (by decide) (by decide) (by decide)⟩

/-- Claim C7 fails on the code: for a one-block vector with a single set bit,
the pad block 1 (the first sentinel block, which shares superblock 0 with
the real block 0) receives header value 1, the running intra-superblock
rank, not 0. -/
theorem claim_C7_counterexample :
    bvB498.num_blocks ≤ 1 ∧
    1 < bvB498.num_blocks + kNumBlocksPerSuperblock ∧
    (bvB498.update).data (1 * kNumWordsPerBlock) &&& setbits kBlockHeaderWidth
      = 1 := by
  decide

/-- Claim C7 (amended): after update(), a sentinel pad block `b` carries
header value 0 exactly when it lies at or beyond the first superblock
boundary at or after `num_blocks`; the pad blocks before that boundary
(those sharing a superblock with the last real blocks) carry the running
intra-superblock rank after the last real block, i.e. the number of ones
from the start of the last real superblock to the end of the real data.
(The pad block's whole first word holds that value, so in particular its
low header bits do.) -/
theorem claim_C7_amended (bv : BV) (b : Nat) (hb1 : bv.num_blocks ≤ b)
    (hb2 : b < bv.num_blocks + kNumBlocksPerSuperblock) :
    ((bv.update).data (b * kNumWordsPerBlock) =
      if kNumBlocksPerSuperblock *
          div_ceil bv.num_blocks kNumBlocksPerSuperblock ≤ b then 0
      else finalCbr bv.data bv.num_blocks) ∧
    finalCbr bv.data bv.num_blocks =
      (bv.update).onesIn
        (kNumBlocksPerSuperblock *
          ((bv.num_blocks - 1) / kNumBlocksPerSuperblock) * kBlockDataWidth)
        (bv.num_blocks * kBlockDataWidth) := by
  constructor
  · rw [update_data_pad_word0 bv b hb1 hb2]
    rfl
  · unfold finalCbr BV.onesIn
    have hle : kNumBlocksPerSuperblock *
        ((bv.num_blocks - 1) / kNumBlocksPerSuperblock) ≤ bv.num_blocks := by
      rw [kNumBlocksPerSuperblock_eq]
      omega
    have hdiff := prefixOnes_diff bv.data _ _ hle
    rw [hdiff, Nat.add_sub_cancel_left]
    apply List.countP_congr
    intro r hr
    rw [List.mem_range] at hr
    have hpos : kNumBlocksPerSuperblock *
        ((bv.num_blocks - 1) / kNumBlocksPerSuperblock) * kBlockDataWidth + r
        < bv.num_blocks * kBlockDataWidth := by
      omega
    rw [show (bv.update).is_set _ = bitOf (bv.update).data
        (kNumBlocksPerSuperblock *
          ((bv.num_blocks - 1) / kNumBlocksPerSuperblock) * kBlockDataWidth +
            r) from rfl]
    rw [update_bitOf bv _ hpos]

/-- Witness for the amended claim C7 at the one-block vector and pad
block 1. -/
theorem claim_C7_amended_witness :
    (bvB498.num_blocks ≤ 1 ∧
      1 < bvB498.num_blocks + kNumBlocksPerSuperblock) ∧
    (((bvB498.update).data (1 * kNumWordsPerBlock) =
      if kNumBlocksPerSuperblock *
          div_ceil bvB498.num_blocks kNumBlocksPerSuperblock ≤ 1 then 0
      else finalCbr bvB498.data bvB498.num_blocks) ∧
    finalCbr bvB498.data bvB498.num_blocks =
      (bvB498.update).onesIn
        (kNumBlocksPerSuperblock *
          ((bvB498.num_blocks - 1) / kNumBlocksPerSuperblock) *
            kBlockDataWidth)
        (bvB498.num_blocks * kBlockDataWidth)) :=
  ⟨by decide, claim_C7_amended bvB498 1 (by decide) (by decide)⟩

/-- Claim C6 fails on the code: the single-argument constructor zero-fills
only the words of the last real block; payload bits of earlier blocks keep
whatever the allocator returned.  With two blocks (length 996) and backing
memory whose words are `2 ^ 63`, position 49 (bit 63 of word 0) reads as
set immediately after construction. -/
theorem claim_C6_counterexample :
    49 < (996 : Nat) ∧
    (mkBV 996 (fun _ => 2 ^ 63) zeroMem).is_set 49 = true := by
  decide

/-- Claim C6 (amended): immediately after constructing a
TwoLayerRankCombinedBitVector with the single-argument constructor, the
payload bits of the last real block read as zero (is_set(p) returns false
for every position p of the last real block, whatever the allocator
returned), and the last real block's first word — hence its header — is
zero.  Payload bits and headers of the other blocks are unspecified until
they are written. -/
theorem claim_C6_amended (length : Nat) (mem sbmem : Nat → Nat) (p : Nat)
    (hp1 : ((mkBV length mem sbmem).num_blocks - 1) * kBlockDataWidth ≤ p)
    (hp2 : p < (mkBV length mem sbmem).num_blocks * kBlockDataWidth) :
    (mkBV length mem sbmem).is_set p = false ∧
    (mkBV length mem sbmem).data
      (((mkBV length mem sbmem).num_blocks - 1) * kNumWordsPerBlock) = 0 := by
  have hnbeq : (mkBV length mem sbmem).num_blocks =
      div_ceil length kBlockDataWidth := rfl
  have hdata : ∀ j,
      ((mkBV length mem sbmem).num_blocks - 1) * kNumWordsPerBlock ≤ j →
      j < (mkBV length mem sbmem).num_blocks * kNumWordsPerBlock →
      (mkBV length mem sbmem).data j = 0 := by
    intro j h1 h2
    show (if 0 < div_ceil length kBlockDataWidth ∧
        (div_ceil length kBlockDataWidth - 1) * kNumWordsPerBlock ≤ j ∧
        j < div_ceil length kBlockDataWidth * kNumWordsPerBlock
      then 0 else mem j % 2 ^ 64) = 0
    rw [if_pos]
    rw [← hnbeq]
    have hnb : 0 < (mkBV length mem sbmem).num_blocks := by
      rw [kNumWordsPerBlock_eq] at h2
      omega
    exact ⟨hnb, h1, h2⟩
  constructor
  · show bitOf (mkBV length mem sbmem).data p = false
    rw [bitOf_eq_testBit]
    rw [hdata _ ?hlow ?hhigh]
    · exact Nat.zero_testBit _
    case hlow =>
      rw [kBlockDataWidth_eq, kBlockHeaderWidth_eq, kWordWidth_eq,
        kNumWordsPerBlock_eq] at *
      omega
    case hhigh =>
      rw [kBlockDataWidth_eq, kBlockHeaderWidth_eq, kWordWidth_eq,
        kNumWordsPerBlock_eq] at *
      omega
  · apply hdata _ (le_refl _)
    rw [kNumWordsPerBlock_eq, kBlockDataWidth_eq] at *
    omega

/-- Witness for the amended claim C6 at length 1 with all-ones-style backing
memory. -/
theorem claim_C6_amended_witness :
    (((mkBV 1 (fun _ => 2 ^ 63) zeroMem).num_blocks - 1) * kBlockDataWidth ≤ 0
      ∧ 0 < (mkBV 1 (fun _ => 2 ^ 63) zeroMem).num_blocks * kBlockDataWidth)
    ∧
    ((mkBV 1 (fun _ => 2 ^ 63) zeroMem).is_set 0 = false ∧
    (mkBV 1 (fun _ => 2 ^ 63) zeroMem).data
      (((mkBV 1 (fun _ => 2 ^ 63) zeroMem).num_blocks - 1) *
        kNumWordsPerBlock) = 0) :=
  ⟨by decide,
    claim_C6_amended 1 (fun _ => 2 ^ 63) zeroMem 0 (by decide) (by decide)⟩

/-! ### Correctness of `rank1` on finalized vectors -/

theorem and_setbits14_of_lt (c : Nat) (hc : c < 2 ^ 14) :
    c &&& setbits kBlockHeaderWidth = c := by
  apply Nat.eq_of_testBit_eq
  intro i
  rw [Nat.testBit_land, testBit_setbits14]
  by_cases h : i < 14
  · simp [h]
  · have : c.testBit i = false :=
      Nat.testBit_lt_two_pow
        (lt_of_lt_of_le hc (Nat.pow_le_pow_right (by omega) (by omega)))
    simp [h, this]

/-- `rank1` with its let-bindings unfolded. -/
theorem rank1_eq (bv : BV) (pos : Nat) :
    bv.rank1 pos =
      if (pos % kBlockDataWidth + kBlockHeaderWidth) / kWordWidth = 0 then
        bv.sbdata (pos / kSuperblockDataWidth) +
          (bv.data (pos / kBlockDataWidth * kNumWordsPerBlock) &&&
            setbits kBlockHeaderWidth) +
        popcount ((bv.data (pos / kBlockDataWidth * kNumWordsPerBlock) >>>
            kBlockHeaderWidth) <<<
          (kWordWidth + kBlockHeaderWidth -
            (pos % kBlockDataWidth + kBlockHeaderWidth) % kWordWidth)) *
          (if (pos % kBlockDataWidth + kBlockHeaderWidth) % kWordWidth ≠
              kBlockHeaderWidth then 1 else 0)
      else
        bv.sbdata (pos / kSuperblockDataWidth) +
          (bv.data (pos / kBlockDataWidth * kNumWordsPerBlock) &&&
            setbits kBlockHeaderWidth) +
          popcount (bv.data (pos / kBlockDataWidth * kNumWordsPerBlock) >>>
            kBlockHeaderWidth) +
          ((List.range
            ((pos % kBlockDataWidth + kBlockHeaderWidth) / kWordWidth - 1)).map
            (fun k => popcount (bv.data
              (pos / kBlockDataWidth * kNumWordsPerBlock + 1 + k)))).sum +
          popcount (bv.data (pos / kBlockDataWidth * kNumWordsPerBlock +
              (pos % kBlockDataWidth + kBlockHeaderWidth) / kWordWidth) <<<
            (kWordWidth -
              (pos % kBlockDataWidth + kBlockHeaderWidth) % kWordWidth)) *
            (if (pos % kBlockDataWidth + kBlockHeaderWidth) % kWordWidth ≠ 0
              then 1 else 0) := by
  unfold BV.rank1
  by_cases h : (pos % kBlockDataWidth + kBlockHeaderWidth) / kWordWidth = 0
  · rfl
  · rfl

/-- The word-0 partial popcount computed by `rank1` counts the low payload
bits of the first word. -/
theorem popcount_word0_partial (w r0 : Nat) (hr0 : r0 ≤ 50) :
    popcount ((w >>> kBlockHeaderWidth) <<< (64 - r0)) =
      (List.range r0).countP (fun j => w.testBit (14 + j)) := by
  rw [show kBlockHeaderWidth = 14 from rfl,
    popcount_shiftLeft _ (64 - r0) (by omega),
    show 64 - (64 - r0) = r0 by omega]
  apply List.countP_congr
  intro j _
  rw [Nat.testBit_shiftRight]

/-- The final-word partial popcount computed by `rank1` counts the low `wp`
bits of that word. -/
theorem popcount_final_partial (w wp : Nat) (hwp : wp ≤ 64) :
    popcount (w <<< (kWordWidth - wp)) =
      (List.range wp).countP (fun j => w.testBit j) := by
  rw [show kWordWidth = 64 from rfl, popcount_shiftLeft _ (64 - wp) (by omega),
    show 64 - (64 - wp) = wp by omega]

/-- The partial popcounts computed by `rank1` inside the block of `pos`
count exactly the payload bits of that block below `pos`. -/
theorem block_partial_count (D : Nat → Nat) (b r0 : Nat)
    (hr0 : r0 < kBlockDataWidth) (hD0 : D (b * kNumWordsPerBlock) < 2 ^ 64) :
    (List.range r0).countP (fun r => bitOf D (b * kBlockDataWidth + r)) =
      if (r0 + kBlockHeaderWidth) / kWordWidth = 0 then
        popcount ((D (b * kNumWordsPerBlock) >>> kBlockHeaderWidth) <<<
          (kWordWidth + kBlockHeaderWidth -
            (r0 + kBlockHeaderWidth) % kWordWidth)) *
          (if (r0 + kBlockHeaderWidth) % kWordWidth ≠ kBlockHeaderWidth
            then 1 else 0)
      else
        popcount (D (b * kNumWordsPerBlock) >>> kBlockHeaderWidth) +
        ((List.range ((r0 + kBlockHeaderWidth) / kWordWidth - 1)).map
          (fun k => popcount (D (b * kNumWordsPerBlock + 1 + k)))).sum +
        popcount (D (b * kNumWordsPerBlock +
            (r0 + kBlockHeaderWidth) / kWordWidth) <<<
          (kWordWidth - (r0 + kBlockHeaderWidth) % kWordWidth)) *
          (if (r0 + kBlockHeaderWidth) % kWordWidth ≠ 0 then 1 else 0) := by
  simp only [kBlockDataWidth_eq, kBlockHeaderWidth_eq, kWordWidth_eq,
    kNumWordsPerBlock_eq] at hr0 ⊢
  by_cases hnw : (r0 + 14) / 64 = 0
  · rw [if_pos hnw]
    have hr50 : r0 < 50 := by omega
    rcases Nat.eq_zero_or_pos r0 with hz | hpos
    · subst hz
      norm_num
    · have hwp : (r0 + 14) % 64 = r0 + 14 := by omega
      simp only [hwp]
      rw [if_pos (by omega), Nat.mul_one,
        show 64 + 14 - (r0 + 14) = 64 - r0 by omega]
      have hw0 := popcount_word0_partial (D (b * 8)) r0 (by omega)
      simp only [kBlockHeaderWidth_eq] at hw0
      rw [hw0]
      apply List.countP_congr
      intro r hr
      rw [List.mem_range] at hr
      have hb0 := bitOf_block_word0 D b r (by omega)
      simp only [kBlockDataWidth_eq, kNumWordsPerBlock_eq] at hb0
      rw [hb0]
  · rw [if_neg hnw]
    have hnw7 : (r0 + 14) / 64 ≤ 7 := by omega
    have hnw1 : 1 ≤ (r0 + 14) / 64 := by omega
    have hadd := countP_range_add
      (fun r => bitOf D (b * 498 + r))
      (50 + 64 * ((r0 + 14) / 64 - 1)) ((r0 + 14) % 64)
    rw [show 50 + 64 * ((r0 + 14) / 64 - 1) + (r0 + 14) % 64 = r0 by omega]
      at hadd
    rw [hadd]
    have hsplit := blockOnes_split D b ((r0 + 14) / 64 - 1) (by omega)
    simp only [kBlockDataWidth_eq, kNumWordsPerBlock_eq] at hsplit
    rw [hsplit]
    have hfirst : (List.range 50).countP
        (fun j => (D (b * 8)).testBit (14 + j)) =
        popcount (D (b * 8) >>> 14) := by
      have := popcount_shiftRight (D (b * 8)) 14 (by omega) hD0
      rw [this]
    rw [hfirst]
    congr 1
    have hlast : (List.range ((r0 + 14) % 64)).countP
        (fun i => bitOf D (b * 498 + (50 + 64 * ((r0 + 14) / 64 - 1) + i))) =
        (List.range ((r0 + 14) % 64)).countP
          (fun i => (D (b * 8 + (r0 + 14) / 64)).testBit i) := by
      apply List.countP_congr
      intro i hi
      rw [List.mem_range] at hi
      have hbt := bitOf_block_wordt D b ((r0 + 14) / 64 - 1) i
        (by omega) (by omega)
      simp only [kBlockDataWidth_eq, kNumWordsPerBlock_eq] at hbt
      rw [hbt, show b * 8 + 1 + ((r0 + 14) / 64 - 1) =
        b * 8 + (r0 + 14) / 64 by omega]
    rw [hlast]
    rcases Nat.eq_zero_or_pos ((r0 + 14) % 64) with hz | hposw
    · simp only [hz]
      simp
    · rw [if_pos (by omega), Nat.mul_one]
      have hf := popcount_final_partial (D (b * 8 + (r0 + 14) / 64))
        ((r0 + 14) % 64) (by omega)
      simp only [kWordWidth_eq] at hf
      rw [hf]

/-- On a finalized vector, `rank1 pos` returns the number of set bits below
`pos`, whenever the superblock-table entry it reads was written by update()
(`pos / kSuperblockDataWidth < num_superblocks`; for other `pos ≤ length`
the C++ code reads one word past the superblock table). -/
theorem rank1_correct (bv : BV) (pos : Nat) (hpos : pos ≤ bv.length)
    (hsb : pos / kSuperblockDataWidth < bv.num_superblocks) :
    (bv.update).rank1 pos = (bv.update).ones pos := by
  have hnbge := num_blocks_ge bv
  have hnsge := num_superblocks_ge bv
  have hnslt := num_superblocks_lt bv
  rw [kBlockDataWidth_eq] at hnbge
  rw [kSuperblockDataWidth_eq] at hnsge hnslt
  have hsbN : pos / 15936 < bv.num_superblocks := hsb
  have hspos : pos / 15936 * 15936 < bv.length := by
    have h1 : (pos / 15936 + 1) * 15936 ≤ bv.num_superblocks * 15936 :=
      Nat.mul_le_mul_right 15936 hsbN
    omega
  have hsb32 : kNumBlocksPerSuperblock * (pos / kSuperblockDataWidth) <
      bv.num_blocks := by
    show 32 * (pos / 15936) < bv.num_blocks
    by_contra hcon
    have h2 : bv.num_blocks * 498 ≤ 32 * (pos / 15936) * 498 :=
      Nat.mul_le_mul_right 498 (by omega)
    omega
  have hD0 : (bv.update).data
      (pos / kBlockDataWidth * kNumWordsPerBlock) < 2 ^ 64 := by
    by_cases hb : pos / kBlockDataWidth < bv.num_blocks
    · rw [update_data_real_word0 bv _ hb]
      exact headerWrite_lt _ _ (hdrVal_lt _ _)
    · have hble : bv.num_blocks ≤ pos / kBlockDataWidth := by omega
      have hblt : pos / kBlockDataWidth <
          bv.num_blocks + kNumBlocksPerSuperblock := by
        show pos / 498 < bv.num_blocks + 32
        have : pos / 498 ≤ bv.num_blocks := by
          show pos / 498 ≤ bv.num_blocks
          omega
        omega
      rw [update_data_pad_word0 bv _ hble hblt]
      unfold padVal
      split_ifs
      · norm_num
      · calc finalCbr bv.data bv.num_blocks < 2 ^ 14 := curBlockRank_lt _ _
          _ < 2 ^ 64 := by norm_num
  suffices hfin : (bv.update).sbdata (pos / kSuperblockDataWidth) +
      ((bv.update).data (pos / kBlockDataWidth * kNumWordsPerBlock) &&&
        setbits kBlockHeaderWidth) +
      (List.range (pos % kBlockDataWidth)).countP
        (fun r => bitOf (bv.update).data
          (pos / kBlockDataWidth * kBlockDataWidth + r)) =
      (bv.update).ones pos by
    rw [rank1_eq]
    have hbpc := block_partial_count (bv.update).data (pos / kBlockDataWidth)
      (pos % kBlockDataWidth) (by show pos % 498 < 498; omega) hD0
    by_cases hnw : (pos % kBlockDataWidth + kBlockHeaderWidth) / kWordWidth
        = 0
    · rw [if_pos hnw]
      rw [if_pos hnw] at hbpc
      omega
    · rw [if_neg hnw]
      rw [if_neg hnw] at hbpc
      omega
  have hbridge : (bv.update).ones pos =
      (List.range pos).countP (bitOf (bv.update).data) := rfl
  rw [update_sbdata bv _, if_pos hsb32]
  by_cases hb : pos / kBlockDataWidth < bv.num_blocks
  · -- the position lies in a real block
    rw [update_data_real_word0 bv _ hb, headerWrite_low _ _ (hdrVal_lt _ _)]
    have hdiv : pos / kSuperblockDataWidth = pos / kBlockDataWidth / 32 := by
      show pos / 15936 = pos / 498 / 32
      rw [Nat.div_div_eq_div_mul]
    have hmn : pos = pos / kBlockDataWidth * kBlockDataWidth +
        pos % kBlockDataWidth := by
      show pos = pos / 498 * 498 + pos % 498
      omega
    have hcnt := countP_range_add (bitOf (bv.update).data)
      (pos / kBlockDataWidth * kBlockDataWidth) (pos % kBlockDataWidth)
    rw [← hmn] at hcnt
    have hpre : (List.range
        (pos / kBlockDataWidth * kBlockDataWidth)).countP
        (bitOf (bv.update).data) = prefixOnes (bv.update).data
          (pos / kBlockDataWidth) :=
      (prefixOnes_eq_countP (bv.update).data (pos / kBlockDataWidth)).symm
    have hsbval : prefixOnes bv.data
        (kNumBlocksPerSuperblock * (pos / kSuperblockDataWidth)) =
        prefixOnes (bv.update).data
          (kNumBlocksPerSuperblock * (pos / kSuperblockDataWidth)) :=
      (update_prefixOnes bv _ (by
        show 32 * (pos / kSuperblockDataWidth) ≤ bv.num_blocks
        omega)).symm
    have hargeq : kNumBlocksPerSuperblock *
        (pos / kBlockDataWidth / kNumBlocksPerSuperblock) =
        kNumBlocksPerSuperblock * (pos / kSuperblockDataWidth) := by
      show 32 * (pos / 498 / 32) = 32 * (pos / 15936)
      rw [Nat.div_div_eq_div_mul]
    have hhdr : hdrVal bv.data (pos / kBlockDataWidth) =
        prefixOnes (bv.update).data (pos / kBlockDataWidth) -
          prefixOnes (bv.update).data
            (kNumBlocksPerSuperblock * (pos / kSuperblockDataWidth)) := by
      unfold hdrVal
      rw [hargeq]
      rw [update_prefixOnes bv
        (kNumBlocksPerSuperblock * (pos / kSuperblockDataWidth)) (by
          show 32 * (pos / kSuperblockDataWidth) ≤ bv.num_blocks
          omega)]
      rw [update_prefixOnes bv _ (le_of_lt hb)]
    have hmono2 : prefixOnes (bv.update).data
        (kNumBlocksPerSuperblock * (pos / kSuperblockDataWidth)) ≤
        prefixOnes (bv.update).data (pos / kBlockDataWidth) := by
      apply prefixOnes_mono
      show 32 * (pos / kSuperblockDataWidth) ≤ pos / kBlockDataWidth
      rw [hdiv]
      show 32 * (pos / 498 / 32) ≤ pos / 498
      omega
    rw [hbridge, hcnt, hpre, hsbval, hhdr]
    omega
  · -- `pos` is exactly `num_blocks * 498`, the very end of the vector
    have hble : bv.num_blocks ≤ pos / kBlockDataWidth := by omega
    have hposeq : pos = bv.num_blocks * 498 := by
      have h1 : bv.num_blocks * 498 ≤ pos / 498 * 498 :=
        Nat.mul_le_mul_right 498 hble
      have h2 : pos / 498 * 498 ≤ pos := by omega
      omega
    have hb498 : pos / kBlockDataWidth = bv.num_blocks := by
      show pos / 498 = bv.num_blocks
      omega
    have hnb32 : ¬ (bv.num_blocks % 32 = 0) := by
      intro hmod
      have hs1 : pos / 15936 = bv.num_blocks / 32 := by omega
      have hns : bv.num_superblocks ≤ bv.num_blocks / 32 := by
        by_contra hcon
        have h3 : (bv.num_blocks / 32 + 1) * 15936 ≤
            bv.num_superblocks * 15936 := Nat.mul_le_mul_right 15936 (by omega)
        omega
      omega
    have hs2 : pos / kSuperblockDataWidth = (bv.num_blocks - 1) / 32 := by
      show pos / 15936 = (bv.num_blocks - 1) / 32
      omega
    have hr00 : pos % kBlockDataWidth = 0 := by
      show pos % 498 = 0
      omega
    rw [hb498, hr00,
      update_data_pad_word0 bv _ (le_refl _) (by
        rw [kNumBlocksPerSuperblock_eq]
        omega)]
    unfold padVal
    rw [if_neg (by
      unfold div_ceil
      rw [kNumBlocksPerSuperblock_eq]
      split_ifs with hcase <;> omega)]
    have hfc : finalCbr bv.data bv.num_blocks < 2 ^ 14 :=
      curBlockRank_lt bv.data bv.num_blocks
    rw [and_setbits14_of_lt _ hfc]
    unfold finalCbr
    rw [hbridge, hposeq]
    have hpre : (List.range (bv.num_blocks * 498)).countP
        (bitOf (bv.update).data) = prefixOnes (bv.update).data
          bv.num_blocks := by
      have := (prefixOnes_eq_countP (bv.update).data bv.num_blocks).symm
      rw [kBlockDataWidth_eq] at this
      exact this
    rw [hpre]
    rw [update_prefixOnes bv bv.num_blocks (le_refl _)]
    have h1 : bv.num_blocks * 498 / kSuperblockDataWidth =
        (bv.num_blocks - 1) / 32 := by
      show bv.num_blocks * 498 / 15936 = (bv.num_blocks - 1) / 32
      omega
    rw [h1]
    have hmono2 : prefixOnes bv.data
        (kNumBlocksPerSuperblock * ((bv.num_blocks - 1) / 32)) ≤
        prefixOnes bv.data bv.num_blocks := by
      apply prefixOnes_mono
      show 32 * ((bv.num_blocks - 1) / 32) ≤ bv.num_blocks
      omega
    simp only [kNumBlocksPerSuperblock_eq, List.range_zero, List.countP_nil]
      at *
    omega

/-- Claim C1 fails on the code at the edge `pos = length` when
`length % kSuperblockDataWidth = 0`: `rank1` then reads
`superblock_data[length / kSuperblockDataWidth]`, one word past the
`num_superblocks`-entry table (for the empty vector, `rank1(0)` reads the
zero-length table's entry 0).  In the model the out-of-bounds word is the
unspecified allocator memory: with that word equal to 42, the finalized
empty vector answers `rank1(0) = 42` although it contains no ones. -/
theorem claim_C1_code_bug_eval :
    (mkBV 0 zeroMem (fun _ => 42)).num_superblocks = 0 ∧
    ((mkBV 0 zeroMem (fun _ => 42)).update).rank1 0 = 42 ∧
    ((mkBV 0 zeroMem (fun _ => 42)).update).ones 0 = 0 := by
  decide

/-! ### `bitsy/select/two_layer_select.hpp` -/

/-- The default sampling stride of `TwoLayerSelect`. -/
def kStride : Nat := 32768

/-- The state of `TwoLayerSelect`: a borrowed bit vector, the two sample
buffers (with their allocated sizes), as created by the constructor. -/
structure Sel where
  bitvector : BV
  zero_samples : Nat → Nat
  one_samples : Nat → Nat
  zsize : Nat
  osize : Nat

/-- The running state of `TwoLayerSelect::update()`. -/
structure SelSt where
  zs : Nat → Nat
  os : Nat → Nat
  cur_one : Nat
  cur_zero : Nat
  total_ones : Nat
  total_zeros : Nat
  threshold_one : Nat
  threshold_zero : Nat

/-- The `handle_block` lambda of `TwoLayerSelect::update()`. -/
def handleBlock (st : SelSt) (num_block num_ones num_zeros : Nat) : SelSt :=
  let total_ones := st.total_ones + num_ones
  let total_zeros := st.total_zeros + num_zeros
  let st1 :=
    if st.threshold_one ≤ total_ones then
      { st with
        os := Function.update st.os st.cur_one
          (num_block * kBlockDataWidth / kSuperblockDataWidth)
        cur_one := st.cur_one + 1
        threshold_one := st.threshold_one + kStride }
    else st
  let st2 :=
    if st1.threshold_zero ≤ total_zeros then
      { st1 with
        zs := Function.update st1.zs st1.cur_zero
          (num_block * kBlockDataWidth / kSuperblockDataWidth)
        cur_zero := st1.cur_zero + 1
        threshold_zero := st1.threshold_zero + kStride }
    else st1
  { st2 with total_ones := total_ones, total_zeros := total_zeros }

/-- The main loop of `TwoLayerSelect::update()` over the next `n` blocks
starting at `num_block` (all but the last real block). -/
def selLoop (bv : BV) (st : SelSt) (num_block : Nat) : Nat → SelSt
  | 0 => st
  | n + 1 =>
    let num_ones := bv.block_popcount num_block
    let num_zeros := kBlockDataWidth - num_ones
    selLoop bv (handleBlock st num_block num_ones num_zeros)
      (num_block + 1) n

/-- `TwoLayerSelect::update()`: the loop over all but the last block, the
special treatment of the last block (whose zero count excludes the padding
positions at and beyond `length`), and the two sentinel samples. -/
def selUpdate (bv : BV) (st0 : SelSt) : SelSt :=
  if bv.length = 0 then st0
  else
    let st := selLoop bv st0 0 (bv.num_blocks - 1)
    let num_last_block := bv.num_blocks - 1
    let wrong_zeros := bv.num_blocks * kBlockDataWidth - bv.length
    let num_ones := bv.block_popcount num_last_block
    let num_zeros := kBlockDataWidth - num_ones - wrong_zeros
    let st := handleBlock st num_last_block num_ones num_zeros
    { st with
      os := Function.update st.os st.cur_one (bv.num_superblocks - 1)
      zs := Function.update st.zs st.cur_zero (bv.num_superblocks - 1) }

/-- `TwoLayerSelect(bitvector, num_ones)`: allocates the two sample buffers
(uninitialized; the unspecified initial contents are `zmem`/`omem`) and runs
update(). -/
def mkSel (bv : BV) (num_ones : Nat) (zmem omem : Nat → Nat) : Sel :=
  let st := selUpdate bv
    ⟨fun j => zmem j % 2 ^ 64, fun j => omem j % 2 ^ 64, 0, 0, 0, 0, 0, 0⟩
  { bitvector := bv
    zero_samples := st.zs
    one_samples := st.os
    zsize := (bv.length - num_ones) / kStride + 2
    osize := num_ones / kStride + 2 }

/-- `TwoLayerSelect::memory_space()`. -/
def Sel.memory_space (sel : Sel) : Nat :=
  sel.zsize * kWordWidth + sel.osize * kWordWidth

/-- Claim C8 fails on the code: the sample buffer sizes use floor division,
not ceiling division.  For a length-1 vector with one set bit the code
allocates `1 / 32768 + 2 = 2` one-sample entries and reports
`memory_space() = 256` bits, while the claimed formulas give
`⌈1/32768⌉ + 2 = 3` entries and `320` bits. -/
theorem claim_C8_counterexample :
    (mkSel ((mkBV 1 zeroMem zeroMem).set 0).update 1 zeroMem zeroMem).osize
      = 2 ∧
    div_ceil 1 kStride + 2 = 3 ∧
    (mkSel ((mkBV 1 zeroMem zeroMem).set 0).update 1 zeroMem
      zeroMem).memory_space = 256 ∧
    (div_ceil 1 kStride + div_ceil 0 kStride + 4) * 64 = 320 := by
  decide

/-- Claim C8 (amended): for a bit vector with `num_ones` set bits, the
one-sample buffer holds exactly `⌊num_ones / stride⌋ + 2` entries, the
zero-sample buffer exactly `⌊(length - num_ones) / stride⌋ + 2` entries,
and `memory_space()` returns
`(⌊num_ones / stride⌋ + ⌊(length - num_ones) / stride⌋ + 4) * 64` bits. -/
theorem claim_C8_amended (bv : BV) (num_ones : Nat) (zmem omem : Nat → Nat) :
    (mkSel bv num_ones zmem omem).osize = num_ones / kStride + 2 ∧
    (mkSel bv num_ones zmem omem).zsize =
      (bv.length - num_ones) / kStride + 2 ∧
    (mkSel bv num_ones zmem omem).memory_space =
      (num_ones / kStride + (bv.length - num_ones) / kStride + 4) *
        kWordWidth := by
  refine ⟨rfl, rfl, ?hm⟩
  show ((bv.length - num_ones) / kStride + 2) * kWordWidth +
    (num_ones / kStride + 2) * kWordWidth = _
  ring

/-! ### `bitsy/select/word_select.hpp` -/

/-- The linear-scan implementation of `word_select1` (the default template
instantiation, used by `TwoLayerSelect`): shift right, decrement the rank by
each low bit, count the position.  The C++ `while (rank > 0)` loop
terminates only for valid inputs; `fuel` bounds the iterations, and the 64
supplied by `word_select1_linear` suffices for every valid input. -/
def wsLinearAux (word rank pos : Nat) : Nat → Nat
  | 0 => pos - 1
  | fuel + 1 =>
    if rank = 0 then pos - 1
    else wsLinearAux (word >>> 1) (rank - (word &&& 1)) (pos + 1) fuel

def word_select1_linear (word rank : Nat) : Nat := wsLinearAux word rank 0 64

/-- The branchless binary-search implementation of `word_select1`
(`kUseBinarySearch = true`). -/
def wsBinaryLoop (word rank pos length : Nat) : Nat :=
  if length ≤ 1 then pos
  else
    let half := length / 2
    wsBinaryLoop word rank
      (pos + (if popcount (word <<< (64 - (pos + half))) < rank
        then half else 0))
      (length - half)
termination_by length
decreasing_by
  omega

def word_select1_binary (word rank : Nat) : Nat := wsBinaryLoop word rank 0 64

/-- Modelled from the spec: the hardware `_pdep_u64` intrinsic (parallel
bits deposit, `immintrin.h`, outside the repository) deposits the low bits
of `src` into the set-bit positions of `mask`, from low to high;
`pdepAux src mask i n` processes the `n` mask bit positions starting at
`i`. -/
def pdepAux (src mask i : Nat) : Nat → Nat
  | 0 => 0
  | n + 1 =>
    if mask.testBit i then
      (if src &&& 1 == 1 then 2 ^ i else 0) +
        pdepAux (src >>> 1) mask (i + 1) n
    else pdepAux src mask (i + 1) n

def pdep (src mask : Nat) : Nat := pdepAux src mask 0 64

/-- `std::countr_zero` on a 64-bit word (returns 64 on zero input). -/
def ctzAux (w : Nat) : Nat → Nat
  | 0 => 0
  | n + 1 => if w &&& 1 == 1 then 0 else 1 + ctzAux (w >>> 1) n

def countr_zero (w : Nat) : Nat := ctzAux w 64

/-- The PDEP implementation of `word_select1` (`USE_PDEP`):
`countr_zero(pdep(1 << (rank - 1), word))`. -/
def word_select1_pdep (word rank : Nat) : Nat :=
  countr_zero (pdep (1 <<< (rank - 1)) word)

/-! #### Specification of the k-th set bit -/

/-- The number of set bits of `w` at positions `< n`. -/
def pcBelow (w n : Nat) : Nat :=
  (List.range n).countP (fun i => w.testBit i)

/-- `p` is the (1-indexed) `k`-th set bit of `w`. -/
def IsNthOne (w k p : Nat) : Prop :=
  w.testBit p = true ∧ pcBelow w p = k - 1

theorem popcount_eq_pcBelow (w : Nat) : popcount w = pcBelow w 64 := rfl

theorem pcBelow_succ (w n : Nat) :
    pcBelow w (n + 1) = pcBelow w n + (if w.testBit n then 1 else 0) := by
  unfold pcBelow
  rw [List.range_succ, List.countP_append]
  simp [List.countP_singleton]

theorem pcBelow_mono (w : Nat) {a b : Nat} (h : a ≤ b) :
    pcBelow w a ≤ pcBelow w b := by
  induction b with
  | zero => simp_all [pcBelow]
  | succ b ih =>
    rcases Nat.lt_or_ge a (b + 1) with h2 | h2
    · refine le_trans (ih (by omega)) ?hs
      rw [pcBelow_succ]
      omega
    · have : a = b + 1 := by omega
      subst this
      exact le_refl _

/-- Splitting off bit 0: the count below `n + 1` is bit 0 plus the count of
the shifted word below `n`. -/
theorem pcBelow_shift_one (w n : Nat) :
    pcBelow w (n + 1) =
      (if w.testBit 0 then 1 else 0) + pcBelow (w >>> 1) n := by
  unfold pcBelow
  rw [List.range_succ_eq_map, List.countP_cons, List.countP_map]
  have hc : (List.range n).countP ((fun i => w.testBit i) ∘ Nat.succ) =
      (List.range n).countP (fun i => (w >>> 1).testBit i) := by
    apply List.countP_congr
    intro i _
    simp only [Function.comp_apply, Nat.testBit_shiftRight,
      Nat.succ_eq_add_one, Nat.add_comm]
  rw [hc]
  by_cases hb : w.testBit 0 <;> simp [hb, Nat.add_comm]

theorem isNthOne_unique (w k p q : Nat) (hp : IsNthOne w k p)
    (hq : IsNthOne w k q) : p = q := by
  obtain ⟨hp1, hp2⟩ := hp
  obtain ⟨hq1, hq2⟩ := hq
  by_contra hne
  rcases Nat.lt_or_ge p q with h | h
  · have h1 : pcBelow w (p + 1) ≤ pcBelow w q := pcBelow_mono w (by omega)
    rw [pcBelow_succ] at h1
    simp only [hp1, if_true] at h1
    omega
  · have h2 : q < p := by omega
    have h1 : pcBelow w (q + 1) ≤ pcBelow w p := pcBelow_mono w (by omega)
    rw [pcBelow_succ] at h1
    simp only [hq1, if_true] at h1
    omega

theorem and_one_eq_ite (w : Nat) :
    w &&& 1 = if w.testBit 0 then 1 else 0 := by
  rw [Nat.and_one_is_mod]
  have ht : w.testBit 0 = decide (w / 2 ^ 0 % 2 = 1) :=
    Nat.testBit_to_div_mod
  rcases Nat.mod_two_eq_zero_or_one w with h | h <;>
    simp [ht, h]

/-- The linear scan finds the `k`-th set bit: it returns `pos` plus the
offset of the `k`-th set bit of `word`, provided `word` has at least `k`
set bits among its low `fuel` bits. -/
theorem wsLinearAux_spec :
    ∀ fuel w k pos, 1 ≤ k → k ≤ pcBelow w fuel →
      ∃ q, q < fuel ∧ w.testBit q = true ∧ pcBelow w q = k - 1 ∧
        wsLinearAux w k pos fuel = pos + q := by
  intro fuel
  induction fuel with
  | zero =>
    intro w k pos h1 h2
    simp [pcBelow] at h2
    omega
  | succ fuel ih =>
    intro w k pos h1 h2
    show (∃ q, _ ∧ _ ∧ _ ∧
      (if k = 0 then pos - 1
        else wsLinearAux (w >>> 1) (k - (w &&& 1)) (pos + 1) fuel) = pos + q)
    rw [if_neg (by omega)]
    by_cases hb : w.testBit 0
    · rcases Nat.eq_or_lt_of_le h1 with hk1 | hk2
      · -- k = 1 and bit 0 is set: the scan stops immediately
        refine ⟨0, by omega, hb,
          by rw [show pcBelow w 0 = 0 from rfl]; omega, ?hres⟩
        rw [and_one_eq_ite, if_pos hb, ← hk1]
        have hzero : ∀ u f p, wsLinearAux u 0 p f = p - 1 := by
          intro u f
          cases f <;> intro p <;> rfl
        show wsLinearAux (w >>> 1) 0 (pos + 1) fuel = pos + 0
        rw [hzero]
        omega
      · -- k ≥ 2: consume bit 0 and recurse
        rw [and_one_eq_ite, if_pos hb]
        have hrec : k - 1 ≤ pcBelow (w >>> 1) fuel := by
          rw [pcBelow_shift_one, if_pos hb] at h2
          omega
        obtain ⟨q, hq1, hq2, hq3, hq4⟩ :=
          ih (w >>> 1) (k - 1) (pos + 1) (by omega) hrec
        refine ⟨q + 1, by omega, ?hb2, ?hc2, ?hr2⟩
        · rw [← hq2, Nat.testBit_shiftRight, Nat.add_comm]
        · rw [pcBelow_shift_one, if_pos hb, hq3]
          omega
        · rw [hq4]
          omega
    · -- bit 0 is clear: skip it
      rw [and_one_eq_ite, if_neg hb]
      have hrec : k ≤ pcBelow (w >>> 1) fuel := by
        rw [pcBelow_shift_one, if_neg hb] at h2
        omega
      rw [Nat.sub_zero]
      obtain ⟨q, hq1, hq2, hq3, hq4⟩ := ih (w >>> 1) k (pos + 1) h1 hrec
      refine ⟨q + 1, by omega, ?hb3, ?hc3, ?hr3⟩
      · rw [← hq2, Nat.testBit_shiftRight, Nat.add_comm]
      · rw [pcBelow_shift_one, if_neg hb, hq3]
        omega
      · rw [hq4]
        omega

/-- The linear-scan word select is correct for valid inputs. -/
theorem word_select1_linear_correct (w k : Nat) (hk1 : 1 ≤ k)
    (hk2 : k ≤ popcount w) : IsNthOne w k (word_select1_linear w k) := by
  obtain ⟨q, hq1, hq2, hq3, hq4⟩ := wsLinearAux_spec 64 w k 0 hk1 hk2
  unfold word_select1_linear
  rw [hq4, Nat.zero_add]
  exact ⟨hq2, hq3⟩

/-- The branchless binary search maintains the invariant that the `k`-th
one lies in `[pos, pos + length)`; at `length = 1` this pins it down. -/
theorem wsBinaryLoop_spec (length : Nat) :
    ∀ pos w k, pos + length ≤ 64 → 1 ≤ length →
      pcBelow w pos < k → k ≤ pcBelow w (pos + length) →
      IsNthOne w k (wsBinaryLoop w k pos length) := by
  induction length using Nat.strong_induction_on with
  | _ length ih =>
    intro pos w k hle h1 hlo hhi
    rw [wsBinaryLoop]
    by_cases hl1 : length ≤ 1
    · rw [if_pos hl1]
      have hlen : length = 1 := by omega
      subst hlen
      have hp1 := pcBelow_succ w pos
      by_cases hbit : w.testBit pos = true
      · refine ⟨hbit, ?hc⟩
        simp only [hbit, if_true] at hp1
        omega
      · rw [Bool.not_eq_true] at hbit
        simp [hbit] at hp1
        omega
    · rw [if_neg hl1]
      show IsNthOne w k (wsBinaryLoop w k
        (pos + if popcount (w <<< (64 - (pos + length / 2))) < k
          then length / 2 else 0) (length - length / 2))
      have hhalf : popcount (w <<< (64 - (pos + length / 2))) =
          pcBelow w (pos + length / 2) := by
        rw [popcount_shiftLeft _ _ (by omega),
          show 64 - (64 - (pos + length / 2)) = pos + length / 2 by omega]
        rfl
      by_cases hc : popcount (w <<< (64 - (pos + length / 2))) < k
      · rw [if_pos hc]
        have happ := ih (length - length / 2) (by omega)
          (pos + length / 2) w k (by omega) (by omega)
          (by rw [hhalf] at hc; exact hc)
          (by
            rw [show pos + length / 2 + (length - length / 2) =
              pos + length by omega]
            exact hhi)
        exact happ
      · rw [if_neg hc]
        rw [Nat.add_zero]
        have hup : k ≤ pcBelow w (pos + (length - length / 2)) := by
          rw [hhalf] at hc
          have hm : pcBelow w (pos + length / 2) ≤
              pcBelow w (pos + (length - length / 2)) :=
            pcBelow_mono w (by omega)
          omega
        exact ih (length - length / 2) (by omega) pos w k (by omega)
          (by omega) hlo hup

/-- The branchless binary-search word select is correct for valid
inputs. -/
theorem word_select1_binary_correct (w k : Nat) (hk1 : 1 ≤ k)
    (hk2 : k ≤ popcount w) : IsNthOne w k (word_select1_binary w k) :=
  wsBinaryLoop_spec 64 0 w k (by omega) (by omega)
    (by rw [show pcBelow w 0 = 0 from rfl]; omega) hk2

/-! #### The PDEP path -/

/-- The number of set bits of `mask` at positions `[i, i + n)`. -/
def cntIn (mask i n : Nat) : Nat :=
  (List.range n).countP (fun j => mask.testBit (i + j))

theorem cntIn_step (mask i n : Nat) :
    cntIn mask i (n + 1) =
      (if mask.testBit i then 1 else 0) + cntIn mask (i + 1) n := by
  unfold cntIn
  rw [List.range_succ_eq_map, List.countP_cons, List.countP_map]
  have hc : (List.range n).countP ((fun j => mask.testBit (i + j)) ∘
      Nat.succ) = (List.range n).countP (fun j => mask.testBit (i + 1 + j))
      := by
    apply List.countP_congr
    intro j _
    simp only [Function.comp_apply, Nat.succ_eq_add_one]
    rw [show i + (j + 1) = i + 1 + j by omega]
  rw [hc]
  by_cases hb : mask.testBit i <;> simp [hb, Nat.add_comm]

theorem cntIn_zero_left (w n : Nat) : cntIn w 0 n = pcBelow w n := by
  unfold cntIn pcBelow
  apply List.countP_congr
  intro j _
  rw [Nat.zero_add]

theorem pdepAux_zero_src (mask : Nat) :
    ∀ n i, pdepAux 0 mask i n = 0 := by
  intro n
  induction n with
  | zero =>
    intro i
    rfl
  | succ n ih =>
    intro i
    show (if mask.testBit i then
      (if (0 : Nat) &&& 1 == 1 then 2 ^ i else 0) +
        pdepAux (0 >>> 1) mask (i + 1) n
      else pdepAux 0 mask (i + 1) n) = 0
    by_cases hb : mask.testBit i
    · rw [if_pos hb]
      show (0 : Nat) + pdepAux (0 >>> 1) mask (i + 1) n = 0
      rw [Nat.zero_add, show (0 : Nat) >>> 1 = 0 from rfl]
      exact ih (i + 1)
    · rw [if_neg hb]
      exact ih (i + 1)

theorem pow_and_one (m : Nat) (hm : 1 ≤ m) : 2 ^ m &&& 1 = 0 := by
  rw [Nat.and_one_is_mod, show m = (m - 1) + 1 by omega, Nat.pow_succ,
    Nat.mul_mod_left]

theorem pow_shiftRight_one (m : Nat) (hm : 1 ≤ m) :
    (2 : Nat) ^ m >>> 1 = 2 ^ (m - 1) := by
  rw [Nat.shiftRight_eq_div_pow, Nat.pow_one]
  rw [show m = (m - 1) + 1 by omega, Nat.pow_succ]
  rw [Nat.mul_div_cancel _ (by omega)]
  simp

/-- Depositing a single bit `2 ^ (k - 1)` into `mask` over the bit range
`[i, i + n)` yields the power of two at the `k`-th set bit of `mask` in
that range. -/
theorem pdepAux_single :
    ∀ n mask i k, 1 ≤ k → k ≤ cntIn mask i n →
      ∃ q, q < n ∧ mask.testBit (i + q) = true ∧ cntIn mask i q = k - 1 ∧
        pdepAux (2 ^ (k - 1)) mask i n = 2 ^ (i + q) := by
  intro n
  induction n with
  | zero =>
    intro mask i k h1 h2
    rw [show cntIn mask i 0 = 0 from rfl] at h2
    omega
  | succ n ih =>
    intro mask i k h1 h2
    rw [cntIn_step] at h2
    by_cases hb : mask.testBit i
    · show ∃ q, _ ∧ _ ∧ _ ∧
        (if mask.testBit i then
          (if 2 ^ (k - 1) &&& 1 == 1 then 2 ^ i else 0) +
            pdepAux (2 ^ (k - 1) >>> 1) mask (i + 1) n
          else pdepAux (2 ^ (k - 1)) mask (i + 1) n) = _
      rw [if_pos hb]
      rcases Nat.eq_or_lt_of_le h1 with hk1 | hk2
      · -- k = 1: deposit here
        refine ⟨0, by omega, by rw [Nat.add_zero]; exact hb,
          by rw [show cntIn mask i 0 = 0 from rfl]; omega, ?hres⟩
        rw [← hk1]
        show (if (2 : Nat) ^ 0 &&& 1 == 1 then 2 ^ i else 0) +
          pdepAux (2 ^ 0 >>> 1) mask (i + 1) n = 2 ^ (i + 0)
        rw [show ((2 : Nat) ^ 0 &&& 1 == 1) = true from rfl,
          if_pos rfl, show (2 : Nat) ^ 0 >>> 1 = 0 from rfl,
          pdepAux_zero_src]
        simp
      · -- k ≥ 2: the bit passes by, shift the source
        have hk2a : 2 ≤ k := hk2
        rw [show ((2 ^ (k - 1) &&& 1 == 1) : Bool) = false from (by
          rw [pow_and_one (k - 1) (by omega)]
          rfl), if_neg (by simp)]
        rw [pow_shiftRight_one (k - 1) (by omega)]
        obtain ⟨q, hq1, hq2, hq3, hq4⟩ := ih mask (i + 1) (k - 1)
          (by omega) (by simp [hb] at h2; omega)
        refine ⟨q + 1, by omega, ?hb2, ?hc2, ?hr2⟩
        · rw [show i + (q + 1) = i + 1 + q by omega]
          exact hq2
        · rw [cntIn_step, hq3]
          simp [hb] <;> omega
        · rw [show k - 1 - 1 = k - 2 from rfl] at hq4
          rw [show k - 1 - 1 = k - 2 from rfl]
          rw [hq4, Nat.zero_add, show i + (q + 1) = i + 1 + q by omega]
    · show ∃ q, _ ∧ _ ∧ _ ∧
        (if mask.testBit i then
          (if 2 ^ (k - 1) &&& 1 == 1 then 2 ^ i else 0) +
            pdepAux (2 ^ (k - 1) >>> 1) mask (i + 1) n
          else pdepAux (2 ^ (k - 1)) mask (i + 1) n) = _
      rw [if_neg hb]
      obtain ⟨q, hq1, hq2, hq3, hq4⟩ := ih mask (i + 1) k h1
        (by simp [hb] at h2; omega)
      refine ⟨q + 1, by omega, ?hb3, ?hc3, ?hr3⟩
      · rw [show i + (q + 1) = i + 1 + q by omega]
        exact hq2
      · rw [cntIn_step, hq3]
        simp [hb] <;> omega
      · rw [hq4, show i + (q + 1) = i + 1 + q by omega]

theorem ctzAux_pow (q : Nat) :
    ∀ fuel, q < fuel → ctzAux (2 ^ q) fuel = q := by
  induction q with
  | zero =>
    intro fuel hf
    cases fuel with
    | zero => omega
    | succ f => rfl
  | succ q ih =>
    intro fuel hf
    cases fuel with
    | zero => omega
    | succ f =>
      show (if 2 ^ (q + 1) &&& 1 == 1 then 0
        else 1 + ctzAux (2 ^ (q + 1) >>> 1) f) = q + 1
      rw [show ((2 ^ (q + 1) &&& 1 == 1) : Bool) = false from (by
        rw [pow_and_one (q + 1) (by omega)]
        rfl), if_neg (by simp)]
      rw [pow_shiftRight_one (q + 1) (by omega), Nat.add_sub_cancel,
        ih f (by omega)]
      omega

/-- The PDEP word select is correct for valid inputs. -/
theorem word_select1_pdep_correct (w k : Nat) (hk1 : 1 ≤ k)
    (hk2 : k ≤ popcount w) : IsNthOne w k (word_select1_pdep w k) := by
  have hcnt : k ≤ cntIn w 0 64 := by
    rw [cntIn_zero_left]
    exact hk2
  obtain ⟨q, hq1, hq2, hq3, hq4⟩ := pdepAux_single 64 w 0 k hk1 hcnt
  unfold word_select1_pdep pdep
  rw [show 1 <<< (k - 1) = 2 ^ (k - 1) by
    rw [Nat.shiftLeft_eq, Nat.one_mul], hq4]
  rw [Nat.zero_add] at hq2 ⊢
  unfold countr_zero
  rw [ctzAux_pow q 64 hq1]
  refine ⟨hq2, ?hc⟩
  rw [← cntIn_zero_left]
  exact hq3

/-- Claim C9: for every 64-bit word `w` and every `k` with
`1 ≤ k ≤ popcount w`, the PDEP, branchless binary-search and linear-scan
implementations of `word_select1` all return the same value, namely the
0-indexed position of the `k`-th set bit of `w`. -/
theorem claim_C9 (w k : Nat) (_hw : w < 2 ^ 64) (hk1 : 1 ≤ k)
    (hk2 : k ≤ popcount w) :
    word_select1_pdep w k = word_select1_linear w k ∧
    word_select1_binary w k = word_select1_linear w k ∧
    IsNthOne w k (word_select1_linear w k) := by
  have hl := word_select1_linear_correct w k hk1 hk2
  have hb := word_select1_binary_correct w k hk1 hk2
  have hp := word_select1_pdep_correct w k hk1 hk2
  exact ⟨isNthOne_unique w k _ _ hp hl, isNthOne_unique w k _ _ hb hl, hl⟩

/-- Witness for claim C9 at `w = 0b10110`, `k = 2` (the answer is bit 2). -/
theorem claim_C9_witness :
    ((22 : Nat) < 2 ^ 64 ∧ 1 ≤ 2 ∧ 2 ≤ popcount 22) ∧
    (word_select1_pdep 22 2 = word_select1_linear 22 2 ∧
    word_select1_binary 22 2 = word_select1_linear 22 2 ∧
    IsNthOne 22 2 (word_select1_linear 22 2)) :=
  ⟨by decide, claim_C9 22 2 (by decide) (by decide) (by decide)⟩

/-! ### `bitsy/select/two_layer_select.hpp`: the query side

The 64-bit machine values are represented as naturals.  Subtractions, which
can genuinely wrap on the machine, are written in explicit two's-complement
form (`sub64`); additions and index computations are written as plain
naturals — on the in-range inputs considered by the theorems below every
intermediate stays far below `2 ^ 64`, so they agree with the machine
arithmetic. -/

/-- 64-bit truncation: the value of a C++ `Word`-typed expression. -/
def w64 (x : Nat) : Nat := x % 2 ^ 64

/-- 64-bit wrapping subtraction (C++ `a - b` on `Word` / `std::size_t`). -/
def sub64 (a b : Nat) : Nat := (2 ^ 64 + a - b) % 2 ^ 64

theorem w64_eq (x : Nat) (h : x < 2 ^ 64) : w64 x = x := Nat.mod_eq_of_lt h

theorem sub64_eq (a b : Nat) (ha : a < 2 ^ 64) (hb : b ≤ a) :
    sub64 a b = a - b := by
  unfold sub64
  omega

/-- The branchless binary search shared by the superblock- and block-descent
steps of `select0` / `select1` (`while (length > 1) ...`), with the probed
rank value abstracted as `f`. -/
def bsLoop (f : Nat → Nat) (rank idx length : Nat) : Nat :=
  if length ≤ 1 then idx
  else
    bsLoop f rank
      (idx + if f (idx + length / 2) < rank then length / 2 else 0)
      (length - length / 2)
termination_by length
decreasing_by omega

/-- The word-descent loop of `select0` / `select1`
(`while ((word_rank = current_word_rank()) < rank) ...`), with the current
word's rank abstracted as `wr`; `fuel` bounds the number of iterations (on
the inputs considered below the loop provably stops within the 8 words of a
block).  Returns the final `num_word` and remaining `rank`. -/
def wordLoop (wr : Nat → Nat) (num_word rank : Nat) : Nat → Nat × Nat
  | 0 => (num_word, rank)
  | fuel + 1 =>
    if wr num_word < rank then
      wordLoop wr (num_word + 1) (sub64 rank (wr num_word)) fuel
    else (num_word, rank)

/-- `TwoLayerSelect::select1(rank)` with the default template parameters
(binary search for superblocks and blocks, linear-scan `word_select1`). -/
def Sel.select1 (sel : Sel) (rank : Nat) : Nat :=
  let nearest_prev_sample := sub64 rank 1 / kStride
  let num_superblock := sel.one_samples nearest_prev_sample
  let num_last_superblock := sel.one_samples (nearest_prev_sample + 1)
  let sbd := sel.bitvector.sbdata
  let num_superblock := bsLoop sbd rank num_superblock
    (w64 (sub64 num_last_superblock num_superblock + 1))
  let rank := sub64 rank (sbd num_superblock)
  let d := sel.bitvector.data
  let block_rank := fun (offset : Nat) =>
    d (offset * kNumWordsPerBlock) &&& setbits kBlockHeaderWidth
  let num_block := bsLoop block_rank rank
    (num_superblock * kNumBlocksPerSuperblock) kNumBlocksPerSuperblock
  let rank := sub64 rank (block_rank num_block)
  let base := num_block * kNumWordsPerBlock
  let wr := fun (nw : Nat) =>
    if nw = 0 then popcount (d (base + nw) >>> kBlockHeaderWidth)
    else popcount (d (base + nw))
  let p := wordLoop wr 0 rank kNumWordsPerBlock
  let num_word := p.1
  let rank := p.2
  let word := if num_word = 0 then
      d (base + num_word) &&& compl64 (setbits kBlockHeaderWidth)
    else d (base + num_word)
  sub64 (w64 (num_block * kBlockDataWidth + num_word * kWordWidth +
    word_select1_linear word rank)) kBlockHeaderWidth

/-- `TwoLayerSelect::select0(rank)` with the default template parameters. -/
def Sel.select0 (sel : Sel) (rank : Nat) : Nat :=
  let nearest_prev_sample := sub64 rank 1 / kStride
  let num_superblock := sel.zero_samples nearest_prev_sample
  let num_last_superblock := sel.zero_samples (nearest_prev_sample + 1)
  let sbd := sel.bitvector.sbdata
  let superblock_rank := fun (s : Nat) =>
    sub64 (w64 (s * kSuperblockDataWidth)) (sbd s)
  let num_superblock := bsLoop superblock_rank rank num_superblock
    (w64 (sub64 num_last_superblock num_superblock + 1))
  let rank := sub64 rank (superblock_rank num_superblock)
  let d := sel.bitvector.data
  let block_rank := fun (b : Nat) =>
    sub64 (w64 (b % kNumBlocksPerSuperblock * kBlockDataWidth))
      (d (b * kNumWordsPerBlock) &&& setbits kBlockHeaderWidth)
  let num_block := bsLoop block_rank rank
    (num_superblock * kNumBlocksPerSuperblock) kNumBlocksPerSuperblock
  let rank := sub64 rank (block_rank num_block)
  let base := num_block * kNumWordsPerBlock
  let wr := fun (nw : Nat) =>
    if nw = 0 then
      popcount (compl64 (d (base + nw) ||| setbits kBlockHeaderWidth))
    else popcount (compl64 (d (base + nw)))
  let p := wordLoop wr 0 rank kNumWordsPerBlock
  let num_word := p.1
  let rank := p.2
  let word := if num_word = 0 then
      d (base + num_word) ||| setbits kBlockHeaderWidth
    else d (base + num_word)
  sub64 (w64 (num_block * kBlockDataWidth + num_word * kWordWidth +
    word_select1_linear (compl64 word) rank)) kBlockHeaderWidth

/-! #### Generic correctness of the two descent loops -/

/-- `bsLoop` returns the last index of the window whose probed rank is
still below `rank`, provided the probed values cross the threshold once. -/
theorem bsLoop_spec (f : Nat → Nat) (rank : Nat) : ∀ length idx T,
    idx ≤ T → T < idx + length →
    (∀ j, idx ≤ j → j ≤ T → f j < rank) →
    (∀ j, T < j → j < idx + length → rank ≤ f j) →
    bsLoop f rank idx length = T := by
  intro length
  induction length using Nat.strong_induction_on with
  | _ length ih =>
    intro idx T h1 h2 hlow hhigh
    rw [bsLoop]
    by_cases hl : length ≤ 1
    · rw [if_pos hl]
      omega
    · rw [if_neg hl]
      by_cases hc : f (idx + length / 2) < rank
      · rw [if_pos hc]
        have hT : idx + length / 2 ≤ T := by
          by_contra hg
          exact absurd (hhigh (idx + length / 2) (by omega) (by omega))
            (by omega)
        exact ih (length - length / 2) (by omega) (idx + length / 2) T hT
          (by omega) (fun j hj1 hj2 => hlow j (by omega) hj2)
          (fun j hj1 hj2 => hhigh j hj1 (by omega))
      · rw [if_neg hc, Nat.add_zero]
        have hT : T < idx + length / 2 := by
          by_contra hg
          exact absurd (hlow (idx + length / 2) (by omega) (by omega)) hc
        exact ih (length - length / 2) (by omega) idx T h1 (by omega)
          hlow (fun j hj1 hj2 => hhigh j hj1 (by omega))

/-- The sum of the word ranks `wr` over word indices `[a, b)`. -/
def wSum (wr : Nat → Nat) (a b : Nat) : Nat :=
  ((List.range (b - a)).map (fun t => wr (a + t))).sum

theorem wSum_self (wr : Nat → Nat) (a : Nat) : wSum wr a a = 0 := by
  unfold wSum
  simp

theorem wSum_head (wr : Nat → Nat) (a b : Nat) (h : a < b) :
    wSum wr a b = wr a + wSum wr (a + 1) b := by
  unfold wSum
  rw [show b - a = (b - (a + 1)) + 1 by omega, List.range_succ_eq_map,
    List.map_cons, List.sum_cons, List.map_map]
  congr 2
  apply List.map_congr_left
  intro t _
  simp only [Function.comp_apply, Nat.succ_eq_add_one]
  rw [show a + (t + 1) = a + 1 + t by omega]

theorem wSum_last (wr : Nat → Nat) (a b : Nat) (h : a ≤ b) :
    wSum wr a (b + 1) = wSum wr a b + wr b := by
  unfold wSum
  rw [show b + 1 - a = (b - a) + 1 by omega, List.range_succ,
    List.map_append, List.sum_append]
  simp [show a + (b - a) = b by omega]

/-- The word-descent loop stops exactly at the word `wp` whose cumulative
rank first reaches `rank`, with the rank reduced by the preceding words. -/
theorem wordLoop_spec (wr : Nat → Nat) : ∀ fuel nw rank wp,
    nw ≤ wp → wp < nw + fuel → rank < 2 ^ 64 →
    (∀ j, nw ≤ j → j < wp → wSum wr nw (j + 1) < rank) →
    rank ≤ wSum wr nw (wp + 1) →
    wordLoop wr nw rank fuel = (wp, rank - wSum wr nw wp) := by
  intro fuel
  induction fuel with
  | zero =>
    intro nw rank wp h1 h2 _ _ _
    omega
  | succ fuel ih =>
    intro nw rank wp h1 h2 hr hlt hge
    show (if wr nw < rank then wordLoop wr (nw + 1) (sub64 rank (wr nw)) fuel
      else (nw, rank)) = _
    rcases Nat.eq_or_lt_of_le h1 with he | hlt2
    · rw [← he] at hge ⊢
      rw [wSum_head wr nw (nw + 1) (by omega), wSum_self] at hge
      rw [if_neg (by omega), wSum_self, Nat.sub_zero]
    · have hcont : wr nw < rank := by
        have h := hlt nw (le_refl nw) hlt2
        rw [wSum_head wr nw (nw + 1) (by omega), wSum_self] at h
        omega
      rw [if_pos hcont, sub64_eq rank (wr nw) hr (by omega)]
      have happ := ih (nw + 1) (rank - wr nw) wp (by omega) (by omega)
        (by omega)
        (fun j hj1 hj2 => by
          have h := hlt j (by omega) hj2
          rw [wSum_head wr nw (j + 1) (by omega)] at h
          omega)
        (by
          have h := hge
          rw [wSum_head wr nw (wp + 1) (by omega)] at h
          omega)
      rw [happ]
      have hsplit : wSum wr nw wp = wr nw + wSum wr (nw + 1) wp :=
        wSum_head wr nw wp (by omega)
      rw [hsplit]
      congr 1
      omega

/-! #### Positional counting facts for the query side -/

theorem ones_succ (bv : BV) (m : Nat) :
    bv.ones (m + 1) = bv.ones m + if bv.is_set m then 1 else 0 := by
  show (List.range (m + 1)).countP (fun q => bv.is_set q) = _
  rw [countP_range_add (fun q => bv.is_set q) m 1]
  congr 1
  show (List.range 1).countP (fun i => bv.is_set (m + i)) = _
  rw [show List.range 1 = [0] from rfl, List.countP_singleton, Nat.add_zero]

theorem ones_mono (bv : BV) {a b : Nat} (h : a ≤ b) :
    bv.ones a ≤ bv.ones b := by
  unfold BV.ones
  rw [show b = a + (b - a) by omega, countP_range_add]
  omega

theorem ones_add_le (bv : BV) (a b : Nat) (h : a ≤ b) :
    bv.ones b ≤ bv.ones a + (b - a) := by
  unfold BV.ones
  rw [show b = a + (b - a) by omega, countP_range_add]
  have hle := List.countP_le_length
    (l := List.range (b - a)) (p := fun i => bv.is_set (a + i))
  rw [List.length_range] at hle
  omega

theorem ones_le_self (bv : BV) (m : Nat) : bv.ones m ≤ m := by
  have := ones_add_le bv 0 m (by omega)
  have hz : bv.ones 0 = 0 := rfl
  omega

/-- Every rank `1 ≤ r ≤ ones m` is attained: there is a position `p < m`
with `is_set p` and exactly `r - 1` ones below it. -/
theorem exists_nth_one (bv : BV) : ∀ m r, 1 ≤ r → r ≤ bv.ones m →
    ∃ p, p < m ∧ bv.is_set p = true ∧ bv.ones p = r - 1 := by
  intro m
  induction m with
  | zero =>
    intro r h1 h2
    rw [show bv.ones 0 = 0 from rfl] at h2
    omega
  | succ m ih =>
    intro r h1 h2
    rw [ones_succ] at h2
    by_cases hr : r ≤ bv.ones m
    · obtain ⟨p, hp1, hp2, hp3⟩ := ih r h1 hr
      exact ⟨p, by omega, hp2, hp3⟩
    · by_cases hb : bv.is_set m
      · refine ⟨m, by omega, hb, ?hc⟩
        simp [hb] at h2
        omega
      · simp [hb] at h2
        omega

/-- Every rank `1 ≤ r ≤ m - ones m` is attained by a zero: there is a
position `p < m` with `is_set p` false and exactly `r - 1` zeros below
it. -/
theorem exists_nth_zero (bv : BV) : ∀ m r, 1 ≤ r → r ≤ m - bv.ones m →
    ∃ p, p < m ∧ bv.is_set p = false ∧ p - bv.ones p = r - 1 := by
  intro m
  induction m with
  | zero =>
    intro r h1 h2
    omega
  | succ m ih =>
    intro r h1 h2
    rw [ones_succ] at h2
    have hos := ones_le_self bv m
    by_cases hr : r ≤ m - bv.ones m
    · obtain ⟨p, hp1, hp2, hp3⟩ := ih r h1 hr
      exact ⟨p, by omega, hp2, hp3⟩
    · by_cases hb : bv.is_set m
      · simp [hb] at h2
        omega
      · refine ⟨m, by omega, by simp [hb], ?hc⟩
        simp [hb] at h2
        omega

/-! #### What `TwoLayerSelect::update()` writes into the sample buffers -/

theorem kStride_eq : kStride = 32768 := rfl

/-- `v` is the `i`-th sample for the running block totals `T`: the
superblock index of the first block whose cumulative count reaches
`i * kStride`, that block lying among the first `m` handled. -/
def SampleAt (T : Nat → Nat) (m i v : Nat) : Prop :=
  ∃ B, B < m ∧ v = B * kBlockDataWidth / kSuperblockDataWidth ∧
    i * kStride ≤ T (B + 1) ∧ ∀ C, C < B → T (C + 1) < i * kStride

theorem SampleAt_mono (T : Nat → Nat) (m i v : Nat)
    (h : SampleAt T m i v) : SampleAt T (m + 1) i v := by
  obtain ⟨B, hB, hv, hle, hmin⟩ := h
  exact ⟨B, by omega, hv, hle, hmin⟩

/-- The state of `TwoLayerSelect::update()` after its loop has handled the
first `m` blocks, whose cumulative one/zero counts are `TO` / `TZ`; the
sample slots not yet written still hold the allocator memory
`os0` / `zs0`. -/
def SelInv (TO TZ os0 zs0 : Nat → Nat) (m : Nat) (st : SelSt) : Prop :=
  st.total_ones = TO m ∧ st.total_zeros = TZ m ∧
  st.cur_one = (if m = 0 then 0 else TO m / kStride + 1) ∧
  st.cur_zero = (if m = 0 then 0 else TZ m / kStride + 1) ∧
  st.threshold_one = st.cur_one * kStride ∧
  st.threshold_zero = st.cur_zero * kStride ∧
  (∀ i, i < st.cur_one → SampleAt TO m i (st.os i)) ∧
  (∀ i, st.cur_one ≤ i → st.os i = os0 i) ∧
  (∀ i, i < st.cur_zero → SampleAt TZ m i (st.zs i)) ∧
  (∀ i, st.cur_zero ≤ i → st.zs i = zs0 i)

theorem handleBlock_total_ones (st : SelSt) (m a c : Nat) :
    (handleBlock st m a c).total_ones = st.total_ones + a := by
  simp only [handleBlock]

theorem handleBlock_total_zeros (st : SelSt) (m a c : Nat) :
    (handleBlock st m a c).total_zeros = st.total_zeros + c := by
  simp only [handleBlock]

theorem handleBlock_cur_one (st : SelSt) (m a c : Nat) :
    (handleBlock st m a c).cur_one =
      if st.threshold_one ≤ st.total_ones + a then st.cur_one + 1
      else st.cur_one := by
  simp only [handleBlock]
  split_ifs <;> rfl

theorem handleBlock_cur_zero (st : SelSt) (m a c : Nat) :
    (handleBlock st m a c).cur_zero =
      if st.threshold_zero ≤ st.total_zeros + c then st.cur_zero + 1
      else st.cur_zero := by
  simp only [handleBlock]
  split_ifs <;> rfl

theorem handleBlock_threshold_one (st : SelSt) (m a c : Nat) :
    (handleBlock st m a c).threshold_one =
      if st.threshold_one ≤ st.total_ones + a then
        st.threshold_one + kStride
      else st.threshold_one := by
  simp only [handleBlock]
  split_ifs <;> rfl

theorem handleBlock_threshold_zero (st : SelSt) (m a c : Nat) :
    (handleBlock st m a c).threshold_zero =
      if st.threshold_zero ≤ st.total_zeros + c then
        st.threshold_zero + kStride
      else st.threshold_zero := by
  simp only [handleBlock]
  split_ifs <;> rfl

theorem handleBlock_os (st : SelSt) (m a c : Nat) :
    (handleBlock st m a c).os =
      if st.threshold_one ≤ st.total_ones + a then
        Function.update st.os st.cur_one
          (m * kBlockDataWidth / kSuperblockDataWidth)
      else st.os := by
  simp only [handleBlock]
  split_ifs <;> rfl

theorem handleBlock_zs (st : SelSt) (m a c : Nat) :
    (handleBlock st m a c).zs =
      if st.threshold_zero ≤ st.total_zeros + c then
        Function.update st.zs st.cur_zero
          (m * kBlockDataWidth / kSuperblockDataWidth)
      else st.zs := by
  simp only [handleBlock]
  split_ifs <;> rfl

/-- One threshold-check of `handle_block`, for either of the two sides:
how the sample counter and the sample slots evolve. -/
theorem side_inv (T os0 : Nat → Nat) (m aa cur : Nat) (arr : Nat → Nat)
    (hcur : cur = if m = 0 then 0 else T m / kStride + 1)
    (hsamp : ∀ i, i < cur → SampleAt T m i (arr i))
    (hrest : ∀ i, cur ≤ i → arr i = os0 i)
    (hmono : ∀ x y, x ≤ y → T x ≤ T y)
    (hT0 : T 0 = 0)
    (hstep : T (m + 1) = T m + aa) (haa : aa < kStride) :
    ((if cur * kStride ≤ T (m + 1) then cur + 1 else cur) =
      T (m + 1) / kStride + 1) ∧
    (∀ i, i < (if cur * kStride ≤ T (m + 1) then cur + 1 else cur) →
      SampleAt T (m + 1) i
        ((if cur * kStride ≤ T (m + 1) then
            Function.update arr cur
              (m * kBlockDataWidth / kSuperblockDataWidth)
          else arr) i)) ∧
    (∀ i, (if cur * kStride ≤ T (m + 1) then cur + 1 else cur) ≤ i →
      (if cur * kStride ≤ T (m + 1) then
          Function.update arr cur
            (m * kBlockDataWidth / kSuperblockDataWidth)
        else arr) i = os0 i) := by
  rw [kStride_eq] at haa ⊢
  rcases Nat.eq_zero_or_pos m with hm | hm
  · subst hm
    have hcur0 : cur = 0 := by rw [hcur]; exact if_pos rfl
    subst hcur0
    simp only [Nat.zero_add] at hstep ⊢
    rw [hT0, Nat.zero_add] at hstep
    have hw : 0 * 32768 ≤ T 1 := by omega
    rw [if_pos hw, if_pos hw]
    refine ⟨by omega, ?hs0, ?hr0⟩
    · intro i hi
      have hi0 : i = 0 := by omega
      subst hi0
      rw [Function.update_same]
      exact ⟨0, by omega, rfl,
        by simp only [Nat.zero_add]; rw [kStride_eq]; omega,
        fun C hC => absurd hC (by omega)⟩
    · intro i hi
      rw [Function.update_noteq (by omega)]
      exact hrest i (by omega)
  · rw [if_neg (by omega)] at hcur
    rw [kStride_eq] at hcur
    have hup : T m < cur * 32768 := by omega
    have hlo : (cur - 1) * 32768 ≤ T m := by
      have : T m / 32768 * 32768 ≤ T m := Nat.div_mul_le_self _ _
      omega
    by_cases hw : cur * 32768 ≤ T (m + 1)
    · rw [if_pos hw, if_pos hw]
      refine ⟨by omega, ?hs1, ?hr1⟩
      · intro i hi
        rcases Nat.lt_or_ge i cur with hic | hic
        · rw [Function.update_noteq (by omega)]
          exact SampleAt_mono T m i (arr i) (hsamp i hic)
        · have hieq : i = cur := by omega
          subst hieq
          rw [Function.update_same]
          refine ⟨m, by omega, rfl, by rw [kStride_eq]; omega, ?hmin⟩
          intro C hC
          have := hmono (C + 1) m (by omega)
          rw [kStride_eq]
          omega
      · intro i hi
        rw [Function.update_noteq (by omega)]
        exact hrest i (by omega)
    · rw [if_neg hw, if_neg hw]
      have hge : T m ≤ T (m + 1) := by omega
      refine ⟨by omega, ?hs2, ?hr2⟩
      · intro i hi
        exact SampleAt_mono T m i (arr i) (hsamp i hi)
      · exact hrest

/-- `handle_block` preserves the update-loop invariant. -/
theorem handleBlock_inv (TO TZ os0 zs0 : Nat → Nat) (m a c : Nat)
    (st : SelSt) (hinv : SelInv TO TZ os0 zs0 m st)
    (hTO0 : TO 0 = 0) (hTZ0 : TZ 0 = 0)
    (hTOs : TO (m + 1) = TO m + a) (hTZs : TZ (m + 1) = TZ m + c)
    (hTOm : ∀ x y, x ≤ y → TO x ≤ TO y)
    (hTZm : ∀ x y, x ≤ y → TZ x ≤ TZ y)
    (ha : a < kStride) (hc : c < kStride) :
    SelInv TO TZ os0 zs0 (m + 1) (handleBlock st m a c) := by
  obtain ⟨h1, h2, h3, h4, h5, h6, h7, h8, h9, h10⟩ := hinv
  have hsideO := side_inv TO os0 m a st.cur_one st.os h3 h7 h8 hTOm hTO0
    hTOs ha
  have hsideZ := side_inv TZ zs0 m c st.cur_zero st.zs h4 h9 h10 hTZm hTZ0
    hTZs hc
  have hcondO : (st.threshold_one ≤ st.total_ones + a) =
      (st.cur_one * kStride ≤ TO (m + 1)) := by
    rw [h5, h1, hTOs]
  have hcondZ : (st.threshold_zero ≤ st.total_zeros + c) =
      (st.cur_zero * kStride ≤ TZ (m + 1)) := by
    rw [h6, h2, hTZs]
  obtain ⟨hoc, hos, hor⟩ := hsideO
  obtain ⟨hzc, hzs, hzr⟩ := hsideZ
  refine ⟨?t1, ?t2, ?t3, ?t4, ?t5, ?t6, ?t7, ?t8, ?t9, ?t10⟩
  case t1 =>
    rw [handleBlock_total_ones, h1, hTOs]
  case t2 =>
    rw [handleBlock_total_zeros, h2, hTZs]
  case t3 =>
    rw [handleBlock_cur_one]
    simp only [hcondO]
    rw [hoc, if_neg (by omega : ¬ (m + 1 = 0))]
  case t4 =>
    rw [handleBlock_cur_zero]
    simp only [hcondZ]
    rw [hzc, if_neg (by omega : ¬ (m + 1 = 0))]
  case t5 =>
    rw [handleBlock_threshold_one, handleBlock_cur_one, h5]
    split_ifs <;> ring
  case t6 =>
    rw [handleBlock_threshold_zero, handleBlock_cur_zero, h6]
    split_ifs <;> ring
  case t7 =>
    intro i hi
    rw [handleBlock_cur_one] at hi
    simp only [hcondO] at hi
    rw [handleBlock_os]
    simp only [hcondO]
    exact hos i hi
  case t8 =>
    intro i hi
    rw [handleBlock_cur_one] at hi
    simp only [hcondO] at hi
    rw [handleBlock_os]
    simp only [hcondO]
    exact hor i hi
  case t9 =>
    intro i hi
    rw [handleBlock_cur_zero] at hi
    simp only [hcondZ] at hi
    rw [handleBlock_zs]
    simp only [hcondZ]
    exact hzs i hi
  case t10 =>
    intro i hi
    rw [handleBlock_cur_zero] at hi
    simp only [hcondZ] at hi
    rw [handleBlock_zs]
    simp only [hcondZ]
    exact hzr i hi

/-- The update-loop invariant is preserved across the whole loop over all
but the last block. -/
theorem selLoop_inv (bv : BV) (TO TZ os0 zs0 : Nat → Nat)
    (hTO0 : TO 0 = 0) (hTZ0 : TZ 0 = 0)
    (hTOm : ∀ x y, x ≤ y → TO x ≤ TO y)
    (hTZm : ∀ x y, x ≤ y → TZ x ≤ TZ y) :
    ∀ n m st, SelInv TO TZ os0 zs0 m st →
    (∀ b, m ≤ b → b < m + n →
      TO (b + 1) = TO b + bv.block_popcount b ∧
      TZ (b + 1) = TZ b + (kBlockDataWidth - bv.block_popcount b) ∧
      bv.block_popcount b ≤ kBlockDataWidth) →
    SelInv TO TZ os0 zs0 (m + n) (selLoop bv st m n) := by
  intro n
  induction n with
  | zero =>
    intro m st hinv _
    exact hinv
  | succ n ih =>
    intro m st hinv hsteps
    show SelInv TO TZ os0 zs0 (m + (n + 1))
      (selLoop bv (handleBlock st m (bv.block_popcount m)
        (kBlockDataWidth - bv.block_popcount m)) (m + 1) n)
    rw [show m + (n + 1) = (m + 1) + n by omega]
    obtain ⟨hs1, hs2, hs3⟩ := hsteps m (by omega) (by omega)
    refine ih (m + 1) _ ?hinv1 ?hsteps1
    · refine handleBlock_inv TO TZ os0 zs0 m _ _ st hinv hTO0 hTZ0 hs1 hs2
        hTOm hTZm ?haa ?hcc
      · rw [kStride_eq]
        rw [kBlockDataWidth_eq] at hs3
        omega
      · rw [kStride_eq, kBlockDataWidth_eq]
        omega
    · intro b hb1 hb2
      exact hsteps b (by omega) (by omega)

/-- The cumulative number of ones handled by `TwoLayerSelect::update()`
after its first `m` blocks, for the supported vector `v`. -/
def TOf (v : BV) : Nat → Nat := fun m =>
  prefixOnes v.data (min m v.num_blocks)

/-- The cumulative number of (real) zeros handled by
`TwoLayerSelect::update()` after its first `m` blocks. -/
def TZf (v : BV) : Nat → Nat := fun m =>
  min (m * kBlockDataWidth) v.length - prefixOnes v.data (min m v.num_blocks)

theorem TOf_zero (v : BV) : TOf v 0 = 0 := by
  unfold TOf
  rw [Nat.zero_min]
  exact prefixOnes_zero _

theorem TZf_zero (v : BV) : TZf v 0 = 0 := by
  unfold TZf
  rw [Nat.zero_mul, Nat.zero_min, Nat.zero_min, prefixOnes_zero]

theorem block_popcount_eq (v : BV) (hWF : WF v) (b : Nat)
    (hb : b < v.num_blocks + kNumBlocksPerSuperblock) :
    v.block_popcount b = blockOnes v.data b := by
  unfold BV.block_popcount
  refine blockPopcountAt_eq_blockOnes v.data b (hWF.2.1 _ ?hj)
  unfold BV.dataSize
  rw [kNumWordsPerBlock_eq, kNumBlocksPerSuperblock_eq] at *
  omega

theorem prefixOnes_le (v : BV) (B : Nat) :
    prefixOnes v.data B ≤ B * kBlockDataWidth := by
  rw [prefixOnes_eq_ones]
  exact ones_le_self v (B * kBlockDataWidth)

/-- No stored bit at or beyond `length` (among the real blocks) is set, so
positional rank is insensitive to capping at `length`. -/
theorem ones_cap (v : BV) (hWF : WF v) (x : Nat)
    (hx : x ≤ v.num_blocks * kBlockDataWidth) :
    v.ones x = v.ones (min x v.length) := by
  rcases Nat.le_total x v.length with h | h
  · rw [Nat.min_eq_left h]
  · rw [Nat.min_eq_right h]
    unfold BV.ones
    rw [show x = v.length + (x - v.length) by omega, countP_range_add]
    have hz : (List.range (x - v.length)).countP
        (fun i => v.is_set (v.length + i)) = 0 := by
      rw [List.countP_eq_zero]
      intro q hq hcon
      rw [List.mem_range] at hq
      have hcon2 : v.is_set (v.length + q) = true := hcon
      rw [hWF.2.2 (v.length + q) (by omega) (by omega)] at hcon2
      exact Bool.noConfusion hcon2
    omega

theorem TOf_eq (v : BV) (hWF : WF v) (m : Nat) :
    TOf v m = v.ones (min (m * kBlockDataWidth) v.length) := by
  unfold TOf
  rw [prefixOnes_eq_ones]
  have hmm : min m v.num_blocks * kBlockDataWidth =
      min (m * kBlockDataWidth) (v.num_blocks * kBlockDataWidth) := by
    rcases Nat.le_total m v.num_blocks with h | h
    · rw [Nat.min_eq_left h,
        Nat.min_eq_left (Nat.mul_le_mul_right _ h)]
    · rw [Nat.min_eq_right h,
        Nat.min_eq_right (Nat.mul_le_mul_right _ h)]
  rw [hmm]
  have hcap := ones_cap v hWF
    (min (m * kBlockDataWidth) (v.num_blocks * kBlockDataWidth))
    (Nat.min_le_right _ _)
  rw [hcap]
  have hlen := num_blocks_ge v
  congr 1
  omega

theorem TZf_eq (v : BV) (hWF : WF v) (m : Nat) :
    TZf v m = min (m * kBlockDataWidth) v.length -
      v.ones (min (m * kBlockDataWidth) v.length) := by
  unfold TZf
  have h := TOf_eq v hWF m
  unfold TOf at h
  rw [h]

theorem TOf_mono (v : BV) : ∀ x y, x ≤ y → TOf v x ≤ TOf v y := by
  intro x y h
  exact prefixOnes_mono v.data (by omega)

theorem zeros_mono (v : BV) {a b : Nat} (h : a ≤ b) :
    a - v.ones a ≤ b - v.ones b := by
  have h1 := ones_add_le v a b h
  have h2 := ones_le_self v a
  omega

theorem TZf_mono (v : BV) (hWF : WF v) :
    ∀ x y, x ≤ y → TZf v x ≤ TZf v y := by
  intro x y h
  rw [TZf_eq v hWF, TZf_eq v hWF]
  exact zeros_mono v (by
    have := Nat.mul_le_mul_right kBlockDataWidth h
    omega)

theorem TOf_step (v : BV) (hWF : WF v) (b : Nat) (hb : b < v.num_blocks) :
    TOf v (b + 1) = TOf v b + v.block_popcount b := by
  unfold TOf
  rw [Nat.min_eq_left (by omega), Nat.min_eq_left (by omega),
    prefixOnes_succ, block_popcount_eq v hWF b (by omega)]

theorem TZf_step (v : BV) (hWF : WF v) (b : Nat)
    (hb : b + 1 < v.num_blocks) :
    TZf v (b + 1) = TZf v b +
      (kBlockDataWidth - v.block_popcount b) := by
  unfold TZf
  simp only [kBlockDataWidth_eq]
  have hlt := num_blocks_lt v
  rw [kBlockDataWidth_eq] at hlt
  have h1 : (b + 1) * 498 ≤ v.length := by
    have h2 : (b + 2) * 498 ≤ v.num_blocks * 498 :=
      Nat.mul_le_mul_right _ (by omega)
    omega
  have h0 : b * 498 ≤ v.length := by omega
  rw [Nat.min_eq_left h1, Nat.min_eq_left h0,
    Nat.min_eq_left (by omega : b + 1 ≤ v.num_blocks),
    Nat.min_eq_left (by omega : b ≤ v.num_blocks),
    prefixOnes_succ, block_popcount_eq v hWF b (by omega)]
  have h2 := prefixOnes_le v b
  have h3 := blockOnes_le v.data b
  rw [kBlockDataWidth_eq] at h2 h3
  omega

theorem num_blocks_pos (v : BV) (hl : v.length ≠ 0) : 1 ≤ v.num_blocks := by
  unfold BV.num_blocks div_ceil
  rw [kBlockDataWidth_eq]
  split_ifs <;> omega

theorem TZf_last (v : BV) (hWF : WF v) (hl : v.length ≠ 0) :
    TZf v v.num_blocks = TZf v (v.num_blocks - 1) +
      (kBlockDataWidth - v.block_popcount (v.num_blocks - 1) -
        (v.num_blocks * kBlockDataWidth - v.length)) := by
  have hpos := num_blocks_pos v hl
  have hge := num_blocks_ge v
  have hlt := num_blocks_lt v
  obtain ⟨B, hB⟩ : ∃ B, v.num_blocks = B + 1 := ⟨v.num_blocks - 1, by omega⟩
  have h2 := prefixOnes_le v B
  have h3 := blockOnes_le v.data B
  have hc2 : prefixOnes v.data (B + 1) =
      v.ones ((B + 1) * kBlockDataWidth) := prefixOnes_eq_ones v _
  have hc3 : prefixOnes v.data B = v.ones (B * kBlockDataWidth) :=
    prefixOnes_eq_ones v _
  have hc4 : prefixOnes v.data (B + 1) =
      prefixOnes v.data B + blockOnes v.data B := prefixOnes_succ _ _
  have hc1 := ones_cap v hWF ((B + 1) * kBlockDataWidth) (by rw [hB])
  rw [hB] at hge hlt ⊢
  rw [Nat.add_sub_cancel]
  rw [kBlockDataWidth_eq] at hge hlt
  have hc5 := ones_add_le v (B * kBlockDataWidth) v.length
    (by rw [kBlockDataWidth_eq]; omega)
  rw [Nat.min_eq_right (by rw [kBlockDataWidth_eq]; omega)] at hc1
  unfold TZf
  rw [hB]
  simp only [kBlockDataWidth_eq]
  rw [Nat.min_eq_right (by omega : v.length ≤ (B + 1) * 498),
    Nat.min_eq_left (le_refl (B + 1)),
    Nat.min_eq_left (by omega : B * 498 ≤ v.length),
    Nat.min_eq_left (by omega : B ≤ B + 1),
    prefixOnes_succ, block_popcount_eq v hWF B (by rw [hB]; omega)]
  rw [kBlockDataWidth_eq] at hc1 hc2 hc3 hc5 h2 h3
  omega

/-- What `TwoLayerSelect::update()` leaves in the two sample buffers: the
loop samples, the sentinel, and the untouched allocator memory beyond. -/
theorem selUpdate_chr (v : BV) (os0 zs0 : Nat → Nat) (st0 : SelSt)
    (hWF : WF v) (hl : v.length ≠ 0)
    (hinv0 : SelInv (TOf v) (TZf v) os0 zs0 0 st0) :
    (∀ i, i < TOf v v.num_blocks / kStride + 1 →
      SampleAt (TOf v) v.num_blocks i ((selUpdate v st0).os i)) ∧
    (selUpdate v st0).os (TOf v v.num_blocks / kStride + 1) =
      v.num_superblocks - 1 ∧
    (∀ i, TOf v v.num_blocks / kStride + 1 < i →
      (selUpdate v st0).os i = os0 i) ∧
    (∀ i, i < TZf v v.num_blocks / kStride + 1 →
      SampleAt (TZf v) v.num_blocks i ((selUpdate v st0).zs i)) ∧
    (selUpdate v st0).zs (TZf v v.num_blocks / kStride + 1) =
      v.num_superblocks - 1 ∧
    (∀ i, TZf v v.num_blocks / kStride + 1 < i →
      (selUpdate v st0).zs i = zs0 i) := by
  have hpos := num_blocks_pos v hl
  have hbp498 : ∀ b, b < v.num_blocks →
      v.block_popcount b ≤ kBlockDataWidth := by
    intro b hb
    rw [block_popcount_eq v hWF b (by omega)]
    exact blockOnes_le v.data b
  have hloop := selLoop_inv v (TOf v) (TZf v) os0 zs0 (TOf_zero v)
    (TZf_zero v) (TOf_mono v) (TZf_mono v hWF) (v.num_blocks - 1) 0 st0
    hinv0
    (fun b hb1 hb2 =>
      ⟨TOf_step v hWF b (by omega), TZf_step v hWF b (by omega),
        hbp498 b (by omega)⟩)
  rw [Nat.zero_add] at hloop
  have hlast := handleBlock_inv (TOf v) (TZf v) os0 zs0 (v.num_blocks - 1)
    (v.block_popcount (v.num_blocks - 1))
    (kBlockDataWidth - v.block_popcount (v.num_blocks - 1) -
      (v.num_blocks * kBlockDataWidth - v.length))
    (selLoop v st0 0 (v.num_blocks - 1)) hloop (TOf_zero v) (TZf_zero v)
    (TOf_step v hWF (v.num_blocks - 1) (by omega))
    (by
      rw [show v.num_blocks - 1 + 1 = v.num_blocks by omega]
      exact TZf_last v hWF hl)
    (TOf_mono v) (TZf_mono v hWF)
    (by
      have := hbp498 (v.num_blocks - 1) (by omega)
      rw [kStride_eq]
      rw [kBlockDataWidth_eq] at this
      omega)
    (by rw [kStride_eq, kBlockDataWidth_eq]; omega)
  rw [show v.num_blocks - 1 + 1 = v.num_blocks by omega] at hlast
  obtain ⟨g1, g2, g3, g4, g5, g6, g7, g8, g9, g10⟩ := hlast
  have hos : (selUpdate v st0).os = Function.update
      (handleBlock (selLoop v st0 0 (v.num_blocks - 1))
      (v.num_blocks - 1) (v.block_popcount (v.num_blocks - 1))
      (kBlockDataWidth - v.block_popcount (v.num_blocks - 1) -
        (v.num_blocks * kBlockDataWidth - v.length))).os
      (handleBlock (selLoop v st0 0 (v.num_blocks - 1))
      (v.num_blocks - 1) (v.block_popcount (v.num_blocks - 1))
      (kBlockDataWidth - v.block_popcount (v.num_blocks - 1) -
        (v.num_blocks * kBlockDataWidth - v.length))).cur_one
      (v.num_superblocks - 1) := by
    unfold selUpdate
    rw [if_neg hl]
  have hzs : (selUpdate v st0).zs = Function.update
      (handleBlock (selLoop v st0 0 (v.num_blocks - 1))
      (v.num_blocks - 1) (v.block_popcount (v.num_blocks - 1))
      (kBlockDataWidth - v.block_popcount (v.num_blocks - 1) -
        (v.num_blocks * kBlockDataWidth - v.length))).zs
      (handleBlock (selLoop v st0 0 (v.num_blocks - 1))
      (v.num_blocks - 1) (v.block_popcount (v.num_blocks - 1))
      (kBlockDataWidth - v.block_popcount (v.num_blocks - 1) -
        (v.num_blocks * kBlockDataWidth - v.length))).cur_zero
      (v.num_superblocks - 1) := by
    unfold selUpdate
    rw [if_neg hl]
  have hK1 : (handleBlock (selLoop v st0 0 (v.num_blocks - 1))
      (v.num_blocks - 1) (v.block_popcount (v.num_blocks - 1))
      (kBlockDataWidth - v.block_popcount (v.num_blocks - 1) -
        (v.num_blocks * kBlockDataWidth - v.length))).cur_one =
      TOf v v.num_blocks / kStride + 1 := by
    rw [g3, if_neg (by omega)]
  have hK0 : (handleBlock (selLoop v st0 0 (v.num_blocks - 1))
      (v.num_blocks - 1) (v.block_popcount (v.num_blocks - 1))
      (kBlockDataWidth - v.block_popcount (v.num_blocks - 1) -
        (v.num_blocks * kBlockDataWidth - v.length))).cur_zero =
      TZf v v.num_blocks / kStride + 1 := by
    rw [g4, if_neg (by omega)]
  refine ⟨?c1, ?c2, ?c3, ?c4, ?c5, ?c6⟩
  case c1 =>
    intro i hi
    rw [hos, Function.update_noteq (by omega)]
    exact g7 i (by omega)
  case c2 =>
    rw [hos, ← hK1, Function.update_same]
  case c3 =>
    intro i hi
    rw [hos, Function.update_noteq (by omega)]
    exact g8 i (by omega)
  case c4 =>
    intro i hi
    rw [hzs, Function.update_noteq (by omega)]
    exact g9 i (by omega)
  case c5 =>
    rw [hzs, ← hK0, Function.update_same]
  case c6 =>
    intro i hi
    rw [hzs, Function.update_noteq (by omega)]
    exact g10 i (by omega)

/-! #### The superblock table and block headers seen by the descent -/

/-- For a nonempty vector, the last superblock is the superblock of the
last real block, and it contains at least one real block. -/
theorem last_superblock (v : BV) (hl : v.length ≠ 0) :
    v.num_superblocks - 1 =
      (v.num_blocks - 1) / kNumBlocksPerSuperblock ∧
    kNumBlocksPerSuperblock * (v.num_superblocks - 1) < v.num_blocks := by
  unfold BV.num_superblocks BV.num_blocks div_ceil
  rw [kSuperblockDataWidth_eq, kBlockDataWidth_eq, kNumBlocksPerSuperblock_eq]
  split_ifs <;> constructor <;> omega

theorem update_sbdata_written (bv : BV) (s : Nat)
    (hs : kNumBlocksPerSuperblock * s < bv.num_blocks) :
    (bv.update).sbdata s =
      prefixOnes bv.data (kNumBlocksPerSuperblock * s) := by
  rw [update_sbdata, if_pos hs]

/-- The low header bits of any block probed inside the window of a real
superblock `s` — real or pad — read as the running intra-superblock rank
up to that block, capped at the end of the real data. -/
theorem update_window_header (bv : BV) (hl : bv.length ≠ 0) (s b : Nat)
    (hs : s ≤ bv.num_superblocks - 1)
    (hb1 : kNumBlocksPerSuperblock * s ≤ b)
    (hb2 : b < kNumBlocksPerSuperblock * (s + 1)) :
    (bv.update).data (b * kNumWordsPerBlock) &&& setbits kBlockHeaderWidth =
      prefixOnes bv.data (min b bv.num_blocks) -
        prefixOnes bv.data (kNumBlocksPerSuperblock * s) := by
  obtain ⟨harith1, harith2⟩ := last_superblock bv hl
  have hsnb : kNumBlocksPerSuperblock * s < bv.num_blocks := by
    have : kNumBlocksPerSuperblock * s ≤
        kNumBlocksPerSuperblock * (bv.num_superblocks - 1) :=
      Nat.mul_le_mul_left _ hs
    omega
  rcases Nat.lt_or_ge b bv.num_blocks with hreal | hpad
  · rw [update_header bv b hreal, Nat.min_eq_left (by omega)]
    unfold hdrVal
    have hbs : b / kNumBlocksPerSuperblock = s := by
      rw [kNumBlocksPerSuperblock_eq] at hb1 hb2 ⊢
      omega
    rw [hbs]
  · have hb32 : b < bv.num_blocks + kNumBlocksPerSuperblock := by
      have hnsp : 1 ≤ bv.num_superblocks := by
        unfold BV.num_superblocks div_ceil
        rw [kSuperblockDataWidth_eq]
        split_ifs <;> omega
      have hmul : kNumBlocksPerSuperblock * (s + 1) ≤
          kNumBlocksPerSuperblock * bv.num_superblocks :=
        Nat.mul_le_mul_left _ (by omega)
      rw [kNumBlocksPerSuperblock_eq] at hmul hb2 hsnb ⊢
      omega
    rw [update_data_pad_word0 bv b hpad hb32, Nat.min_eq_right (by omega)]
    unfold padVal
    rw [if_neg (by
      unfold div_ceil
      rw [kNumBlocksPerSuperblock_eq] at hb2 hsnb ⊢
      split_ifs <;> omega)]
    have hfc : finalCbr bv.data bv.num_blocks < 2 ^ 14 :=
      curBlockRank_lt bv.data bv.num_blocks
    rw [and_setbits14_of_lt _ hfc]
    unfold finalCbr
    have hbs : (bv.num_blocks - 1) / kNumBlocksPerSuperblock = s := by
      rw [kNumBlocksPerSuperblock_eq] at hb2 hsnb ⊢
      omega
    rw [hbs]

/-! #### Bit-level views of the words handled by the word-descent loop -/

theorem testBit_and_hdrmask (w i : Nat) :
    (w &&& compl64 (setbits kBlockHeaderWidth)).testBit i =
      (w.testBit i && (decide (14 ≤ i) && decide (i < 64))) := by
  rw [Nat.testBit_land]
  congr 1
  have hval : compl64 (setbits kBlockHeaderWidth) = 2 ^ 14 * (2 ^ 50 - 1) := by
    decide
  rw [hval]
  rcases Nat.lt_or_ge i 14 with h14 | h14
  · rw [Nat.testBit_mul_pow_two]
    simp [show ¬ (14 ≤ i) by omega]
  · rw [Nat.testBit_mul_pow_two]
    simp only [ge_iff_le, h14, decide_eq_true_eq, if_true, true_and]
    rw [Nat.testBit_two_pow_sub_one]
    rcases Nat.lt_or_ge i 64 with h64 | h64
    · simp [h14, h64, show i - 14 < 50 by omega]
    · simp [h14, show ¬ (i < 64) by omega, show ¬ (i - 14 < 50) by omega]

theorem testBit_or_hdrmask (w i : Nat) :
    (w ||| setbits kBlockHeaderWidth).testBit i =
      (w.testBit i || decide (i < 14)) := by
  rw [Nat.testBit_lor, setbits14_eq, Nat.testBit_two_pow_sub_one]

/-- The word ranks summed by `select1`'s word loop over the first `t + 1`
words of block `b` count exactly the first `50 + 64 t` payload bits. -/
theorem wSum_block (d : Nat → Nat) (b : Nat)
    (hd : d (b * kNumWordsPerBlock) < 2 ^ 64) :
    ∀ t, t ≤ 7 →
      wSum (fun nw => if nw = 0 then
          popcount (d (b * kNumWordsPerBlock + nw) >>> kBlockHeaderWidth)
        else popcount (d (b * kNumWordsPerBlock + nw))) 0 (t + 1) =
      (List.range (50 + 64 * t)).countP
        (fun r => bitOf d (b * kBlockDataWidth + r)) := by
  intro t ht
  rw [blockOnes_split d b t ht]
  rw [wSum_head _ 0 (t + 1) (by omega)]
  congr 1
  · show popcount (d (b * kNumWordsPerBlock + 0) >>> kBlockHeaderWidth) = _
    rw [Nat.add_zero, show kBlockHeaderWidth = 14 from rfl,
      popcount_shiftRight _ 14 (by omega) hd]
  · unfold wSum
    rw [show t + 1 - (0 + 1) = t by omega]
    apply congrArg
    apply List.map_congr_left
    intro u hu
    show (if 0 + 1 + u = 0 then
        popcount (d (b * kNumWordsPerBlock + (0 + 1 + u)) >>>
          kBlockHeaderWidth)
      else popcount (d (b * kNumWordsPerBlock + (0 + 1 + u)))) = _
    rw [if_neg (by omega), show b * kNumWordsPerBlock + (0 + 1 + u) =
      b * kNumWordsPerBlock + 1 + u by omega]

/-- Complementing a 64-bit word flips every one of its 64 bits. -/
theorem testBit_compl64 (w i : Nat) (hw : w < 2 ^ 64) (hi : i < 64) :
    (compl64 w).testBit i = !(w.testBit i) := by
  unfold compl64
  rw [Nat.testBit_xor, Nat.testBit_two_pow_sub_one]
  simp [hi]

theorem popcount_compl64 (w : Nat) (hw : w < 2 ^ 64) :
    popcount (compl64 w) =
      (List.range 64).countP (fun i => !(w.testBit i)) := by
  rw [popcount_def]
  apply List.countP_congr
  intro i hi
  rw [List.mem_range] at hi
  rw [testBit_compl64 w i hw hi]

theorem or_hdrmask_lt (w : Nat) (hw : w < 2 ^ 64) :
    w ||| setbits kBlockHeaderWidth < 2 ^ 64 := by
  refine Nat.or_lt_two_pow hw ?hm
  rw [setbits14_eq]
  norm_num

/-- The zero-rank of the first word of a block: the complement popcount of
the header-masked word counts exactly the 50 payload zeros of word 0. -/
theorem popcount_compl_word0 (w : Nat) (hw : w < 2 ^ 64) :
    popcount (compl64 (w ||| setbits kBlockHeaderWidth)) =
      (List.range 50).countP (fun j => !(w.testBit (14 + j))) := by
  have hor := or_hdrmask_lt w hw
  rw [popcount_compl64 _ hor]
  have hsplit := countP_range_add
    (fun i => !((w ||| setbits kBlockHeaderWidth).testBit i)) 14 50
  rw [show (14 : Nat) + 50 = 64 from rfl] at hsplit
  rw [hsplit]
  have h1 : (List.range 14).countP
      (fun i => !((w ||| setbits kBlockHeaderWidth).testBit i)) = 0 := by
    rw [List.countP_eq_zero]
    intro i hi hcon
    rw [List.mem_range] at hi
    rw [testBit_or_hdrmask] at hcon
    simp [hi] at hcon
  rw [h1, Nat.zero_add]
  apply List.countP_congr
  intro j hj
  rw [List.mem_range] at hj
  rw [testBit_or_hdrmask]
  simp [show ¬ (14 + j < 14) by omega]

/-- The word ranks summed by `select0`'s word loop over the first `t + 1`
words of block `b` count exactly the first `50 + 64 t` payload zeros. -/
theorem wSum_block0 (d : Nat → Nat) (b : Nat)
    (hd : ∀ u, u ≤ 7 → d (b * kNumWordsPerBlock + u) < 2 ^ 64) :
    ∀ t, t ≤ 7 →
      wSum (fun nw => if nw = 0 then
          popcount (compl64 (d (b * kNumWordsPerBlock + nw) |||
            setbits kBlockHeaderWidth))
        else popcount (compl64 (d (b * kNumWordsPerBlock + nw)))) 0
        (t + 1) =
      (List.range (50 + 64 * t)).countP
        (fun r => !(bitOf d (b * kBlockDataWidth + r))) := by
  intro t
  induction t with
  | zero =>
    intro _
    have hone : wSum (fun nw => if nw = 0 then
        popcount (compl64 (d (b * kNumWordsPerBlock + nw) |||
          setbits kBlockHeaderWidth))
      else popcount (compl64 (d (b * kNumWordsPerBlock + nw)))) 0 1 =
        popcount (compl64 (d (b * kNumWordsPerBlock) |||
          setbits kBlockHeaderWidth)) := by
      rw [wSum_head _ 0 1 (by omega), wSum_self]
      simp
    have hd0 : d (b * kNumWordsPerBlock) < 2 ^ 64 := by
      have h := hd 0 (by omega)
      rw [Nat.add_zero] at h
      exact h
    rw [hone, popcount_compl_word0 _ hd0]
    simp only [Nat.mul_zero, Nat.add_zero]
    apply List.countP_congr
    intro r hr
    rw [List.mem_range] at hr
    rw [bitOf_block_word0 d b r (by omega)]
  | succ t ih =>
    intro ht
    rw [wSum_last _ 0 (t + 1) (by omega), ih (by omega)]
    have hsplit := countP_range_add
      (fun r => !(bitOf d (b * kBlockDataWidth + r))) (50 + 64 * t) 64
    rw [show 50 + 64 * t + 64 = 50 + 64 * (t + 1) by omega] at hsplit
    rw [hsplit]
    congr 1
    rw [if_neg (by omega)]
    rw [popcount_compl64 _ (hd (t + 1) (by omega))]
    apply List.countP_congr
    intro i hi
    rw [List.mem_range] at hi
    rw [show b * kBlockDataWidth + (50 + 64 * t + i) =
      b * kBlockDataWidth + (50 + 64 * t + i) from rfl]
    have hbt := bitOf_block_wordt d b t i (by omega) hi
    rw [show b * kBlockDataWidth + (50 + 64 * t + i) =
      b * kBlockDataWidth + (50 + 64 * t + i) from rfl, hbt]
    rw [show b * kNumWordsPerBlock + 1 + t =
      b * kNumWordsPerBlock + (t + 1) by omega]

/-! #### The word phase of `select1` on a finalized vector -/

theorem num_superblocks_pos (v : BV) (hl : v.length ≠ 0) :
    1 ≤ v.num_superblocks := by
  unfold BV.num_superblocks div_ceil
  rw [kSuperblockDataWidth_eq]
  split_ifs <;> omega

theorem update_data_word_lt (bv : BV) (hWF : WF bv) (b u : Nat)
    (hb : b < bv.num_blocks) (hu : u ≤ 7) :
    (bv.update).data (b * kNumWordsPerBlock + u) < 2 ^ 64 := by
  refine (update_WF bv hWF).2.1 _ ?hj
  unfold BV.dataSize
  rw [update_num_blocks, kNumWordsPerBlock_eq, kNumBlocksPerSuperblock_eq]
  omega

theorem block_of_pos_lt (bv : BV) (p : Nat) (hp : p < bv.length) :
    p / kBlockDataWidth < bv.num_blocks := by
  have := num_blocks_ge bv
  rw [kBlockDataWidth_eq] at *
  rcases Nat.lt_or_ge (p / 498) bv.num_blocks with h | h
  · exact h
  · have := Nat.mul_le_mul_right 498 h
    omega

/-- The stored bit of a finalized vector at any real-block position is the
pre-update bit. -/
theorem update_bit_eq (bv : BV) (q : Nat)
    (hq : q < bv.num_blocks * kBlockDataWidth) :
    bitOf (bv.update).data q = bv.is_set q := update_is_set bv q hq

/-- The positional one-count within block `b` below payload offset `x`. -/
theorem ones_in_block (bv : BV) (b x : Nat) :
    bv.ones (b * kBlockDataWidth + x) = bv.ones (b * kBlockDataWidth) +
      (List.range x).countP
        (fun r => bv.is_set (b * kBlockDataWidth + r)) :=
  countP_range_add _ _ _

/-- The word-descent loop of `select1`, run on the block of `p` with the
in-block rank of `p`, stops at the word of `p` with the rank reduced to
count from the start of that word's payload. -/
theorem select1_wordLoop (bv : BV) (hWF : WF bv) (p : Nat)
    (hp : p < bv.length) (hset : bv.is_set p = true) :
    wordLoop (fun nw => if nw = 0 then
        popcount ((bv.update).data
          (p / kBlockDataWidth * kNumWordsPerBlock + nw) >>>
          kBlockHeaderWidth)
      else popcount ((bv.update).data
        (p / kBlockDataWidth * kNumWordsPerBlock + nw))) 0
      (bv.ones p + 1 - bv.ones (p / kBlockDataWidth * kBlockDataWidth))
      kNumWordsPerBlock =
    ((p % kBlockDataWidth + kBlockHeaderWidth) / kWordWidth,
      bv.ones p + 1 - bv.ones (p / kBlockDataWidth * kBlockDataWidth +
        (if (p % kBlockDataWidth + kBlockHeaderWidth) / kWordWidth = 0
          then 0
          else 64 * ((p % kBlockDataWidth + kBlockHeaderWidth) /
            kWordWidth) - 14))) := by
  have hblt := block_of_pos_lt bv p hp
  have hn64 := hWF.1
  have honesp1 : bv.ones (p + 1) = bv.ones p + 1 := by
    rw [ones_succ]
    simp [hset]
  have hones_le := ones_le_self bv p
  simp only [kBlockDataWidth_eq, kBlockHeaderWidth_eq, kWordWidth_eq,
    kNumWordsPerBlock_eq]
  have hwp7 : (p % 498 + 14) / 64 ≤ 7 := by omega
  have hS : ∀ t, t ≤ 7 →
      bv.ones (p / 498 * 498) +
        wSum (fun nw => if nw = 0 then
          popcount ((bv.update).data (p / 498 * 8 + nw) >>> 14)
        else popcount ((bv.update).data (p / 498 * 8 + nw))) 0 (t + 1) =
      bv.ones (p / 498 * 498 + (50 + 64 * t)) := by
    intro t ht
    have hd0 : (bv.update).data (p / 498 * kNumWordsPerBlock) < 2 ^ 64 := by
      have h := update_data_word_lt bv hWF (p / 498) 0 (by
        rw [kBlockDataWidth_eq] at hblt
        exact hblt) (by omega)
      rw [Nat.add_zero] at h
      exact h
    have hw := wSum_block (bv.update).data (p / 498) hd0 t ht
    simp only [kBlockDataWidth_eq, kBlockHeaderWidth_eq,
      kNumWordsPerBlock_eq] at hw
    rw [hw]
    have hsplit := ones_in_block bv (p / 498) (50 + 64 * t)
    simp only [kBlockDataWidth_eq] at hsplit
    rw [hsplit]
    congr 1
    apply List.countP_congr
    intro r hr
    rw [List.mem_range] at hr
    have hb := update_bit_eq bv (p / 498 * 498 + r) (by
      rw [kBlockDataWidth_eq] at hblt ⊢
      have h2 : (p / 498 + 1) * 498 ≤ bv.num_blocks * 498 :=
        Nat.mul_le_mul_right _ (by omega)
      omega)
    simp only [kBlockDataWidth_eq] at hb
    rw [hb]
  have happ := wordLoop_spec (fun nw => if nw = 0 then
      popcount ((bv.update).data (p / 498 * 8 + nw) >>> 14)
    else popcount ((bv.update).data (p / 498 * 8 + nw))) 8 0
    (bv.ones p + 1 - bv.ones (p / 498 * 498))
    ((p % 498 + 14) / 64)
    (by omega) (by omega) (by omega) ?hlt ?hge
  case hlt =>
    intro j hj1 hj2
    have hsj := hS j (by omega)
    have h1 : bv.ones (p / 498 * 498 + (50 + 64 * j)) ≤ bv.ones p :=
      ones_mono bv (by omega)
    have h2 : bv.ones (p / 498 * 498) ≤ bv.ones p := ones_mono bv (by omega)
    omega
  case hge =>
    have hswp := hS ((p % 498 + 14) / 64) hwp7
    have h1 : bv.ones (p + 1) ≤
        bv.ones (p / 498 * 498 + (50 + 64 * ((p % 498 + 14) / 64))) :=
      ones_mono bv (by omega)
    have h2 : bv.ones (p / 498 * 498) ≤ bv.ones p := ones_mono bv (by omega)
    omega
  rw [happ]
  rcases Nat.eq_zero_or_pos ((p % 498 + 14) / 64) with hwp0 | hwppos
  · rw [hwp0, wSum_self, if_pos rfl]
    simp
  · rw [if_neg (by omega)]
    have hsw := hS ((p % 498 + 14) / 64 - 1) (by omega)
    have hwr : (p % 498 + 14) / 64 = ((p % 498 + 14) / 64 - 1) + 1 := by
      omega
    rw [hwr]
    rw [show p / 498 * 498 +
        (64 * ((p % 498 + 14) / 64 - 1 + 1) - 14) =
        p / 498 * 498 + (50 + 64 * ((p % 498 + 14) / 64 - 1)) by omega]
    have h2 : bv.ones (p / 498 * 498) ≤ bv.ones p := ones_mono bv (by omega)
    congr 1
    omega

/-- The final in-word select of `select1`, run on the word of `p` with the
remaining rank, returns the in-word bit index of `p`. -/
theorem select1_wordSelect (bv : BV) (hWF : WF bv) (p : Nat)
    (hp : p < bv.length) (hset : bv.is_set p = true) :
    word_select1_linear
      (if (p % kBlockDataWidth + kBlockHeaderWidth) / kWordWidth = 0 then
        (bv.update).data (p / kBlockDataWidth * kNumWordsPerBlock +
          (p % kBlockDataWidth + kBlockHeaderWidth) / kWordWidth) &&&
          compl64 (setbits kBlockHeaderWidth)
      else (bv.update).data (p / kBlockDataWidth * kNumWordsPerBlock +
        (p % kBlockDataWidth + kBlockHeaderWidth) / kWordWidth))
      (bv.ones p + 1 - bv.ones (p / kBlockDataWidth * kBlockDataWidth +
        (if (p % kBlockDataWidth + kBlockHeaderWidth) / kWordWidth = 0
          then 0
          else 64 * ((p % kBlockDataWidth + kBlockHeaderWidth) /
            kWordWidth) - 14))) =
      (p % kBlockDataWidth + kBlockHeaderWidth) % kWordWidth := by
  have hblt := block_of_pos_lt bv p hp
  have hn64 := hWF.1
  have hnbge := num_blocks_ge bv
  simp only [kBlockDataWidth_eq, kBlockHeaderWidth_eq, kWordWidth_eq,
    kNumWordsPerBlock_eq]
  rw [kBlockDataWidth_eq] at hblt hnbge
  have hpe : p / 498 * 498 + p % 498 = p := by omega
  have hbit_p : bitOf (bv.update).data p = true := by
    rw [update_bit_eq bv p (by rw [kBlockDataWidth_eq]; omega)]
    exact hset
  have hwp7 : (p % 498 + 14) / 64 ≤ 7 := by omega
  have hcnt : ∀ a c, a + c ≤ 498 →
      (List.range c).countP
        (fun i => bitOf (bv.update).data (p / 498 * 498 + a + i)) +
        bv.ones (p / 498 * 498 + a) = bv.ones (p / 498 * 498 + a + c) := by
    intro a c hac
    have h1 : bv.ones (p / 498 * 498 + a) =
        (List.range (p / 498 * 498 + a)).countP (fun q => bv.is_set q) :=
      rfl
    have h2 : bv.ones (p / 498 * 498 + a + c) =
        (List.range (p / 498 * 498 + a + c)).countP
          (fun q => bv.is_set q) := rfl
    rw [h1, h2, countP_range_add (fun q => bv.is_set q)
      (p / 498 * 498 + a) c]
    have hc : (List.range c).countP
        (fun i => bitOf (bv.update).data (p / 498 * 498 + a + i)) =
        (List.range c).countP
          (fun i => bv.is_set (p / 498 * 498 + a + i)) := by
      apply List.countP_congr
      intro i hi
      rw [List.mem_range] at hi
      have hb := update_bit_eq bv (p / 498 * 498 + a + i) (by
        rw [kBlockDataWidth_eq]
        have h2b : (p / 498 + 1) * 498 ≤ bv.num_blocks * 498 :=
          Nat.mul_le_mul_right _ (by omega)
        omega)
      rw [hb]
    rw [hc]
    omega
  rcases Nat.eq_zero_or_pos ((p % 498 + 14) / 64) with hwp0 | hwppos
  · -- the bit of p lies in the first word of its block
    rw [hwp0, if_pos rfl, if_pos rfl]
    simp only [Nat.add_zero]
    have hrp64 : p % 498 + 14 < 64 := by omega
    have hrp50 : p % 498 < 50 := by omega
    have hD : (bv.update).data (p / 498 * 8) < 2 ^ 64 := by
      have h := update_data_word_lt bv hWF (p / 498) 0 hblt (by omega)
      rw [kNumWordsPerBlock_eq, Nat.add_zero] at h
      exact h
    have hb0 := bitOf_block_word0 (bv.update).data (p / 498) (p % 498) hrp50
    simp only [kBlockDataWidth_eq, kNumWordsPerBlock_eq] at hb0
    rw [hpe] at hb0
    have htb : ((bv.update).data (p / 498 * 8) &&&
        compl64 (setbits kBlockHeaderWidth)).testBit (p % 498 + 14) =
        true := by
      rw [testBit_and_hdrmask]
      rw [show p % 498 + 14 = 14 + p % 498 by omega, ← hb0, hbit_p]
      simp
      omega
    have hpc : pcBelow ((bv.update).data (p / 498 * 8) &&&
        compl64 (setbits kBlockHeaderWidth)) (p % 498 + 14) +
        bv.ones (p / 498 * 498) = bv.ones p := by
      unfold pcBelow
      have hsplit := countP_range_add
        (fun i => ((bv.update).data (p / 498 * 8) &&&
          compl64 (setbits kBlockHeaderWidth)).testBit i) 14 (p % 498)
      rw [show (14 : Nat) + p % 498 = p % 498 + 14 by omega] at hsplit
      rw [hsplit]
      have h0 : (List.range 14).countP
          (fun i => ((bv.update).data (p / 498 * 8) &&&
            compl64 (setbits kBlockHeaderWidth)).testBit i) = 0 := by
        rw [List.countP_eq_zero]
        intro i hi hcon
        rw [List.mem_range] at hi
        rw [testBit_and_hdrmask] at hcon
        simp [show ¬ (14 ≤ i) by omega] at hcon
      rw [h0, Nat.zero_add]
      have h1 : (List.range (p % 498)).countP
          (fun i => ((bv.update).data (p / 498 * 8) &&&
            compl64 (setbits kBlockHeaderWidth)).testBit (14 + i)) =
          (List.range (p % 498)).countP
            (fun i => bitOf (bv.update).data (p / 498 * 498 + 0 + i)) := by
        apply List.countP_congr
        intro i hi
        rw [List.mem_range] at hi
        rw [testBit_and_hdrmask]
        have hbi := bitOf_block_word0 (bv.update).data (p / 498) i
          (by omega)
        simp only [kBlockDataWidth_eq, kNumWordsPerBlock_eq] at hbi
        rw [Nat.add_zero, hbi]
        simp [show 14 ≤ 14 + i by omega, show 14 + i < 64 by omega]
      rw [h1]
      have hc := hcnt 0 (p % 498) (by omega)
      simp only [Nat.add_zero] at hc ⊢
      rw [show p / 498 * 498 + p % 498 = p by omega] at hc
      omega
    have hmono : bv.ones (p / 498 * 498) ≤ bv.ones p :=
      ones_mono bv (by omega)
    have hk31 : 1 ≤ bv.ones p + 1 - bv.ones (p / 498 * 498) := by omega
    have hcap : bv.ones p + 1 - bv.ones (p / 498 * 498) ≤
        popcount ((bv.update).data (p / 498 * 8) &&&
          compl64 (setbits kBlockHeaderWidth)) := by
      rw [popcount_eq_pcBelow]
      have hm := pcBelow_mono ((bv.update).data (p / 498 * 8) &&&
        compl64 (setbits kBlockHeaderWidth))
        (show p % 498 + 14 + 1 ≤ 64 by omega)
      have hs := pcBelow_succ ((bv.update).data (p / 498 * 8) &&&
        compl64 (setbits kBlockHeaderWidth)) (p % 498 + 14)
      rw [htb] at hs
      simp at hs
      omega
    have hlin := word_select1_linear_correct _ _ hk31 hcap
    have hmine : IsNthOne ((bv.update).data (p / 498 * 8) &&&
        compl64 (setbits kBlockHeaderWidth))
        (bv.ones p + 1 - bv.ones (p / 498 * 498)) (p % 498 + 14) :=
      ⟨htb, by omega⟩
    rw [show (p % 498 + 14) % 64 = p % 498 + 14 by omega]
    exact isNthOne_unique _ _ _ _ hlin hmine
  · -- the bit of p lies in a later word of its block
    rw [if_neg (by omega), if_neg (by omega)]
    have hDlt := update_data_word_lt bv hWF (p / 498)
      ((p % 498 + 14) / 64) hblt (by omega)
    rw [kNumWordsPerBlock_eq] at hDlt
    have hXr : 64 * ((p % 498 + 14) / 64) - 14 + (p % 498 + 14) % 64 =
        p % 498 := by omega
    have htb : ((bv.update).data (p / 498 * 8 + (p % 498 + 14) / 64)).testBit
        ((p % 498 + 14) % 64) = true := by
      have hbt := bitOf_block_wordt (bv.update).data (p / 498)
        ((p % 498 + 14) / 64 - 1) ((p % 498 + 14) % 64)
        (by omega) (by omega)
      simp only [kBlockDataWidth_eq, kNumWordsPerBlock_eq] at hbt
      rw [show 50 + 64 * ((p % 498 + 14) / 64 - 1) + (p % 498 + 14) % 64 =
        p % 498 by omega] at hbt
      rw [hpe] at hbt
      rw [show p / 498 * 8 + 1 + ((p % 498 + 14) / 64 - 1) =
        p / 498 * 8 + (p % 498 + 14) / 64 by omega] at hbt
      rw [← hbt, hbit_p]
    have hpc : pcBelow ((bv.update).data (p / 498 * 8 +
        (p % 498 + 14) / 64)) ((p % 498 + 14) % 64) +
        bv.ones (p / 498 * 498 + (64 * ((p % 498 + 14) / 64) - 14)) =
        bv.ones p := by
      unfold pcBelow
      have h1 : (List.range ((p % 498 + 14) % 64)).countP
          (fun i => ((bv.update).data (p / 498 * 8 +
            (p % 498 + 14) / 64)).testBit i) =
          (List.range ((p % 498 + 14) % 64)).countP
            (fun i => bitOf (bv.update).data (p / 498 * 498 +
              (64 * ((p % 498 + 14) / 64) - 14) + i)) := by
        apply List.countP_congr
        intro i hi
        rw [List.mem_range] at hi
        have hbt := bitOf_block_wordt (bv.update).data (p / 498)
          ((p % 498 + 14) / 64 - 1) i (by omega)
          (by omega)
        simp only [kBlockDataWidth_eq, kNumWordsPerBlock_eq] at hbt
        rw [show p / 498 * 498 + (50 + 64 * ((p % 498 + 14) / 64 - 1) + i)
          = p / 498 * 498 + (64 * ((p % 498 + 14) / 64) - 14) + i
          by omega] at hbt
        rw [show p / 498 * 8 + 1 + ((p % 498 + 14) / 64 - 1) =
          p / 498 * 8 + (p % 498 + 14) / 64 by omega] at hbt
        rw [hbt]
      rw [h1]
      have hc := hcnt (64 * ((p % 498 + 14) / 64) - 14)
        ((p % 498 + 14) % 64) (by omega)
      rw [show p / 498 * 498 + (64 * ((p % 498 + 14) / 64) - 14) +
        (p % 498 + 14) % 64 = p by omega] at hc
      omega
    have hmono : bv.ones (p / 498 * 498 +
        (64 * ((p % 498 + 14) / 64) - 14)) ≤ bv.ones p :=
      ones_mono bv (by omega)
    have hk31 : 1 ≤ bv.ones p + 1 - bv.ones (p / 498 * 498 +
        (64 * ((p % 498 + 14) / 64) - 14)) := by omega
    have hcap : bv.ones p + 1 - bv.ones (p / 498 * 498 +
        (64 * ((p % 498 + 14) / 64) - 14)) ≤
        popcount ((bv.update).data (p / 498 * 8 +
          (p % 498 + 14) / 64)) := by
      rw [popcount_eq_pcBelow]
      have hm := pcBelow_mono ((bv.update).data (p / 498 * 8 +
        (p % 498 + 14) / 64))
        (show (p % 498 + 14) % 64 + 1 ≤ 64 by omega)
      have hs := pcBelow_succ ((bv.update).data (p / 498 * 8 +
        (p % 498 + 14) / 64)) ((p % 498 + 14) % 64)
      rw [htb] at hs
      simp at hs
      omega
    have hlin := word_select1_linear_correct _ _ hk31 hcap
    have hmine : IsNthOne ((bv.update).data (p / 498 * 8 +
        (p % 498 + 14) / 64))
        (bv.ones p + 1 - bv.ones (p / 498 * 498 +
          (64 * ((p % 498 + 14) / 64) - 14))) ((p % 498 + 14) % 64) :=
      ⟨htb, by omega⟩
    exact isNthOne_unique _ _ _ _ hlin hmine

set_option maxRecDepth 4096

/-- `select1` on a freshly built `TwoLayerSelect` over a finalized vector
inverts the positional rank: it returns the position of the `r`-th one for
`r = ones p + 1`, i.e. maps back to `p` itself. -/
theorem select1_correct (bv : BV) (hWF : WF bv) (num_ones : Nat)
    (zmem omem : Nat → Nat) (p : Nat) (hp : p < bv.length)
    (hset : bv.is_set p = true) :
    (mkSel bv.update num_ones zmem omem).select1 (bv.ones p + 1) = p := by
  have hn : bv.length ≠ 0 := by omega
  have hWFv : WF (bv.update) := update_WF bv hWF
  have hvl : (bv.update).length = bv.length := update_length bv
  have hvnb : (bv.update).num_blocks = bv.num_blocks := update_num_blocks bv
  have hn64 : bv.length < 2 ^ 64 := hWF.1
  have hones_le := ones_le_self bv p
  have honesp1 : bv.ones (p + 1) = bv.ones p + 1 := by
    rw [ones_succ]
    simp [hset]
  have hnbge := num_blocks_ge bv
  have hnsge := num_superblocks_ge bv
  have hnslt := num_superblocks_lt bv
  obtain ⟨hls1, hls2⟩ := last_superblock bv hn
  have hblt := block_of_pos_lt bv p hp
  have hsple : p / kSuperblockDataWidth ≤ bv.num_superblocks - 1 := by
    rw [kSuperblockDataWidth_eq] at *
    omega
  have hnsb64 : bv.num_superblocks < 2 ^ 64 := by
    rw [kSuperblockDataWidth_eq] at hnslt
    omega
  -- positional rank expressed through the loop totals
  have hTOf : ∀ m, TOf (bv.update) m =
      bv.ones (min (m * kBlockDataWidth) bv.length) := by
    intro m
    rw [TOf_eq (bv.update) hWFv m, hvl]
    refine update_ones bv _ ?hlem
    have h1 := Nat.min_le_right (m * kBlockDataWidth) bv.length
    omega
  -- the superblock table after finalization
  have hsbval : ∀ j, j ≤ bv.num_superblocks - 1 →
      (bv.update).sbdata j = bv.ones (j * kSuperblockDataWidth) := by
    intro j hj
    rw [update_sbdata_written bv j (by
      have h1 : kNumBlocksPerSuperblock * j ≤
          kNumBlocksPerSuperblock * (bv.num_superblocks - 1) :=
        Nat.mul_le_mul_left _ hj
      omega)]
    rw [prefixOnes_eq_ones]
    rw [show kNumBlocksPerSuperblock * j * kBlockDataWidth =
      j * kSuperblockDataWidth by
      simp only [kNumBlocksPerSuperblock_eq, kBlockDataWidth_eq,
        kSuperblockDataWidth_eq]
      ring]
  -- the block headers of the window of the superblock of p
  have hwin : ∀ j, kNumBlocksPerSuperblock * (p / kSuperblockDataWidth) ≤ j →
      j < kNumBlocksPerSuperblock * (p / kSuperblockDataWidth + 1) →
      (bv.update).data (j * kNumWordsPerBlock) &&& setbits kBlockHeaderWidth
        = bv.ones (min j bv.num_blocks * kBlockDataWidth) -
          bv.ones (p / kSuperblockDataWidth * kSuperblockDataWidth) := by
    intro j hj1 hj2
    rw [update_window_header bv hn (p / kSuperblockDataWidth) j hsple hj1
      hj2]
    rw [prefixOnes_eq_ones, prefixOnes_eq_ones]
    rw [show kNumBlocksPerSuperblock * (p / kSuperblockDataWidth) *
      kBlockDataWidth = p / kSuperblockDataWidth * kSuperblockDataWidth by
      simp only [kNumBlocksPerSuperblock_eq, kBlockDataWidth_eq,
        kSuperblockDataWidth_eq]
      ring]
  -- the sample layer
  obtain ⟨hOS, hOSent, hOrest, hZS, hZSent, hZrest⟩ := selUpdate_chr
    (bv.update) (fun j => omem j % 2 ^ 64) (fun j => zmem j % 2 ^ 64)
    ⟨fun j => zmem j % 2 ^ 64, fun j => omem j % 2 ^ 64, 0, 0, 0, 0, 0, 0⟩
    hWFv (by rw [hvl]; exact hn)
    ⟨(TOf_zero _).symm, (TZf_zero _).symm, (if_pos rfl).symm,
      (if_pos rfl).symm, (Nat.zero_mul kStride).symm,
      (Nat.zero_mul kStride).symm,
      fun i hi => absurd hi (Nat.not_lt_zero i), fun i _ => rfl,
      fun i hi => absurd hi (Nat.not_lt_zero i), fun i _ => rfl⟩
  rw [hvnb] at hOS hOSent hOrest
  have hTOnb : TOf (bv.update) bv.num_blocks = bv.ones bv.length := by
    rw [hTOf, Nat.min_eq_right hnbge]
  have honesM : bv.ones p ≤ bv.ones bv.length := ones_mono bv (by omega)
  have hj0K : bv.ones p / kStride <
      TOf (bv.update) bv.num_blocks / kStride + 1 := by
    rw [hTOnb]
    have := Nat.div_le_div_right (c := kStride) honesM
    omega
  obtain ⟨B0, hB0lt, hB0v, hB0le, hB0min⟩ := hOS (bv.ones p / kStride) hj0K
  have hB0bp : B0 ≤ p / kBlockDataWidth := by
    by_contra hgt
    have hmin := hB0min (p / kBlockDataWidth) (by omega)
    rw [hTOf] at hmin
    have hup : bv.ones (p + 1) ≤
        bv.ones (min ((p / kBlockDataWidth + 1) * kBlockDataWidth)
          bv.length) := by
      refine ones_mono bv (le_min ?h1 ?h2)
      · rw [kBlockDataWidth_eq]
        omega
      · omega
    have hthr : bv.ones p / kStride * kStride ≤ bv.ones p :=
      Nat.div_mul_le_self _ _
    omega
  -- the second fetched sample bounds the superblock of p from above
  have hs1 : ∃ s1v,
      (selUpdate (bv.update) ⟨fun j => zmem j % 2 ^ 64,
        fun j => omem j % 2 ^ 64, 0, 0, 0, 0, 0, 0⟩).os
        (bv.ones p / kStride + 1) = s1v ∧
      p / kSuperblockDataWidth ≤ s1v ∧
      s1v ≤ bv.num_superblocks - 1 := by
    rcases Nat.lt_or_ge (bv.ones p / kStride + 1)
      (TOf (bv.update) bv.num_blocks / kStride + 1) with hc | hc
    · obtain ⟨B1, hB1lt, hB1v, hB1le, hB1min⟩ := hOS _ hc
      refine ⟨B1 * kBlockDataWidth / kSuperblockDataWidth, hB1v, ?hge1,
        ?hle1⟩
      · have hbB1 : p / kBlockDataWidth ≤ B1 := by
          by_contra hgt
          have hmono : TOf (bv.update) (B1 + 1) ≤ bv.ones p := by
            rw [hTOf]
            refine ones_mono bv ?hmx1
            have h1 : (B1 + 1) * kBlockDataWidth ≤
                p / kBlockDataWidth * kBlockDataWidth :=
              Nat.mul_le_mul_right _ (by omega)
            have h2 := Nat.min_le_left ((B1 + 1) * kBlockDataWidth)
              bv.length
            rw [kBlockDataWidth_eq] at *
            omega
          have hstride : bv.ones p <
              (bv.ones p / kStride + 1) * kStride := by
            rw [kStride_eq]
            omega
          omega
        rw [kBlockDataWidth_eq, kSuperblockDataWidth_eq] at *
        omega
      · rw [kBlockDataWidth_eq, kSuperblockDataWidth_eq,
          kNumBlocksPerSuperblock_eq] at *
        omega
    · refine ⟨bv.num_superblocks - 1, ?heq, hsple, le_refl _⟩
      have hj0M : bv.ones p / kStride ≤
          TOf (bv.update) bv.num_blocks / kStride := by
        rw [hTOnb]
        exact Nat.div_le_div_right honesM
      rw [show bv.ones p / kStride + 1 =
        TOf (bv.update) bv.num_blocks / kStride + 1 by omega]
      exact hOSent
  obtain ⟨s1v, hs1eq, hs1ge, hs1le⟩ := hs1
  -- unfold the query and resolve it layer by layer
  show Sel.select1 _ _ = p
  simp only [Sel.select1]
  rw [show (mkSel (bv.update) num_ones zmem omem).one_samples =
    (selUpdate (bv.update) ⟨fun j => zmem j % 2 ^ 64,
      fun j => omem j % 2 ^ 64, 0, 0, 0, 0, 0, 0⟩).os from rfl]
  rw [show (mkSel (bv.update) num_ones zmem omem).bitvector = bv.update
    from rfl]
  rw [show sub64 (bv.ones p + 1) 1 = bv.ones p by unfold sub64; omega]
  rw [hB0v, hs1eq]
  have hs0le : B0 * kBlockDataWidth / kSuperblockDataWidth ≤
      p / kSuperblockDataWidth := by
    rw [kBlockDataWidth_eq, kSuperblockDataWidth_eq] at *
    omega
  have hs0nsb : B0 * kBlockDataWidth / kSuperblockDataWidth ≤
      bv.num_superblocks - 1 := by
    rw [kBlockDataWidth_eq, kSuperblockDataWidth_eq,
      kNumBlocksPerSuperblock_eq] at *
    omega
  rw [show w64 (sub64 s1v (B0 * kBlockDataWidth / kSuperblockDataWidth)
      + 1) = s1v - B0 * kBlockDataWidth / kSuperblockDataWidth + 1 by
    unfold w64 sub64
    omega]
  have hbs1 : bsLoop (bv.update).sbdata (bv.ones p + 1)
      (B0 * kBlockDataWidth / kSuperblockDataWidth)
      (s1v - B0 * kBlockDataWidth / kSuperblockDataWidth + 1) =
      p / kSuperblockDataWidth := by
    refine bsLoop_spec (bv.update).sbdata (bv.ones p + 1) _ _
      (p / kSuperblockDataWidth) hs0le (by omega) ?hlow ?hhigh
    case hlow =>
      intro j hj1 hj2
      rw [hsbval j (by omega)]
      have h1 : bv.ones (j * kSuperblockDataWidth) ≤ bv.ones p := by
        refine ones_mono bv ?hmx2
        rw [kSuperblockDataWidth_eq] at *
        omega
      omega
    case hhigh =>
      intro j hj1 hj2
      rw [hsbval j (by omega)]
      have h1 : bv.ones (p + 1) ≤ bv.ones (j * kSuperblockDataWidth) := by
        refine ones_mono bv ?hmx3
        rw [kSuperblockDataWidth_eq] at *
        omega
      omega
  rw [hbs1]
  rw [hsbval (p / kSuperblockDataWidth) hsple]
  have honsp : bv.ones (p / kSuperblockDataWidth * kSuperblockDataWidth) ≤
      bv.ones p := by
    refine ones_mono bv ?hmx4
    rw [kSuperblockDataWidth_eq]
    omega
  rw [show sub64 (bv.ones p + 1)
      (bv.ones (p / kSuperblockDataWidth * kSuperblockDataWidth)) =
      bv.ones p + 1 -
        bv.ones (p / kSuperblockDataWidth * kSuperblockDataWidth) by
    unfold sub64
    omega]
  have honbp : bv.ones (p / kSuperblockDataWidth * kSuperblockDataWidth) ≤
      bv.ones (p / kBlockDataWidth * kBlockDataWidth) := by
    refine ones_mono bv ?hmx5
    rw [kSuperblockDataWidth_eq, kBlockDataWidth_eq]
    omega
  have honp : bv.ones (p / kBlockDataWidth * kBlockDataWidth) ≤
      bv.ones p := by
    refine ones_mono bv ?hmx6
    rw [kBlockDataWidth_eq]
    omega
  have hbs2 : bsLoop (fun offset => (bv.update).data
      (offset * kNumWordsPerBlock) &&& setbits kBlockHeaderWidth)
      (bv.ones p + 1 -
        bv.ones (p / kSuperblockDataWidth * kSuperblockDataWidth))
      (p / kSuperblockDataWidth * kNumBlocksPerSuperblock)
      kNumBlocksPerSuperblock = p / kBlockDataWidth := by
    refine bsLoop_spec _ _ _ _ (p / kBlockDataWidth) ?hT1 ?hT2 ?hlow2
      ?hhigh2
    case hT1 =>
      rw [kSuperblockDataWidth_eq, kNumBlocksPerSuperblock_eq,
        kBlockDataWidth_eq]
      omega
    case hT2 =>
      rw [kSuperblockDataWidth_eq, kNumBlocksPerSuperblock_eq,
        kBlockDataWidth_eq]
      omega
    case hlow2 =>
      intro j hj1 hj2
      rw [hwin j (by
        rw [kSuperblockDataWidth_eq, kNumBlocksPerSuperblock_eq] at *
        omega) (by
        rw [kSuperblockDataWidth_eq, kNumBlocksPerSuperblock_eq,
          kBlockDataWidth_eq] at *
        omega)]
      rw [Nat.min_eq_left (by omega)]
      have h1 : bv.ones (j * kBlockDataWidth) ≤ bv.ones p := by
        refine ones_mono bv ?hmx7
        rw [kBlockDataWidth_eq] at *
        omega
      have h2 : bv.ones (p / kSuperblockDataWidth * kSuperblockDataWidth)
          ≤ bv.ones (j * kBlockDataWidth) := by
        refine ones_mono bv ?hmx8
        rw [kSuperblockDataWidth_eq, kBlockDataWidth_eq,
          kNumBlocksPerSuperblock_eq] at *
        omega
      omega
    case hhigh2 =>
      intro j hj1 hj2
      rw [hwin j (by
        rw [kSuperblockDataWidth_eq, kNumBlocksPerSuperblock_eq,
          kBlockDataWidth_eq] at *
        omega) (by
        rw [kSuperblockDataWidth_eq, kNumBlocksPerSuperblock_eq,
          kBlockDataWidth_eq] at *
        omega)]
      have h1 : bv.ones (p + 1) ≤
          bv.ones (min j bv.num_blocks * kBlockDataWidth) := by
        refine ones_mono bv ?hmx9
        have hmin : p / kBlockDataWidth + 1 ≤ min j bv.num_blocks := by
          refine le_min (by omega) (by omega)
        have h2 : (p / kBlockDataWidth + 1) * kBlockDataWidth ≤
            min j bv.num_blocks * kBlockDataWidth :=
          Nat.mul_le_mul_right _ hmin
        rw [kBlockDataWidth_eq] at *
        omega
      omega
  rw [hbs2]
  rw [hwin (p / kBlockDataWidth) (by
    rw [kSuperblockDataWidth_eq, kNumBlocksPerSuperblock_eq,
      kBlockDataWidth_eq]
    omega) (by
    rw [kSuperblockDataWidth_eq, kNumBlocksPerSuperblock_eq,
      kBlockDataWidth_eq]
    omega)]
  rw [Nat.min_eq_left (by omega)]
  rw [show sub64 (bv.ones p + 1 -
      bv.ones (p / kSuperblockDataWidth * kSuperblockDataWidth))
      (bv.ones (p / kBlockDataWidth * kBlockDataWidth) -
        bv.ones (p / kSuperblockDataWidth * kSuperblockDataWidth)) =
      bv.ones p + 1 - bv.ones (p / kBlockDataWidth * kBlockDataWidth) by
    unfold sub64
    omega]
  rw [select1_wordLoop bv hWF p hp hset]
  dsimp only
  rw [select1_wordSelect bv hWF p hp hset]
  unfold sub64 w64
  simp only [kBlockDataWidth_eq, kBlockHeaderWidth_eq, kWordWidth_eq]
  omega

/-! #### The word phase of `select0` on a finalized vector -/

theorem countP_not_range (q : Nat → Bool) (N : Nat) :
    (List.range N).countP (fun r => !(q r)) =
      N - (List.range N).countP q := by
  induction N with
  | zero => rfl
  | succ N ih =>
    rw [List.range_succ, List.countP_append, List.countP_append, ih,
      List.countP_singleton, List.countP_singleton]
    have hle := List.countP_le_length (l := List.range N) (p := q)
    rw [List.length_range] at hle
    by_cases hq : q N <;> simp [hq] <;> omega

/-- The word-descent loop of `select0`, run on the block of `p` with the
in-block zero-rank of `p`, stops at the word of `p`. -/
theorem select0_wordLoop (bv : BV) (hWF : WF bv) (p : Nat)
    (hp : p < bv.length) (hset : bv.is_set p = false) :
    wordLoop (fun nw => if nw = 0 then
        popcount (compl64 ((bv.update).data
          (p / kBlockDataWidth * kNumWordsPerBlock + nw) |||
          setbits kBlockHeaderWidth))
      else popcount (compl64 ((bv.update).data
        (p / kBlockDataWidth * kNumWordsPerBlock + nw)))) 0
      (p - bv.ones p + 1 -
        (p / kBlockDataWidth * kBlockDataWidth -
          bv.ones (p / kBlockDataWidth * kBlockDataWidth)))
      kNumWordsPerBlock =
    ((p % kBlockDataWidth + kBlockHeaderWidth) / kWordWidth,
      p - bv.ones p + 1 -
        (p / kBlockDataWidth * kBlockDataWidth +
            (if (p % kBlockDataWidth + kBlockHeaderWidth) / kWordWidth = 0
              then 0
              else 64 * ((p % kBlockDataWidth + kBlockHeaderWidth) /
                kWordWidth) - 14) -
          bv.ones (p / kBlockDataWidth * kBlockDataWidth +
            (if (p % kBlockDataWidth + kBlockHeaderWidth) / kWordWidth = 0
              then 0
              else 64 * ((p % kBlockDataWidth + kBlockHeaderWidth) /
                kWordWidth) - 14)))) := by
  have hblt := block_of_pos_lt bv p hp
  have hn64 := hWF.1
  have honesp1 : bv.ones (p + 1) = bv.ones p := by
    rw [ones_succ]
    simp [hset]
  have hones_le := ones_le_self bv p
  simp only [kBlockDataWidth_eq, kBlockHeaderWidth_eq, kWordWidth_eq,
    kNumWordsPerBlock_eq]
  have hwp7 : (p % 498 + 14) / 64 ≤ 7 := by omega
  have hdw : ∀ u, u ≤ 7 →
      (bv.update).data (p / 498 * kNumWordsPerBlock + u) < 2 ^ 64 := by
    intro u hu
    exact update_data_word_lt bv hWF (p / 498) u (by
      rw [kBlockDataWidth_eq] at hblt
      exact hblt) hu
  have hcnt : ∀ x, x ≤ 498 →
      (List.range x).countP
        (fun r => bitOf (bv.update).data (p / 498 * 498 + r)) +
        bv.ones (p / 498 * 498) = bv.ones (p / 498 * 498 + x) := by
    intro x hx
    have h1 : bv.ones (p / 498 * 498) =
        (List.range (p / 498 * 498)).countP (fun q => bv.is_set q) := rfl
    have h2 : bv.ones (p / 498 * 498 + x) =
        (List.range (p / 498 * 498 + x)).countP
          (fun q => bv.is_set q) := rfl
    rw [h1, h2, countP_range_add (fun q => bv.is_set q) (p / 498 * 498) x]
    have hc : (List.range x).countP
        (fun r => bitOf (bv.update).data (p / 498 * 498 + r)) =
        (List.range x).countP
          (fun r => bv.is_set (p / 498 * 498 + r)) := by
      apply List.countP_congr
      intro r hr
      rw [List.mem_range] at hr
      have hb := update_bit_eq bv (p / 498 * 498 + r) (by
        rw [kBlockDataWidth_eq]
        have h2b : (p / 498 + 1) * 498 ≤ bv.num_blocks * 498 :=
          Nat.mul_le_mul_right _ (by rw [kBlockDataWidth_eq] at hblt; omega)
        omega)
      rw [hb]
    rw [hc]
    omega
  have honesblk : ∀ x, x ≤ 498 →
      bv.ones (p / 498 * 498 + x) ≤ bv.ones (p / 498 * 498) + x := by
    intro x hx
    have := ones_add_le bv (p / 498 * 498) (p / 498 * 498 + x) (by omega)
    omega
  have hS : ∀ t, t ≤ 7 →
      (p / 498 * 498 - bv.ones (p / 498 * 498)) +
        wSum (fun nw => if nw = 0 then
          popcount (compl64 ((bv.update).data (p / 498 * 8 + nw) |||
            setbits 14))
        else popcount (compl64 ((bv.update).data (p / 498 * 8 + nw)))) 0
          (t + 1) =
      (p / 498 * 498 + (50 + 64 * t)) -
        bv.ones (p / 498 * 498 + (50 + 64 * t)) := by
    intro t ht
    have hw := wSum_block0 (bv.update).data (p / 498) (by
      intro u hu
      have h := hdw u hu
      rw [kNumWordsPerBlock_eq] at h
      exact h) t ht
    simp only [kBlockDataWidth_eq, kBlockHeaderWidth_eq,
      kNumWordsPerBlock_eq] at hw
    rw [hw, countP_not_range]
    have hc := hcnt (50 + 64 * t) (by omega)
    have hb := honesblk (50 + 64 * t) (by omega)
    have hcle := List.countP_le_length
      (l := List.range (50 + 64 * t))
      (p := fun r => bitOf (bv.update).data (p / 498 * 498 + r))
    rw [List.length_range] at hcle
    have hole : bv.ones (p / 498 * 498) ≤ p / 498 * 498 :=
      ones_le_self bv _
    omega
  have happ := wordLoop_spec (fun nw => if nw = 0 then
      popcount (compl64 ((bv.update).data (p / 498 * 8 + nw) |||
        setbits 14))
    else popcount (compl64 ((bv.update).data (p / 498 * 8 + nw)))) 8 0
    (p - bv.ones p + 1 - (p / 498 * 498 - bv.ones (p / 498 * 498)))
    ((p % 498 + 14) / 64)
    (by omega) (by omega) (by omega) ?hlt ?hge
  case hlt =>
    intro j hj1 hj2
    have hsj := hS j (by omega)
    have h1 : bv.ones (p / 498 * 498 + (50 + 64 * j)) ≤ bv.ones p :=
      ones_mono bv (by omega)
    have h2 : bv.ones (p / 498 * 498) ≤ bv.ones p := ones_mono bv (by omega)
    have h3 := ones_add_le bv (p / 498 * 498 + (50 + 64 * j)) p (by omega)
    have hole : bv.ones (p / 498 * 498) ≤ p / 498 * 498 :=
      ones_le_self bv _
    omega
  case hge =>
    have hswp := hS ((p % 498 + 14) / 64) hwp7
    have h1 := ones_add_le bv (p + 1)
      (p / 498 * 498 + (50 + 64 * ((p % 498 + 14) / 64))) (by omega)
    have h2 : bv.ones (p / 498 * 498) ≤ bv.ones p := ones_mono bv (by omega)
    have hole : bv.ones (p / 498 * 498) ≤ p / 498 * 498 :=
      ones_le_self bv _
    omega
  rw [happ]
  rcases Nat.eq_zero_or_pos ((p % 498 + 14) / 64) with hwp0 | hwppos
  · rw [hwp0, wSum_self, if_pos rfl]
    simp
  · rw [if_neg (by omega)]
    have hsw := hS ((p % 498 + 14) / 64 - 1) (by omega)
    have hwr : (p % 498 + 14) / 64 = ((p % 498 + 14) / 64 - 1) + 1 := by
      omega
    rw [hwr]
    rw [show p / 498 * 498 +
        (64 * ((p % 498 + 14) / 64 - 1 + 1) - 14) =
        p / 498 * 498 + (50 + 64 * ((p % 498 + 14) / 64 - 1)) by omega]
    have h2 : bv.ones (p / 498 * 498) ≤ bv.ones p := ones_mono bv (by omega)
    have hole : bv.ones (p / 498 * 498) ≤ p / 498 * 498 :=
      ones_le_self bv _
    have hmb : bv.ones (p / 498 * 498 +
        (50 + 64 * ((p % 498 + 14) / 64 - 1))) ≤ bv.ones p :=
      ones_mono bv (by omega)
    have hab := ones_add_le bv
      (p / 498 * 498 + (50 + 64 * ((p % 498 + 14) / 64 - 1))) p (by omega)
    congr 1
    omega

/-- The final in-word select of `select0`, run on the complemented word of
`p` with the remaining zero-rank, returns the in-word bit index of `p`. -/
theorem select0_wordSelect (bv : BV) (hWF : WF bv) (p : Nat)
    (hp : p < bv.length) (hset : bv.is_set p = false) :
    word_select1_linear
      (compl64 (if (p % kBlockDataWidth + kBlockHeaderWidth) / kWordWidth =
          0 then
        (bv.update).data (p / kBlockDataWidth * kNumWordsPerBlock +
          (p % kBlockDataWidth + kBlockHeaderWidth) / kWordWidth) |||
          setbits kBlockHeaderWidth
      else (bv.update).data (p / kBlockDataWidth * kNumWordsPerBlock +
        (p % kBlockDataWidth + kBlockHeaderWidth) / kWordWidth)))
      (p - bv.ones p + 1 -
        (p / kBlockDataWidth * kBlockDataWidth +
            (if (p % kBlockDataWidth + kBlockHeaderWidth) / kWordWidth = 0
              then 0
              else 64 * ((p % kBlockDataWidth + kBlockHeaderWidth) /
                kWordWidth) - 14) -
          bv.ones (p / kBlockDataWidth * kBlockDataWidth +
            (if (p % kBlockDataWidth + kBlockHeaderWidth) / kWordWidth = 0
              then 0
              else 64 * ((p % kBlockDataWidth + kBlockHeaderWidth) /
                kWordWidth) - 14)))) =
      (p % kBlockDataWidth + kBlockHeaderWidth) % kWordWidth := by
  have hblt := block_of_pos_lt bv p hp
  have hn64 := hWF.1
  have hnbge := num_blocks_ge bv
  simp only [kBlockDataWidth_eq, kBlockHeaderWidth_eq, kWordWidth_eq,
    kNumWordsPerBlock_eq]
  rw [kBlockDataWidth_eq] at hblt hnbge
  have hpe : p / 498 * 498 + p % 498 = p := by omega
  have hbit_p : bitOf (bv.update).data p = false := by
    rw [update_bit_eq bv p (by rw [kBlockDataWidth_eq]; omega)]
    exact hset
  have hwp7 : (p % 498 + 14) / 64 ≤ 7 := by omega
  have hones_le := ones_le_self bv p
  have hcnt : ∀ a c, a + c ≤ 498 →
      (List.range c).countP
        (fun i => bitOf (bv.update).data (p / 498 * 498 + a + i)) +
        bv.ones (p / 498 * 498 + a) = bv.ones (p / 498 * 498 + a + c) := by
    intro a c hac
    have h1 : bv.ones (p / 498 * 498 + a) =
        (List.range (p / 498 * 498 + a)).countP (fun q => bv.is_set q) :=
      rfl
    have h2 : bv.ones (p / 498 * 498 + a + c) =
        (List.range (p / 498 * 498 + a + c)).countP
          (fun q => bv.is_set q) := rfl
    rw [h1, h2, countP_range_add (fun q => bv.is_set q)
      (p / 498 * 498 + a) c]
    have hc : (List.range c).countP
        (fun i => bitOf (bv.update).data (p / 498 * 498 + a + i)) =
        (List.range c).countP
          (fun i => bv.is_set (p / 498 * 498 + a + i)) := by
      apply List.countP_congr
      intro i hi
      rw [List.mem_range] at hi
      have hb := update_bit_eq bv (p / 498 * 498 + a + i) (by
        rw [kBlockDataWidth_eq]
        have h2b : (p / 498 + 1) * 498 ≤ bv.num_blocks * 498 :=
          Nat.mul_le_mul_right _ (by omega)
        omega)
      rw [hb]
    rw [hc]
    omega
  have hcnt0 : ∀ a c, a + c ≤ 498 →
      (List.range c).countP
        (fun i => !(bitOf (bv.update).data (p / 498 * 498 + a + i))) +
        bv.ones (p / 498 * 498 + a + c) + (p / 498 * 498 + a) =
        (p / 498 * 498 + a + c) + bv.ones (p / 498 * 498 + a) := by
    intro a c hac
    have hn := countP_not_range
      (fun i => bitOf (bv.update).data (p / 498 * 498 + a + i)) c
    have hc := hcnt a c hac
    have hcle := List.countP_le_length
      (l := List.range c)
      (p := fun i => bitOf (bv.update).data (p / 498 * 498 + a + i))
    rw [List.length_range] at hcle
    omega
  rcases Nat.eq_zero_or_pos ((p % 498 + 14) / 64) with hwp0 | hwppos
  · -- the bit of p lies in the first word of its block
    rw [hwp0, if_pos rfl, if_pos rfl]
    simp only [Nat.add_zero]
    have hrp64 : p % 498 + 14 < 64 := by omega
    have hrp50 : p % 498 < 50 := by omega
    have hD : (bv.update).data (p / 498 * 8) < 2 ^ 64 := by
      have h := update_data_word_lt bv hWF (p / 498) 0 hblt (by omega)
      rw [kNumWordsPerBlock_eq, Nat.add_zero] at h
      exact h
    have horlt := or_hdrmask_lt ((bv.update).data (p / 498 * 8)) hD
    have hb0 := bitOf_block_word0 (bv.update).data (p / 498) (p % 498) hrp50
    simp only [kBlockDataWidth_eq, kNumWordsPerBlock_eq] at hb0
    rw [hpe] at hb0
    have htb : (compl64 ((bv.update).data (p / 498 * 8) |||
        setbits kBlockHeaderWidth)).testBit (p % 498 + 14) = true := by
      rw [testBit_compl64 _ _ horlt (by omega), testBit_or_hdrmask]
      rw [show p % 498 + 14 = 14 + p % 498 by omega, ← hb0, hbit_p]
      simp
    have hpc : pcBelow (compl64 ((bv.update).data (p / 498 * 8) |||
        setbits kBlockHeaderWidth)) (p % 498 + 14) +
        bv.ones (p / 498 * 498 + p % 498) + p / 498 * 498 =
        p + bv.ones (p / 498 * 498) := by
      unfold pcBelow
      have hsplit := countP_range_add
        (fun i => (compl64 ((bv.update).data (p / 498 * 8) |||
          setbits kBlockHeaderWidth)).testBit i) 14 (p % 498)
      rw [show (14 : Nat) + p % 498 = p % 498 + 14 by omega] at hsplit
      rw [hsplit]
      have h0 : (List.range 14).countP
          (fun i => (compl64 ((bv.update).data (p / 498 * 8) |||
            setbits kBlockHeaderWidth)).testBit i) = 0 := by
        rw [List.countP_eq_zero]
        intro i hi hcon
        rw [List.mem_range] at hi
        rw [testBit_compl64 _ _ horlt (by omega),
          testBit_or_hdrmask] at hcon
        simp [hi] at hcon
      rw [h0, Nat.zero_add]
      have h1 : (List.range (p % 498)).countP
          (fun i => (compl64 ((bv.update).data (p / 498 * 8) |||
            setbits kBlockHeaderWidth)).testBit (14 + i)) =
          (List.range (p % 498)).countP
            (fun i => !(bitOf (bv.update).data
              (p / 498 * 498 + 0 + i))) := by
        apply List.countP_congr
        intro i hi
        rw [List.mem_range] at hi
        rw [testBit_compl64 _ _ horlt (by omega), testBit_or_hdrmask]
        have hbi := bitOf_block_word0 (bv.update).data (p / 498) i
          (by omega)
        simp only [kBlockDataWidth_eq, kNumWordsPerBlock_eq] at hbi
        rw [Nat.add_zero, hbi]
        simp [show ¬ (14 + i < 14) by omega]
      rw [h1]
      simp only [Nat.add_zero]
      rw [show p / 498 * 498 + p % 498 = p by omega]
      have hc := hcnt0 0 (p % 498) (by omega)
      simp only [Nat.add_zero] at hc
      rw [show p / 498 * 498 + p % 498 = p by omega] at hc
      omega
    have hmono : bv.ones (p / 498 * 498) ≤ bv.ones p :=
      ones_mono bv (by omega)
    have hole : bv.ones (p / 498 * 498) ≤ p / 498 * 498 :=
      ones_le_self bv _
    have hpe2 : bv.ones (p / 498 * 498 + p % 498) = bv.ones p := by
      rw [hpe]
    have hk31 : 1 ≤ p - bv.ones p + 1 -
        (p / 498 * 498 - bv.ones (p / 498 * 498)) := by
      have := zeros_mono bv (show p / 498 * 498 ≤ p by omega)
      omega
    have hcap : p - bv.ones p + 1 -
        (p / 498 * 498 - bv.ones (p / 498 * 498)) ≤
        popcount (compl64 ((bv.update).data (p / 498 * 8) |||
          setbits kBlockHeaderWidth)) := by
      rw [popcount_eq_pcBelow]
      have hm := pcBelow_mono (compl64 ((bv.update).data (p / 498 * 8) |||
        setbits kBlockHeaderWidth))
        (show p % 498 + 14 + 1 ≤ 64 by omega)
      have hs := pcBelow_succ (compl64 ((bv.update).data (p / 498 * 8) |||
        setbits kBlockHeaderWidth)) (p % 498 + 14)
      rw [htb] at hs
      simp at hs
      omega
    have hlin := word_select1_linear_correct _ _ hk31 hcap
    have hmine : IsNthOne (compl64 ((bv.update).data (p / 498 * 8) |||
        setbits kBlockHeaderWidth))
        (p - bv.ones p + 1 -
          (p / 498 * 498 - bv.ones (p / 498 * 498))) (p % 498 + 14) :=
      ⟨htb, by omega⟩
    rw [show (p % 498 + 14) % 64 = p % 498 + 14 by omega]
    exact isNthOne_unique _ _ _ _ hlin hmine
  · -- the bit of p lies in a later word of its block
    rw [if_neg (by omega), if_neg (by omega)]
    have hDlt := update_data_word_lt bv hWF (p / 498)
      ((p % 498 + 14) / 64) hblt (by omega)
    rw [kNumWordsPerBlock_eq] at hDlt
    have htb : (compl64 ((bv.update).data (p / 498 * 8 +
        (p % 498 + 14) / 64))).testBit ((p % 498 + 14) % 64) = true := by
      rw [testBit_compl64 _ _ hDlt (by omega)]
      have hbt := bitOf_block_wordt (bv.update).data (p / 498)
        ((p % 498 + 14) / 64 - 1) ((p % 498 + 14) % 64)
        (by omega) (by omega)
      simp only [kBlockDataWidth_eq, kNumWordsPerBlock_eq] at hbt
      rw [show 50 + 64 * ((p % 498 + 14) / 64 - 1) + (p % 498 + 14) % 64 =
        p % 498 by omega] at hbt
      rw [hpe] at hbt
      rw [show p / 498 * 8 + 1 + ((p % 498 + 14) / 64 - 1) =
        p / 498 * 8 + (p % 498 + 14) / 64 by omega] at hbt
      rw [← hbt, hbit_p]
      rfl
    have hpc : pcBelow (compl64 ((bv.update).data (p / 498 * 8 +
        (p % 498 + 14) / 64))) ((p % 498 + 14) % 64) +
        bv.ones p +
        (p / 498 * 498 + (64 * ((p % 498 + 14) / 64) - 14)) =
        p + bv.ones (p / 498 * 498 +
          (64 * ((p % 498 + 14) / 64) - 14)) := by
      unfold pcBelow
      have h1 : (List.range ((p % 498 + 14) % 64)).countP
          (fun i => (compl64 ((bv.update).data (p / 498 * 8 +
            (p % 498 + 14) / 64))).testBit i) =
          (List.range ((p % 498 + 14) % 64)).countP
            (fun i => !(bitOf (bv.update).data (p / 498 * 498 +
              (64 * ((p % 498 + 14) / 64) - 14) + i))) := by
        apply List.countP_congr
        intro i hi
        rw [List.mem_range] at hi
        rw [testBit_compl64 _ _ hDlt (by omega)]
        have hbt := bitOf_block_wordt (bv.update).data (p / 498)
          ((p % 498 + 14) / 64 - 1) i (by omega)
          (by omega)
        simp only [kBlockDataWidth_eq, kNumWordsPerBlock_eq] at hbt
        rw [show p / 498 * 498 + (50 + 64 * ((p % 498 + 14) / 64 - 1) + i)
          = p / 498 * 498 + (64 * ((p % 498 + 14) / 64) - 14) + i
          by omega] at hbt
        rw [show p / 498 * 8 + 1 + ((p % 498 + 14) / 64 - 1) =
          p / 498 * 8 + (p % 498 + 14) / 64 by omega] at hbt
        rw [hbt]
      rw [h1]
      have hc := hcnt0 (64 * ((p % 498 + 14) / 64) - 14)
        ((p % 498 + 14) % 64) (by omega)
      rw [show p / 498 * 498 + (64 * ((p % 498 + 14) / 64) - 14) +
        (p % 498 + 14) % 64 = p by omega] at hc
      omega
    have hmono : bv.ones (p / 498 * 498 +
        (64 * ((p % 498 + 14) / 64) - 14)) ≤ bv.ones p :=
      ones_mono bv (by omega)
    have hole : bv.ones (p / 498 * 498 +
        (64 * ((p % 498 + 14) / 64) - 14)) ≤
        p / 498 * 498 + (64 * ((p % 498 + 14) / 64) - 14) :=
      ones_le_self bv _
    have hk31 : 1 ≤ p - bv.ones p + 1 -
        (p / 498 * 498 + (64 * ((p % 498 + 14) / 64) - 14) -
          bv.ones (p / 498 * 498 +
            (64 * ((p % 498 + 14) / 64) - 14))) := by
      have := zeros_mono bv (show p / 498 * 498 +
        (64 * ((p % 498 + 14) / 64) - 14) ≤ p by omega)
      omega
    have hcap : p - bv.ones p + 1 -
        (p / 498 * 498 + (64 * ((p % 498 + 14) / 64) - 14) -
          bv.ones (p / 498 * 498 +
            (64 * ((p % 498 + 14) / 64) - 14))) ≤
        popcount (compl64 ((bv.update).data (p / 498 * 8 +
          (p % 498 + 14) / 64))) := by
      rw [popcount_eq_pcBelow]
      have hm := pcBelow_mono (compl64 ((bv.update).data (p / 498 * 8 +
        (p % 498 + 14) / 64)))
        (show (p % 498 + 14) % 64 + 1 ≤ 64 by omega)
      have hs := pcBelow_succ (compl64 ((bv.update).data (p / 498 * 8 +
        (p % 498 + 14) / 64))) ((p % 498 + 14) % 64)
      rw [htb] at hs
      simp at hs
      omega
    have hlin := word_select1_linear_correct _ _ hk31 hcap
    have hmine : IsNthOne (compl64 ((bv.update).data (p / 498 * 8 +
        (p % 498 + 14) / 64)))
        (p - bv.ones p + 1 -
          (p / 498 * 498 + (64 * ((p % 498 + 14) / 64) - 14) -
            bv.ones (p / 498 * 498 +
              (64 * ((p % 498 + 14) / 64) - 14))))
        ((p % 498 + 14) % 64) :=
      ⟨htb, by omega⟩
    exact isNthOne_unique _ _ _ _ hlin hmine

/-- `select0` on a freshly built `TwoLayerSelect` over a finalized vector
inverts the positional zero-rank: it returns the position of the `r`-th
zero for `r = (p - ones p) + 1`, i.e. maps back to `p` itself. -/
theorem select0_correct (bv : BV) (hWF : WF bv) (num_ones : Nat)
    (zmem omem : Nat → Nat) (p : Nat) (hp : p < bv.length)
    (hset : bv.is_set p = false) :
    (mkSel bv.update num_ones zmem omem).select0 (p - bv.ones p + 1) =
      p := by
  have hn : bv.length ≠ 0 := by omega
  have hWFv : WF (bv.update) := update_WF bv hWF
  have hvl : (bv.update).length = bv.length := update_length bv
  have hvnb : (bv.update).num_blocks = bv.num_blocks := update_num_blocks bv
  have hn64 : bv.length < 2 ^ 64 := hWF.1
  have hones_le := ones_le_self bv p
  have honesp1 : bv.ones (p + 1) = bv.ones p := by
    rw [ones_succ]
    simp [hset]
  have hnbge := num_blocks_ge bv
  have hnsge := num_superblocks_ge bv
  have hnslt := num_superblocks_lt bv
  obtain ⟨hls1, hls2⟩ := last_superblock bv hn
  have hblt := block_of_pos_lt bv p hp
  have hsple : p / kSuperblockDataWidth ≤ bv.num_superblocks - 1 := by
    rw [kSuperblockDataWidth_eq] at *
    omega
  have hnsb64 : bv.num_superblocks < 2 ^ 64 := by
    rw [kSuperblockDataWidth_eq] at hnslt
    omega
  have hsbn : (bv.num_superblocks - 1) * kSuperblockDataWidth <
      bv.length := by
    have h1 := num_blocks_lt bv
    have h2 := num_blocks_pos bv hn
    have h3 := hls2
    rw [kBlockDataWidth_eq] at h1
    rw [kNumBlocksPerSuperblock_eq] at h3
    rw [kSuperblockDataWidth_eq]
    omega
  have hzsp : p / kSuperblockDataWidth * kSuperblockDataWidth -
      bv.ones (p / kSuperblockDataWidth * kSuperblockDataWidth) ≤
      p - bv.ones p := zeros_mono bv (Nat.div_mul_le_self _ _)
  -- the running zero totals expressed positionally
  have hTZf : ∀ m, TZf (bv.update) m =
      min (m * kBlockDataWidth) bv.length -
        bv.ones (min (m * kBlockDataWidth) bv.length) := by
    intro m
    rw [TZf_eq (bv.update) hWFv m, hvl]
    rw [update_ones bv _ (by
      have h1 := Nat.min_le_right (m * kBlockDataWidth) bv.length
      omega)]
  -- the superblock table after finalization
  have hsbval : ∀ j, j ≤ bv.num_superblocks - 1 →
      (bv.update).sbdata j = bv.ones (j * kSuperblockDataWidth) := by
    intro j hj
    rw [update_sbdata_written bv j (by
      have h1 : kNumBlocksPerSuperblock * j ≤
          kNumBlocksPerSuperblock * (bv.num_superblocks - 1) :=
        Nat.mul_le_mul_left _ hj
      omega)]
    rw [prefixOnes_eq_ones]
    rw [show kNumBlocksPerSuperblock * j * kBlockDataWidth =
      j * kSuperblockDataWidth by
      simp only [kNumBlocksPerSuperblock_eq, kBlockDataWidth_eq,
        kSuperblockDataWidth_eq]
      ring]
  -- the block headers of the window of the superblock of p
  have hwin : ∀ j, kNumBlocksPerSuperblock * (p / kSuperblockDataWidth) ≤ j →
      j < kNumBlocksPerSuperblock * (p / kSuperblockDataWidth + 1) →
      (bv.update).data (j * kNumWordsPerBlock) &&& setbits kBlockHeaderWidth
        = bv.ones (min j bv.num_blocks * kBlockDataWidth) -
          bv.ones (p / kSuperblockDataWidth * kSuperblockDataWidth) := by
    intro j hj1 hj2
    rw [update_window_header bv hn (p / kSuperblockDataWidth) j hsple hj1
      hj2]
    rw [prefixOnes_eq_ones, prefixOnes_eq_ones]
    rw [show kNumBlocksPerSuperblock * (p / kSuperblockDataWidth) *
      kBlockDataWidth = p / kSuperblockDataWidth * kSuperblockDataWidth by
      simp only [kNumBlocksPerSuperblock_eq, kBlockDataWidth_eq,
        kSuperblockDataWidth_eq]
      ring]
  -- the sample layer (zero side)
  obtain ⟨-, -, -, hZS, hZSent, -⟩ := selUpdate_chr
    (bv.update) (fun j => omem j % 2 ^ 64) (fun j => zmem j % 2 ^ 64)
    ⟨fun j => zmem j % 2 ^ 64, fun j => omem j % 2 ^ 64, 0, 0, 0, 0, 0, 0⟩
    hWFv (by rw [hvl]; exact hn)
    ⟨(TOf_zero _).symm, (TZf_zero _).symm, (if_pos rfl).symm,
      (if_pos rfl).symm, (Nat.zero_mul kStride).symm,
      (Nat.zero_mul kStride).symm,
      fun i hi => absurd hi (Nat.not_lt_zero i), fun i _ => rfl,
      fun i hi => absurd hi (Nat.not_lt_zero i), fun i _ => rfl⟩
  rw [hvnb] at hZS hZSent
  have hTZnb : TZf (bv.update) bv.num_blocks =
      bv.length - bv.ones bv.length := by
    rw [hTZf, Nat.min_eq_right hnbge]
  have hzM : p - bv.ones p ≤ bv.length - bv.ones bv.length :=
    zeros_mono bv (by omega)
  have hzj0K : (p - bv.ones p) / kStride <
      TZf (bv.update) bv.num_blocks / kStride + 1 := by
    rw [hTZnb]
    have := Nat.div_le_div_right (c := kStride) hzM
    omega
  obtain ⟨B0, hB0lt, hB0v, hB0le, hB0min⟩ := hZS ((p - bv.ones p) / kStride)
    hzj0K
  have hB0bp : B0 ≤ p / kBlockDataWidth := by
    by_contra hgt
    have hmin := hB0min (p / kBlockDataWidth) (by omega)
    rw [hTZf] at hmin
    have hup : p + 1 - bv.ones (p + 1) ≤
        min ((p / kBlockDataWidth + 1) * kBlockDataWidth) bv.length -
          bv.ones (min ((p / kBlockDataWidth + 1) * kBlockDataWidth)
            bv.length) := by
      refine zeros_mono bv (le_min ?h1z ?h2z)
      case h1z =>
        rw [kBlockDataWidth_eq]
        omega
      case h2z => omega
    have hthr : (p - bv.ones p) / kStride * kStride ≤ p - bv.ones p :=
      Nat.div_mul_le_self _ _
    omega
  -- the second fetched sample bounds the superblock of p from above
  have hs1 : ∃ s1v,
      (selUpdate (bv.update) ⟨fun j => zmem j % 2 ^ 64,
        fun j => omem j % 2 ^ 64, 0, 0, 0, 0, 0, 0⟩).zs
        ((p - bv.ones p) / kStride + 1) = s1v ∧
      p / kSuperblockDataWidth ≤ s1v ∧
      s1v ≤ bv.num_superblocks - 1 := by
    rcases Nat.lt_or_ge ((p - bv.ones p) / kStride + 1)
      (TZf (bv.update) bv.num_blocks / kStride + 1) with hc | hc
    · obtain ⟨B1, hB1lt, hB1v, hB1le, hB1min⟩ := hZS _ hc
      refine ⟨B1 * kBlockDataWidth / kSuperblockDataWidth, hB1v, ?hzge1,
        ?hzle1⟩
      case hzge1 =>
        have hbB1 : p / kBlockDataWidth ≤ B1 := by
          by_contra hgt
          have hmono : TZf (bv.update) (B1 + 1) ≤ p - bv.ones p := by
            rw [hTZf]
            refine zeros_mono bv ?hmz1
            have h1 : (B1 + 1) * kBlockDataWidth ≤
                p / kBlockDataWidth * kBlockDataWidth :=
              Nat.mul_le_mul_right _ (by omega)
            have h2 := Nat.min_le_left ((B1 + 1) * kBlockDataWidth)
              bv.length
            rw [kBlockDataWidth_eq] at *
            omega
          have hstride : p - bv.ones p <
              ((p - bv.ones p) / kStride + 1) * kStride := by
            rw [kStride_eq]
            omega
          omega
        rw [kBlockDataWidth_eq, kSuperblockDataWidth_eq] at *
        omega
      case hzle1 =>
        rw [kBlockDataWidth_eq, kSuperblockDataWidth_eq,
          kNumBlocksPerSuperblock_eq] at *
        omega
    · refine ⟨bv.num_superblocks - 1, ?hzeq, hsple, le_refl _⟩
      have hj0M : (p - bv.ones p) / kStride ≤
          TZf (bv.update) bv.num_blocks / kStride := by
        rw [hTZnb]
        exact Nat.div_le_div_right hzM
      rw [show (p - bv.ones p) / kStride + 1 =
        TZf (bv.update) bv.num_blocks / kStride + 1 by omega]
      exact hZSent
  obtain ⟨s1v, hs1eq, hs1ge, hs1le⟩ := hs1
  -- unfold the query and resolve it layer by layer
  show Sel.select0 _ _ = p
  simp only [Sel.select0]
  rw [show (mkSel (bv.update) num_ones zmem omem).zero_samples =
    (selUpdate (bv.update) ⟨fun j => zmem j % 2 ^ 64,
      fun j => omem j % 2 ^ 64, 0, 0, 0, 0, 0, 0⟩).zs from rfl]
  rw [show (mkSel (bv.update) num_ones zmem omem).bitvector = bv.update
    from rfl]
  rw [show sub64 (p - bv.ones p + 1) 1 = p - bv.ones p by
    unfold sub64
    omega]
  rw [hB0v, hs1eq]
  have hs0le : B0 * kBlockDataWidth / kSuperblockDataWidth ≤
      p / kSuperblockDataWidth := by
    rw [kBlockDataWidth_eq, kSuperblockDataWidth_eq] at *
    omega
  rw [show w64 (sub64 s1v (B0 * kBlockDataWidth / kSuperblockDataWidth)
      + 1) = s1v - B0 * kBlockDataWidth / kSuperblockDataWidth + 1 by
    unfold w64 sub64
    omega]
  have hbs1 : bsLoop (fun s => sub64 (w64 (s * kSuperblockDataWidth))
      ((bv.update).sbdata s)) (p - bv.ones p + 1)
      (B0 * kBlockDataWidth / kSuperblockDataWidth)
      (s1v - B0 * kBlockDataWidth / kSuperblockDataWidth + 1) =
      p / kSuperblockDataWidth := by
    refine bsLoop_spec _ _ _ _ (p / kSuperblockDataWidth) hs0le (by omega)
      ?hzlow ?hzhigh
    case hzlow =>
      intro j hj1 hj2
      have hjp : j * kSuperblockDataWidth ≤ p := by
        have h2 := hj2
        rw [kSuperblockDataWidth_eq] at h2 ⊢
        omega
      rw [hsbval j (by omega)]
      rw [w64_eq _ (by omega)]
      rw [sub64_eq _ _ (by omega) (ones_le_self bv _)]
      have h1 : j * kSuperblockDataWidth -
          bv.ones (j * kSuperblockDataWidth) ≤ p - bv.ones p :=
        zeros_mono bv hjp
      omega
    case hzhigh =>
      intro j hj1 hj2
      have hjs1 : j ≤ bv.num_superblocks - 1 := by omega
      have hjb : j * kSuperblockDataWidth ≤
          (bv.num_superblocks - 1) * kSuperblockDataWidth :=
        Nat.mul_le_mul_right _ hjs1
      have hpj : p + 1 ≤ j * kSuperblockDataWidth := by
        have h2 := hj1
        rw [kSuperblockDataWidth_eq] at h2 ⊢
        omega
      rw [hsbval j hjs1]
      rw [w64_eq _ (by omega)]
      rw [sub64_eq _ _ (by omega) (ones_le_self bv _)]
      have h1 : p + 1 - bv.ones (p + 1) ≤
          j * kSuperblockDataWidth - bv.ones (j * kSuperblockDataWidth) :=
        zeros_mono bv hpj
      omega
  rw [hbs1]
  rw [hsbval (p / kSuperblockDataWidth) hsple]
  have hspn : p / kSuperblockDataWidth * kSuperblockDataWidth ≤ p :=
    Nat.div_mul_le_self _ _
  rw [w64_eq (p / kSuperblockDataWidth * kSuperblockDataWidth) (by omega)]
  rw [sub64_eq (p / kSuperblockDataWidth * kSuperblockDataWidth) _
    (by omega) (ones_le_self bv _)]
  rw [show sub64 (p - bv.ones p + 1)
      (p / kSuperblockDataWidth * kSuperblockDataWidth -
        bv.ones (p / kSuperblockDataWidth * kSuperblockDataWidth)) =
      p - bv.ones p + 1 -
        (p / kSuperblockDataWidth * kSuperblockDataWidth -
          bv.ones (p / kSuperblockDataWidth * kSuperblockDataWidth)) by
    unfold sub64
    omega]
  have hbs2 : bsLoop (fun b => sub64
      (w64 (b % kNumBlocksPerSuperblock * kBlockDataWidth))
      ((bv.update).data (b * kNumWordsPerBlock) &&&
        setbits kBlockHeaderWidth))
      (p - bv.ones p + 1 -
        (p / kSuperblockDataWidth * kSuperblockDataWidth -
          bv.ones (p / kSuperblockDataWidth * kSuperblockDataWidth)))
      (p / kSuperblockDataWidth * kNumBlocksPerSuperblock)
      kNumBlocksPerSuperblock = p / kBlockDataWidth := by
    refine bsLoop_spec _ _ _ _ (p / kBlockDataWidth) ?hzT1 ?hzT2 ?hzlow2
      ?hzhigh2
    case hzT1 =>
      rw [kSuperblockDataWidth_eq, kNumBlocksPerSuperblock_eq,
        kBlockDataWidth_eq]
      omega
    case hzT2 =>
      rw [kSuperblockDataWidth_eq, kNumBlocksPerSuperblock_eq,
        kBlockDataWidth_eq]
      omega
    case hzlow2 =>
      intro j hj1 hj2
      have hblt2 := hblt
      rw [kBlockDataWidth_eq] at hblt2
      simp only [kSuperblockDataWidth_eq, kNumBlocksPerSuperblock_eq,
        kBlockDataWidth_eq] at hj1 hj2
      rw [hwin j (by
        rw [kNumBlocksPerSuperblock_eq, kSuperblockDataWidth_eq]
        omega) (by
        rw [kNumBlocksPerSuperblock_eq, kSuperblockDataWidth_eq]
        omega)]
      rw [Nat.min_eq_left (by omega)]
      simp only [kSuperblockDataWidth_eq, kNumBlocksPerSuperblock_eq,
        kBlockDataWidth_eq]
      have hab := ones_add_le bv (p / 15936 * 15936) (j * 498) (by omega)
      have h1 : j * 498 - bv.ones (j * 498) ≤ p - bv.ones p :=
        zeros_mono bv (by omega)
      have h2 : bv.ones (p / 15936 * 15936) ≤ bv.ones (j * 498) :=
        ones_mono bv (by omega)
      have h3 := ones_le_self bv (j * 498)
      have h4 := ones_le_self bv (p / 15936 * 15936)
      have h5 : p / 15936 * 15936 - bv.ones (p / 15936 * 15936) ≤
          p - bv.ones p := zeros_mono bv (by omega)
      rw [w64_eq _ (by omega)]
      rw [sub64_eq _ _ (by omega) (by omega)]
      omega
    case hzhigh2 =>
      intro j hj1 hj2
      have hblt2 := hblt
      rw [kBlockDataWidth_eq] at hblt2
      have hls2n := hls2
      rw [kNumBlocksPerSuperblock_eq] at hls2n
      have hsplen := hsple
      rw [kSuperblockDataWidth_eq] at hsplen
      simp only [kSuperblockDataWidth_eq, kNumBlocksPerSuperblock_eq,
        kBlockDataWidth_eq] at hj1 hj2
      rw [hwin j (by
        rw [kNumBlocksPerSuperblock_eq, kSuperblockDataWidth_eq]
        omega) (by
        rw [kNumBlocksPerSuperblock_eq, kSuperblockDataWidth_eq]
        omega)]
      simp only [kSuperblockDataWidth_eq, kNumBlocksPerSuperblock_eq,
        kBlockDataWidth_eq]
      have hm1 : p + 1 ≤ min j bv.num_blocks * 498 := by
        have hmin : p / 498 + 1 ≤ min j bv.num_blocks :=
          le_min (by omega) (by omega)
        omega
      have hm2 : p / 15936 * 15936 ≤ min j bv.num_blocks * 498 := by
        have hmin : p / 15936 * 32 ≤ min j bv.num_blocks :=
          le_min (by omega) (by omega)
        omega
      have h1 : p + 1 - bv.ones (p + 1) ≤
          min j bv.num_blocks * 498 -
            bv.ones (min j bv.num_blocks * 498) := zeros_mono bv hm1
      have hab := ones_add_le bv (p / 15936 * 15936)
        (min j bv.num_blocks * 498) hm2
      have h2 : bv.ones (p / 15936 * 15936) ≤
          bv.ones (min j bv.num_blocks * 498) := ones_mono bv hm2
      have h3 := ones_le_self bv (min j bv.num_blocks * 498)
      have h4 := ones_le_self bv (p / 15936 * 15936)
      have h5 : p / 15936 * 15936 - bv.ones (p / 15936 * 15936) ≤
          p - bv.ones p := zeros_mono bv (by omega)
      rw [w64_eq _ (by omega)]
      rw [sub64_eq _ _ (by omega) (by omega)]
      clear hbs1 hs1eq hB0le hB0min hB0v hB0lt hB0bp hzj0K hzM hTZnb
      clear hzsp hsbn hnsb64 hnslt hnsge hls1 hls2 hsple hs1ge hs1le
      clear hs0le hspn hnbge hblt
      omega
  rw [hbs2]
  rw [hwin (p / kBlockDataWidth) (by
    rw [kSuperblockDataWidth_eq, kNumBlocksPerSuperblock_eq,
      kBlockDataWidth_eq]
    omega) (by
    rw [kSuperblockDataWidth_eq, kNumBlocksPerSuperblock_eq,
      kBlockDataWidth_eq]
    omega)]
  rw [Nat.min_eq_left (by omega)]
  have hbw1 : p / kSuperblockDataWidth * kSuperblockDataWidth ≤
      p / kBlockDataWidth * kBlockDataWidth := by
    rw [kSuperblockDataWidth_eq, kBlockDataWidth_eq]
    omega
  have hbw2 : p / kBlockDataWidth * kBlockDataWidth ≤ p := by
    rw [kBlockDataWidth_eq]
    omega
  have habp := ones_add_le bv
    (p / kSuperblockDataWidth * kSuperblockDataWidth)
    (p / kBlockDataWidth * kBlockDataWidth) hbw1
  have honbp : bv.ones (p / kSuperblockDataWidth * kSuperblockDataWidth) ≤
      bv.ones (p / kBlockDataWidth * kBlockDataWidth) := ones_mono bv hbw1
  have honp2 := ones_le_self bv (p / kBlockDataWidth * kBlockDataWidth)
  have hzbp : p / kBlockDataWidth * kBlockDataWidth -
      bv.ones (p / kBlockDataWidth * kBlockDataWidth) ≤ p - bv.ones p :=
    zeros_mono bv hbw2
  have hzw : p / kSuperblockDataWidth * kSuperblockDataWidth -
      bv.ones (p / kSuperblockDataWidth * kSuperblockDataWidth) ≤
      p / kBlockDataWidth * kBlockDataWidth -
        bv.ones (p / kBlockDataWidth * kBlockDataWidth) :=
    zeros_mono bv hbw1
  rw [show w64 (p / kBlockDataWidth % kNumBlocksPerSuperblock *
      kBlockDataWidth) = p / kBlockDataWidth * kBlockDataWidth -
        p / kSuperblockDataWidth * kSuperblockDataWidth by
    unfold w64
    simp only [kBlockDataWidth_eq, kNumBlocksPerSuperblock_eq,
      kSuperblockDataWidth_eq]
    clear hbs1 hbs2 hs1eq hB0le hB0min hB0v hB0lt hB0bp hzj0K hzM hTZnb
    clear hzsp hsbn hnsb64 hnslt hnsge hls1 hls2 hsple hs1ge hs1le hs0le
    clear hspn hnbge hblt hbw1 hbw2 habp honbp honp2 hzbp hzw honesp1
    clear hones_le hn64 hp
    rw [Nat.mod_eq_of_lt (by omega : p / 498 % 32 * 498 < 2 ^ 64)]
    omega]
  rw [show sub64 (p / kBlockDataWidth * kBlockDataWidth -
      p / kSuperblockDataWidth * kSuperblockDataWidth)
      (bv.ones (p / kBlockDataWidth * kBlockDataWidth) -
        bv.ones (p / kSuperblockDataWidth * kSuperblockDataWidth)) =
      p / kBlockDataWidth * kBlockDataWidth -
        p / kSuperblockDataWidth * kSuperblockDataWidth -
        (bv.ones (p / kBlockDataWidth * kBlockDataWidth) -
          bv.ones (p / kSuperblockDataWidth * kSuperblockDataWidth)) by
    unfold sub64
    omega]
  rw [show sub64 (p - bv.ones p + 1 -
      (p / kSuperblockDataWidth * kSuperblockDataWidth -
        bv.ones (p / kSuperblockDataWidth * kSuperblockDataWidth)))
      (p / kBlockDataWidth * kBlockDataWidth -
        p / kSuperblockDataWidth * kSuperblockDataWidth -
        (bv.ones (p / kBlockDataWidth * kBlockDataWidth) -
          bv.ones (p / kSuperblockDataWidth * kSuperblockDataWidth))) =
      p - bv.ones p + 1 -
        (p / kBlockDataWidth * kBlockDataWidth -
          bv.ones (p / kBlockDataWidth * kBlockDataWidth)) by
    have honsz := ones_le_self bv
      (p / kSuperblockDataWidth * kSuperblockDataWidth)
    clear hbs1 hbs2 hs1eq hB0le hB0min hB0v hB0lt hB0bp hzj0K hzM hTZnb
    clear hsbn hnsb64 hnslt hnsge hls1 hls2 hsple hs1ge hs1le hs0le
    clear hnbge hblt
    unfold sub64
    omega]
  rw [select0_wordLoop bv hWF p hp hset]
  dsimp only
  rw [select0_wordSelect bv hWF p hp hset]
  unfold sub64 w64
  simp only [kBlockDataWidth_eq, kBlockHeaderWidth_eq, kWordWidth_eq]
  omega


/-- Claim C2: for every finalized `TwoLayerRankCombinedBitVector` and a
`TwoLayerSelect` built on it, and every position `p` below the length:
if `is_set p` then `select1 (rank1 p + 1) = p`, and if `¬ is_set p` then
`select0 (rank0 p + 1) = p`. -/
theorem claim_C2 (bv : BV) (hWF : WF bv) (num_ones : Nat)
    (zmem omem : Nat → Nat) (p : Nat) (hp : p < bv.length) :
    ((bv.update).is_set p = true →
      (mkSel bv.update num_ones zmem omem).select1
        ((bv.update).rank1 p + 1) = p) ∧
    ((bv.update).is_set p = false →
      (mkSel bv.update num_ones zmem omem).select0
        ((bv.update).rank0 p + 1) = p) := by
  have hn64 : bv.length < 2 ^ 64 := hWF.1
  have hnsge := num_superblocks_ge bv
  have hnbge := num_blocks_ge bv
  have hones_le := ones_le_self bv p
  have hsb : p / kSuperblockDataWidth < bv.num_superblocks := by
    rw [kSuperblockDataWidth_eq] at *
    omega
  have hr1 : (bv.update).rank1 p = bv.ones p := by
    rw [rank1_correct bv p (by omega) hsb]
    exact update_ones bv p (by omega)
  have hisp : (bv.update).is_set p = bv.is_set p :=
    update_is_set bv p (by omega)
  constructor
  · intro hset
    rw [hr1]
    exact select1_correct bv hWF num_ones zmem omem p hp
      (by rw [← hisp]; exact hset)
  · intro hset
    have hr0 : (bv.update).rank0 p = p - bv.ones p := by
      unfold BV.rank0
      rw [hr1]
      omega
    rw [hr0]
    exact select0_correct bv hWF num_ones zmem omem p hp
      (by rw [← hisp]; exact hset)

/-- Witness for claim C2 at the one-block vector `bvB498` (bit 0 set):
select1 inverts rank1 at the set position 0 and select0 inverts rank0 at
the cleared position 1. -/
theorem claim_C2_witness :
    (WF bvB498 ∧ 0 < bvB498.length ∧ 1 < bvB498.length) ∧
    ((bvB498.update).is_set 0 = true →
      (mkSel bvB498.update 1 zeroMem zeroMem).select1
        ((bvB498.update).rank1 0 + 1) = 0) ∧
    ((bvB498.update).is_set 1 = false →
      (mkSel bvB498.update 1 zeroMem zeroMem).select0
        ((bvB498.update).rank0 1 + 1) = 1) :=
  ⟨⟨⟨by decide, by decide, by decide⟩, by decide, by decide⟩,
    (claim_C2 bvB498 ⟨by decide, by decide, by decide⟩ 1 zeroMem zeroMem 0
      (by decide)).1,
    (claim_C2 bvB498 ⟨by decide, by decide, by decide⟩ 1 zeroMem zeroMem 1
      (by decide)).2⟩


/-! ### Memory safety of the select queries (checked-read mirrors)

To state that every memory read of `select0` / `select1` stays inside the
allocated buffers, each read of the original code is guarded with a bounds
check against the allocated sizes (the `osize` / `zsize` entries of the two
sample buffers, the `num_superblocks` entries of the superblock table and
the `dataSize` words of the data buffer); the checked mirror returns `none`
as soon as any read falls outside its buffer, and `some` of the original
result otherwise. -/

/-- A bounds-checked read: `some` of the value when the index lies inside
the buffer of `size` entries, `none` otherwise. -/
def readChk (size : Nat) (f : Nat → Nat) (i : Nat) : Option Nat :=
  if i < size then some (f i) else none

/-- `bsLoop` with every probe bounds-checked. -/
def bsLoopChk (fchk : Nat → Option Nat) (rank idx length : Nat) :
    Option Nat :=
  if length ≤ 1 then some idx
  else
    match fchk (idx + length / 2) with
    | none => none
    | some v =>
      bsLoopChk fchk rank (idx + if v < rank then length / 2 else 0)
        (length - length / 2)
termination_by length
decreasing_by omega

/-- `wordLoop` with every word read bounds-checked. -/
def wordLoopChk (wrchk : Nat → Option Nat) (num_word rank : Nat) :
    Nat → Option (Nat × Nat)
  | 0 => some (num_word, rank)
  | fuel + 1 =>
    match wrchk num_word with
    | none => none
    | some w =>
      if w < rank then wordLoopChk wrchk (num_word + 1) (sub64 rank w) fuel
      else some (num_word, rank)

theorem readChk_eq (size : Nat) (f : Nat → Nat) (i : Nat) (h : i < size) :
    readChk size f i = some (f i) := by
  unfold readChk
  rw [if_pos h]

/-- When every probe of the window is in bounds, the checked binary search
succeeds and agrees with the unchecked one. -/
theorem bsLoopChk_eq (fchk : Nat → Option Nat) (f : Nat → Nat)
    (rank : Nat) : ∀ length idx,
    (∀ j, idx ≤ j → j < idx + length → fchk j = some (f j)) →
    bsLoopChk fchk rank idx length = some (bsLoop f rank idx length) := by
  intro length
  induction length using Nat.strong_induction_on with
  | _ length ih =>
    intro idx h
    rw [bsLoopChk, bsLoop]
    by_cases hl : length ≤ 1
    · rw [if_pos hl, if_pos hl]
    · rw [if_neg hl, if_neg hl]
      rw [h (idx + length / 2) (by omega) (by omega)]
      show bsLoopChk fchk rank
        (idx + if f (idx + length / 2) < rank then length / 2 else 0)
        (length - length / 2) = some (bsLoop f rank
        (idx + if f (idx + length / 2) < rank then length / 2 else 0)
        (length - length / 2))
      refine ih (length - length / 2) (by omega) _ ?hsub
      intro j hj1 hj2
      refine h j (by
        by_cases hc : f (idx + length / 2) < rank
        · rw [if_pos hc] at hj1
          omega
        · rw [if_neg hc] at hj1
          omega) (by
        by_cases hc : f (idx + length / 2) < rank
        · rw [if_pos hc] at hj2
          omega
        · rw [if_neg hc] at hj2
          omega)

/-- The binary search never leaves its window. -/
theorem bsLoop_mem (f : Nat → Nat) (rank : Nat) : ∀ length idx,
    1 ≤ length →
    idx ≤ bsLoop f rank idx length ∧
    bsLoop f rank idx length < idx + length := by
  intro length
  induction length using Nat.strong_induction_on with
  | _ length ih =>
    intro idx hl1
    rw [bsLoop]
    by_cases hl : length ≤ 1
    · rw [if_pos hl]
      omega
    · rw [if_neg hl]
      by_cases hc : f (idx + length / 2) < rank
      · rw [if_pos hc]
        have h2 := ih (length - length / 2) (by omega) (idx + length / 2)
          (by omega)
        omega
      · rw [if_neg hc, Nat.add_zero]
        have h2 := ih (length - length / 2) (by omega) idx (by omega)
        omega

/-- When every word read of the block is in bounds, the checked word loop
succeeds and agrees with the unchecked one. -/
theorem wordLoopChk_eq (wrchk : Nat → Option Nat) (wr : Nat → Nat) :
    ∀ fuel nw rank,
    (∀ j, nw ≤ j → j < nw + fuel → wrchk j = some (wr j)) →
    wordLoopChk wrchk nw rank fuel = some (wordLoop wr nw rank fuel) := by
  intro fuel
  induction fuel with
  | zero =>
    intro nw rank _
    rfl
  | succ fuel ih =>
    intro nw rank h
    show (match wrchk nw with
      | none => none
      | some w =>
        if w < rank then wordLoopChk wrchk (nw + 1) (sub64 rank w) fuel
        else some (nw, rank)) =
      some (if wr nw < rank then
        wordLoop wr (nw + 1) (sub64 rank (wr nw)) fuel else (nw, rank))
    rw [h nw (le_refl nw) (by omega)]
    show (if wr nw < rank then wordLoopChk wrchk (nw + 1)
        (sub64 rank (wr nw)) fuel else some (nw, rank)) =
      some (if wr nw < rank then
        wordLoop wr (nw + 1) (sub64 rank (wr nw)) fuel else (nw, rank))
    by_cases hc : wr nw < rank
    · rw [if_pos hc, if_pos hc]
      exact ih (nw + 1) (sub64 rank (wr nw))
        (fun j hj1 hj2 => h j (by omega) (by omega))
    · rw [if_neg hc, if_neg hc]

/-- The word loop advances by at most one word per unit of fuel. -/
theorem wordLoop_fst_le (wr : Nat → Nat) : ∀ fuel nw rank,
    (wordLoop wr nw rank fuel).1 ≤ nw + fuel := by
  intro fuel
  induction fuel with
  | zero =>
    intro nw rank
    show nw ≤ nw + 0
    omega
  | succ fuel ih =>
    intro nw rank
    show (if wr nw < rank then wordLoop wr (nw + 1) (sub64 rank (wr nw)) fuel
      else (nw, rank)).1 ≤ nw + (fuel + 1)
    by_cases hc : wr nw < rank
    · rw [if_pos hc]
      have := ih (nw + 1) (sub64 rank (wr nw))
      omega
    · rw [if_neg hc]
      show nw ≤ nw + (fuel + 1)
      omega


/-- `TwoLayerSelect::select1(rank)` with every memory read bounds-checked
against the allocated buffer sizes. -/
def Sel.select1Chk (sel : Sel) (rank : Nat) : Option Nat :=
  let nearest_prev_sample := sub64 rank 1 / kStride
  (readChk sel.osize sel.one_samples nearest_prev_sample).bind fun
    num_superblock =>
  (readChk sel.osize sel.one_samples (nearest_prev_sample + 1)).bind fun
    num_last_superblock =>
  let nsb := sel.bitvector.num_superblocks
  let sbd := sel.bitvector.sbdata
  (bsLoopChk (readChk nsb sbd) rank num_superblock
    (w64 (sub64 num_last_superblock num_superblock + 1))).bind fun
    num_superblock =>
  (readChk nsb sbd num_superblock).bind fun sbv =>
  let rank := sub64 rank sbv
  let ds := sel.bitvector.dataSize
  let d := sel.bitvector.data
  (bsLoopChk (fun offset => readChk ds
      (fun i => d i &&& setbits kBlockHeaderWidth)
      (offset * kNumWordsPerBlock)) rank
    (num_superblock * kNumBlocksPerSuperblock)
    kNumBlocksPerSuperblock).bind fun num_block =>
  (readChk ds (fun i => d i &&& setbits kBlockHeaderWidth)
    (num_block * kNumWordsPerBlock)).bind fun hdr =>
  let rank := sub64 rank hdr
  let base := num_block * kNumWordsPerBlock
  (wordLoopChk (fun nw => readChk ds
      (fun i => if nw = 0 then popcount (d i >>> kBlockHeaderWidth)
        else popcount (d i)) (base + nw)) 0 rank
    kNumWordsPerBlock).bind fun pr =>
  let num_word := pr.1
  let rank := pr.2
  (readChk ds d (base + num_word)).bind fun wv =>
  let word := if num_word = 0 then
      wv &&& compl64 (setbits kBlockHeaderWidth)
    else wv
  some (sub64 (w64 (num_block * kBlockDataWidth + num_word * kWordWidth +
    word_select1_linear word rank)) kBlockHeaderWidth)

/-- `TwoLayerSelect::select0(rank)` with every memory read bounds-checked
against the allocated buffer sizes. -/
def Sel.select0Chk (sel : Sel) (rank : Nat) : Option Nat :=
  let nearest_prev_sample := sub64 rank 1 / kStride
  (readChk sel.zsize sel.zero_samples nearest_prev_sample).bind fun
    num_superblock =>
  (readChk sel.zsize sel.zero_samples (nearest_prev_sample + 1)).bind fun
    num_last_superblock =>
  let nsb := sel.bitvector.num_superblocks
  let sbd := sel.bitvector.sbdata
  (bsLoopChk (fun s => readChk nsb
      (fun i => sub64 (w64 (i * kSuperblockDataWidth)) (sbd i)) s) rank
    num_superblock
    (w64 (sub64 num_last_superblock num_superblock + 1))).bind fun
    num_superblock =>
  (readChk nsb (fun i => sub64 (w64 (i * kSuperblockDataWidth)) (sbd i))
    num_superblock).bind fun sbv =>
  let rank := sub64 rank sbv
  let ds := sel.bitvector.dataSize
  let d := sel.bitvector.data
  (bsLoopChk (fun b => readChk ds
      (fun i => sub64 (w64 (b % kNumBlocksPerSuperblock * kBlockDataWidth))
        (d i &&& setbits kBlockHeaderWidth))
      (b * kNumWordsPerBlock)) rank
    (num_superblock * kNumBlocksPerSuperblock)
    kNumBlocksPerSuperblock).bind fun num_block =>
  (readChk ds
    (fun i => sub64
      (w64 (num_block % kNumBlocksPerSuperblock * kBlockDataWidth))
      (d i &&& setbits kBlockHeaderWidth))
    (num_block * kNumWordsPerBlock)).bind fun blkr =>
  let rank := sub64 rank blkr
  let base := num_block * kNumWordsPerBlock
  (wordLoopChk (fun nw => readChk ds
      (fun i => if nw = 0 then
        popcount (compl64 (d i ||| setbits kBlockHeaderWidth))
      else popcount (compl64 (d i))) (base + nw)) 0 rank
    kNumWordsPerBlock).bind fun pr =>
  let num_word := pr.1
  let rank := pr.2
  (readChk ds d (base + num_word)).bind fun wv =>
  let word := if num_word = 0 then wv ||| setbits kBlockHeaderWidth
    else wv
  some (sub64 (w64 (num_block * kBlockDataWidth + num_word * kWordWidth +
    word_select1_linear (compl64 word) rank)) kBlockHeaderWidth)


/-- For ranks between 1 and the number of ones, every memory read of
`select1` stays inside the allocated buffers: the checked mirror succeeds
and agrees with the unchecked query. -/
theorem select1_safe (bv : BV) (hWF : WF bv) (zmem omem : Nat → Nat)
    (r : Nat) (hr1 : 1 ≤ r) (hrN : r ≤ bv.ones bv.length) :
    (mkSel bv.update (bv.ones bv.length) zmem omem).select1Chk r =
      some ((mkSel bv.update (bv.ones bv.length) zmem omem).select1 r) := by
  have hN1n : bv.ones bv.length ≤ bv.length := ones_le_self bv _
  have hn : bv.length ≠ 0 := by omega
  have hWFv : WF (bv.update) := update_WF bv hWF
  have hvl : (bv.update).length = bv.length := update_length bv
  have hvnb : (bv.update).num_blocks = bv.num_blocks := update_num_blocks bv
  have hvns : (bv.update).num_superblocks = bv.num_superblocks := by
    unfold BV.num_superblocks
    rw [hvl]
  have hdse : (bv.update).dataSize = bv.num_blocks * kNumWordsPerBlock +
      kNumBlocksPerSuperblock * kNumWordsPerBlock := by
    unfold BV.dataSize
    rw [hvnb]
  have hn64 : bv.length < 2 ^ 64 := hWF.1
  have hnbge := num_blocks_ge bv
  have hnsge := num_superblocks_ge bv
  have hnslt := num_superblocks_lt bv
  have hnsp : 1 ≤ bv.num_superblocks := num_superblocks_pos bv hn
  obtain ⟨hls1, hls2⟩ := last_superblock bv hn
  have hnsb64 : bv.num_superblocks < 2 ^ 64 := by
    rw [kSuperblockDataWidth_eq] at hnslt
    omega
  have hTOf : ∀ m, TOf (bv.update) m =
      bv.ones (min (m * kBlockDataWidth) bv.length) := by
    intro m
    rw [TOf_eq (bv.update) hWFv m, hvl]
    refine update_ones bv _ ?hlm
    have h1 := Nat.min_le_right (m * kBlockDataWidth) bv.length
    omega
  have hTOnb : TOf (bv.update) bv.num_blocks = bv.ones bv.length := by
    rw [hTOf, Nat.min_eq_right hnbge]
  obtain ⟨hOS, hOSent, -, -, -, -⟩ := selUpdate_chr
    (bv.update) (fun j => omem j % 2 ^ 64) (fun j => zmem j % 2 ^ 64)
    ⟨fun j => zmem j % 2 ^ 64, fun j => omem j % 2 ^ 64, 0, 0, 0, 0, 0, 0⟩
    hWFv (by rw [hvl]; exact hn)
    ⟨(TOf_zero _).symm, (TZf_zero _).symm, (if_pos rfl).symm,
      (if_pos rfl).symm, (Nat.zero_mul kStride).symm,
      (Nat.zero_mul kStride).symm,
      fun i hi => absurd hi (Nat.not_lt_zero i), fun i _ => rfl,
      fun i hi => absurd hi (Nat.not_lt_zero i), fun i _ => rfl⟩
  rw [hvnb] at hOS hOSent
  have hiK : (r - 1) / kStride ≤ bv.ones bv.length / kStride :=
    Nat.div_le_div_right (by omega)
  obtain ⟨B0, hB0lt, hB0v, hB0le, hB0min⟩ := hOS ((r - 1) / kStride)
    (by rw [hTOnb]; omega)
  have hv0 : B0 * kBlockDataWidth / kSuperblockDataWidth ≤
      bv.num_superblocks - 1 := by
    rw [kBlockDataWidth_eq, kSuperblockDataWidth_eq,
      kNumBlocksPerSuperblock_eq] at *
    omega
  have hs1 : ∃ s1v,
      (selUpdate (bv.update) ⟨fun j => zmem j % 2 ^ 64,
        fun j => omem j % 2 ^ 64, 0, 0, 0, 0, 0, 0⟩).os
        ((r - 1) / kStride + 1) = s1v ∧
      B0 * kBlockDataWidth / kSuperblockDataWidth ≤ s1v ∧
      s1v ≤ bv.num_superblocks - 1 := by
    rcases Nat.lt_or_ge ((r - 1) / kStride + 1)
      (TOf (bv.update) bv.num_blocks / kStride + 1) with hc | hc
    · obtain ⟨B1, hB1lt, hB1v, hB1le, hB1min⟩ := hOS _ hc
      refine ⟨B1 * kBlockDataWidth / kSuperblockDataWidth, hB1v, ?hso1,
        ?hso2⟩
      case hso1 =>
        have hBB : B0 ≤ B1 := by
          by_contra hgt
          have h1 := hB0min B1 (by omega)
          rw [kStride_eq] at *
          omega
        rw [kBlockDataWidth_eq, kSuperblockDataWidth_eq] at *
        omega
      case hso2 =>
        rw [kBlockDataWidth_eq, kSuperblockDataWidth_eq,
          kNumBlocksPerSuperblock_eq] at *
        omega
    · refine ⟨bv.num_superblocks - 1, ?hsent, hv0, le_refl _⟩
      rw [show (r - 1) / kStride + 1 =
        TOf (bv.update) bv.num_blocks / kStride + 1 by
        rw [hTOnb] at hc ⊢
        omega]
      exact hOSent
  obtain ⟨s1v, hs1eq, hord, hs1le⟩ := hs1
  show Sel.select1Chk _ _ = some (Sel.select1 _ _)
  simp only [Sel.select1Chk, Sel.select1]
  rw [show (mkSel (bv.update) (bv.ones bv.length) zmem omem).one_samples =
    (selUpdate (bv.update) ⟨fun j => zmem j % 2 ^ 64,
      fun j => omem j % 2 ^ 64, 0, 0, 0, 0, 0, 0⟩).os from rfl]
  rw [show (mkSel (bv.update) (bv.ones bv.length) zmem omem).bitvector =
    bv.update from rfl]
  rw [show (mkSel (bv.update) (bv.ones bv.length) zmem omem).osize =
    bv.ones bv.length / kStride + 2 from rfl]
  rw [hvns]
  rw [show sub64 r 1 = r - 1 by
    unfold sub64
    omega]
  rw [readChk_eq (bv.ones bv.length / kStride + 2) _ ((r - 1) / kStride)
    (by omega)]
  rw [readChk_eq (bv.ones bv.length / kStride + 2) _
    ((r - 1) / kStride + 1) (by omega)]
  simp only [Option.some_bind]
  rw [hB0v, hs1eq]
  rw [show w64 (sub64 s1v (B0 * kBlockDataWidth / kSuperblockDataWidth)
      + 1) = s1v - B0 * kBlockDataWidth / kSuperblockDataWidth + 1 by
    unfold w64 sub64
    omega]
  rw [bsLoopChk_eq (readChk bv.num_superblocks ((bv.update).sbdata))
    ((bv.update).sbdata) r
    (s1v - B0 * kBlockDataWidth / kSuperblockDataWidth + 1)
    (B0 * kBlockDataWidth / kSuperblockDataWidth)
    (fun j hj1 hj2 => readChk_eq _ _ j (by omega))]
  simp only [Option.some_bind]
  set U := bsLoop ((bv.update).sbdata) r
    (B0 * kBlockDataWidth / kSuperblockDataWidth)
    (s1v - B0 * kBlockDataWidth / kSuperblockDataWidth + 1) with hUdef
  have hu := bsLoop_mem ((bv.update).sbdata) r
    (s1v - B0 * kBlockDataWidth / kSuperblockDataWidth + 1)
    (B0 * kBlockDataWidth / kSuperblockDataWidth) (by omega)
  rw [← hUdef] at hu
  rw [readChk_eq bv.num_superblocks ((bv.update).sbdata) U (by omega)]
  simp only [Option.some_bind]
  have hpg : ∀ j, U * kNumBlocksPerSuperblock ≤ j →
      j < U * kNumBlocksPerSuperblock + kNumBlocksPerSuperblock →
      j * kNumWordsPerBlock < (bv.update).dataSize := by
    intro j hj1 hj2
    have a3 := hls2
    rw [kNumBlocksPerSuperblock_eq] at a3 hj1 hj2
    rw [hdse, kNumWordsPerBlock_eq, kNumBlocksPerSuperblock_eq]
    omega
  rw [bsLoopChk_eq (fun offset => readChk ((bv.update).dataSize)
      (fun i => (bv.update).data i &&& setbits kBlockHeaderWidth)
      (offset * kNumWordsPerBlock))
    (fun offset => (bv.update).data (offset * kNumWordsPerBlock) &&&
      setbits kBlockHeaderWidth) (sub64 r ((bv.update).sbdata U))
    kNumBlocksPerSuperblock (U * kNumBlocksPerSuperblock)
    (fun j hj1 hj2 => readChk_eq _ _ _ (hpg j hj1 hj2))]
  simp only [Option.some_bind]
  set B2 := bsLoop (fun offset => (bv.update).data
      (offset * kNumWordsPerBlock) &&& setbits kBlockHeaderWidth)
    (sub64 r ((bv.update).sbdata U)) (U * kNumBlocksPerSuperblock)
    kNumBlocksPerSuperblock with hB2def
  have hb2 := bsLoop_mem (fun offset => (bv.update).data
      (offset * kNumWordsPerBlock) &&& setbits kBlockHeaderWidth)
    (sub64 r ((bv.update).sbdata U)) kNumBlocksPerSuperblock
    (U * kNumBlocksPerSuperblock) (by
      rw [kNumBlocksPerSuperblock_eq]
      omega)
  rw [← hB2def] at hb2
  rw [readChk_eq ((bv.update).dataSize) _ (B2 * kNumWordsPerBlock)
    (hpg B2 hb2.1 hb2.2)]
  simp only [Option.some_bind]
  have hwg : ∀ j, (0 : Nat) ≤ j → j < 0 + kNumWordsPerBlock →
      B2 * kNumWordsPerBlock + j < (bv.update).dataSize := by
    intro j hj1 hj2
    have a1 := hb2.2
    have a3 := hls2
    rw [kNumBlocksPerSuperblock_eq] at a1 a3
    rw [kNumWordsPerBlock_eq] at hj2
    rw [hdse, kNumWordsPerBlock_eq, kNumBlocksPerSuperblock_eq]
    omega
  rw [wordLoopChk_eq (fun nw => readChk ((bv.update).dataSize)
      (fun i => if nw = 0 then
        popcount ((bv.update).data i >>> kBlockHeaderWidth)
      else popcount ((bv.update).data i))
      (B2 * kNumWordsPerBlock + nw))
    (fun nw => if nw = 0 then
      popcount ((bv.update).data (B2 * kNumWordsPerBlock + nw) >>>
        kBlockHeaderWidth)
    else popcount ((bv.update).data (B2 * kNumWordsPerBlock + nw)))
    kNumWordsPerBlock 0
    (sub64 (sub64 r ((bv.update).sbdata U))
      ((bv.update).data (B2 * kNumWordsPerBlock) &&&
        setbits kBlockHeaderWidth))
    (fun j hj1 hj2 => readChk_eq _ _ _ (hwg j hj1 hj2))]
  simp only [Option.some_bind]
  have hwl := wordLoop_fst_le (fun nw => if nw = 0 then
      popcount ((bv.update).data (B2 * kNumWordsPerBlock + nw) >>>
        kBlockHeaderWidth)
    else popcount ((bv.update).data (B2 * kNumWordsPerBlock + nw)))
    kNumWordsPerBlock 0
    (sub64 (sub64 r ((bv.update).sbdata U))
      ((bv.update).data (B2 * kNumWordsPerBlock) &&&
        setbits kBlockHeaderWidth))
  rw [readChk_eq ((bv.update).dataSize) ((bv.update).data) _ (by
    have a1 := hb2.2
    have a3 := hls2
    rw [kNumBlocksPerSuperblock_eq] at a1 a3
    rw [Nat.zero_add, kNumWordsPerBlock_eq] at hwl
    rw [hdse, kNumWordsPerBlock_eq, kNumBlocksPerSuperblock_eq]
    omega)]
  simp only [Option.some_bind]


/-- For ranks between 1 and the number of zeros, every memory read of
`select0` stays inside the allocated buffers: the checked mirror succeeds
and agrees with the unchecked query. -/
theorem select0_safe (bv : BV) (hWF : WF bv) (zmem omem : Nat → Nat)
    (r : Nat) (hr1 : 1 ≤ r)
    (hrN : r ≤ bv.length - bv.ones bv.length) :
    (mkSel bv.update (bv.ones bv.length) zmem omem).select0Chk r =
      some ((mkSel bv.update (bv.ones bv.length) zmem omem).select0 r) := by
  have hN1n : bv.ones bv.length ≤ bv.length := ones_le_self bv _
  have hn : bv.length ≠ 0 := by omega
  have hWFv : WF (bv.update) := update_WF bv hWF
  have hvl : (bv.update).length = bv.length := update_length bv
  have hvnb : (bv.update).num_blocks = bv.num_blocks := update_num_blocks bv
  have hvns : (bv.update).num_superblocks = bv.num_superblocks := by
    unfold BV.num_superblocks
    rw [hvl]
  have hdse : (bv.update).dataSize = bv.num_blocks * kNumWordsPerBlock +
      kNumBlocksPerSuperblock * kNumWordsPerBlock := by
    unfold BV.dataSize
    rw [hvnb]
  have hn64 : bv.length < 2 ^ 64 := hWF.1
  have hnbge := num_blocks_ge bv
  have hnsge := num_superblocks_ge bv
  have hnslt := num_superblocks_lt bv
  have hnsp : 1 ≤ bv.num_superblocks := num_superblocks_pos bv hn
  obtain ⟨hls1, hls2⟩ := last_superblock bv hn
  have hnsb64 : bv.num_superblocks < 2 ^ 64 := by
    rw [kSuperblockDataWidth_eq] at hnslt
    omega
  have hTZf : ∀ m, TZf (bv.update) m =
      min (m * kBlockDataWidth) bv.length -
        bv.ones (min (m * kBlockDataWidth) bv.length) := by
    intro m
    rw [TZf_eq (bv.update) hWFv m, hvl]
    rw [update_ones bv _ (by
      have h1 := Nat.min_le_right (m * kBlockDataWidth) bv.length
      omega)]
  have hTZnb : TZf (bv.update) bv.num_blocks =
      bv.length - bv.ones bv.length := by
    rw [hTZf, Nat.min_eq_right hnbge]
  obtain ⟨-, -, -, hZS, hZSent, -⟩ := selUpdate_chr
    (bv.update) (fun j => omem j % 2 ^ 64) (fun j => zmem j % 2 ^ 64)
    ⟨fun j => zmem j % 2 ^ 64, fun j => omem j % 2 ^ 64, 0, 0, 0, 0, 0, 0⟩
    hWFv (by rw [hvl]; exact hn)
    ⟨(TOf_zero _).symm, (TZf_zero _).symm, (if_pos rfl).symm,
      (if_pos rfl).symm, (Nat.zero_mul kStride).symm,
      (Nat.zero_mul kStride).symm,
      fun i hi => absurd hi (Nat.not_lt_zero i), fun i _ => rfl,
      fun i hi => absurd hi (Nat.not_lt_zero i), fun i _ => rfl⟩
  rw [hvnb] at hZS hZSent
  have hiK : (r - 1) / kStride ≤
      (bv.length - bv.ones bv.length) / kStride :=
    Nat.div_le_div_right (by omega)
  obtain ⟨B0, hB0lt, hB0v, hB0le, hB0min⟩ := hZS ((r - 1) / kStride)
    (by rw [hTZnb]; omega)
  have hv0 : B0 * kBlockDataWidth / kSuperblockDataWidth ≤
      bv.num_superblocks - 1 := by
    rw [kBlockDataWidth_eq, kSuperblockDataWidth_eq,
      kNumBlocksPerSuperblock_eq] at *
    omega
  have hs1 : ∃ s1v,
      (selUpdate (bv.update) ⟨fun j => zmem j % 2 ^ 64,
        fun j => omem j % 2 ^ 64, 0, 0, 0, 0, 0, 0⟩).zs
        ((r - 1) / kStride + 1) = s1v ∧
      B0 * kBlockDataWidth / kSuperblockDataWidth ≤ s1v ∧
      s1v ≤ bv.num_superblocks - 1 := by
    rcases Nat.lt_or_ge ((r - 1) / kStride + 1)
      (TZf (bv.update) bv.num_blocks / kStride + 1) with hc | hc
    · obtain ⟨B1, hB1lt, hB1v, hB1le, hB1min⟩ := hZS _ hc
      refine ⟨B1 * kBlockDataWidth / kSuperblockDataWidth, hB1v, ?hzo1,
        ?hzo2⟩
      case hzo1 =>
        have hBB : B0 ≤ B1 := by
          by_contra hgt
          have h1 := hB0min B1 (by omega)
          rw [kStride_eq] at *
          omega
        rw [kBlockDataWidth_eq, kSuperblockDataWidth_eq] at *
        omega
      case hzo2 =>
        rw [kBlockDataWidth_eq, kSuperblockDataWidth_eq,
          kNumBlocksPerSuperblock_eq] at *
        omega
    · refine ⟨bv.num_superblocks - 1, ?hzsent, hv0, le_refl _⟩
      rw [show (r - 1) / kStride + 1 =
        TZf (bv.update) bv.num_blocks / kStride + 1 by
        rw [hTZnb] at hc ⊢
        omega]
      exact hZSent
  obtain ⟨s1v, hs1eq, hord, hs1le⟩ := hs1
  show Sel.select0Chk _ _ = some (Sel.select0 _ _)
  simp only [Sel.select0Chk, Sel.select0]
  rw [show (mkSel (bv.update) (bv.ones bv.length) zmem omem).zero_samples =
    (selUpdate (bv.update) ⟨fun j => zmem j % 2 ^ 64,
      fun j => omem j % 2 ^ 64, 0, 0, 0, 0, 0, 0⟩).zs from rfl]
  rw [show (mkSel (bv.update) (bv.ones bv.length) zmem omem).bitvector =
    bv.update from rfl]
  rw [show (mkSel (bv.update) (bv.ones bv.length) zmem omem).zsize =
    ((bv.update).length - bv.ones bv.length) / kStride + 2 from rfl]
  rw [hvns, hvl]
  rw [show sub64 r 1 = r - 1 by
    unfold sub64
    omega]
  rw [readChk_eq ((bv.length - bv.ones bv.length) / kStride + 2) _
    ((r - 1) / kStride) (by omega)]
  rw [readChk_eq ((bv.length - bv.ones bv.length) / kStride + 2) _
    ((r - 1) / kStride + 1) (by omega)]
  simp only [Option.some_bind]
  rw [hB0v, hs1eq]
  rw [show w64 (sub64 s1v (B0 * kBlockDataWidth / kSuperblockDataWidth)
      + 1) = s1v - B0 * kBlockDataWidth / kSuperblockDataWidth + 1 by
    unfold w64 sub64
    omega]
  rw [bsLoopChk_eq (fun s => readChk bv.num_superblocks
      (fun i => sub64 (w64 (i * kSuperblockDataWidth))
        ((bv.update).sbdata i)) s)
    (fun s => sub64 (w64 (s * kSuperblockDataWidth))
      ((bv.update).sbdata s)) r
    (s1v - B0 * kBlockDataWidth / kSuperblockDataWidth + 1)
    (B0 * kBlockDataWidth / kSuperblockDataWidth)
    (fun j hj1 hj2 => readChk_eq _ _ j (by omega))]
  simp only [Option.some_bind]
  set U := bsLoop (fun s => sub64 (w64 (s * kSuperblockDataWidth))
      ((bv.update).sbdata s)) r
    (B0 * kBlockDataWidth / kSuperblockDataWidth)
    (s1v - B0 * kBlockDataWidth / kSuperblockDataWidth + 1) with hUdef
  have hu := bsLoop_mem (fun s => sub64 (w64 (s * kSuperblockDataWidth))
      ((bv.update).sbdata s)) r
    (s1v - B0 * kBlockDataWidth / kSuperblockDataWidth + 1)
    (B0 * kBlockDataWidth / kSuperblockDataWidth) (by omega)
  rw [← hUdef] at hu
  rw [readChk_eq bv.num_superblocks
    (fun i => sub64 (w64 (i * kSuperblockDataWidth))
      ((bv.update).sbdata i)) U (by omega)]
  simp only [Option.some_bind]
  have hpg : ∀ j, U * kNumBlocksPerSuperblock ≤ j →
      j < U * kNumBlocksPerSuperblock + kNumBlocksPerSuperblock →
      j * kNumWordsPerBlock < (bv.update).dataSize := by
    intro j hj1 hj2
    have a3 := hls2
    rw [kNumBlocksPerSuperblock_eq] at a3 hj1 hj2
    rw [hdse, kNumWordsPerBlock_eq, kNumBlocksPerSuperblock_eq]
    omega
  rw [bsLoopChk_eq (fun b => readChk ((bv.update).dataSize)
      (fun i => sub64
        (w64 (b % kNumBlocksPerSuperblock * kBlockDataWidth))
        ((bv.update).data i &&& setbits kBlockHeaderWidth))
      (b * kNumWordsPerBlock))
    (fun b => sub64 (w64 (b % kNumBlocksPerSuperblock * kBlockDataWidth))
      ((bv.update).data (b * kNumWordsPerBlock) &&&
        setbits kBlockHeaderWidth))
    (sub64 r (sub64 (w64 (U * kSuperblockDataWidth))
      ((bv.update).sbdata U)))
    kNumBlocksPerSuperblock (U * kNumBlocksPerSuperblock)
    (fun j hj1 hj2 => readChk_eq _ _ _ (hpg j hj1 hj2))]
  simp only [Option.some_bind]
  set B2 := bsLoop (fun b => sub64
      (w64 (b % kNumBlocksPerSuperblock * kBlockDataWidth))
      ((bv.update).data (b * kNumWordsPerBlock) &&&
        setbits kBlockHeaderWidth))
    (sub64 r (sub64 (w64 (U * kSuperblockDataWidth))
      ((bv.update).sbdata U)))
    (U * kNumBlocksPerSuperblock) kNumBlocksPerSuperblock with hB2def
  have hb2 := bsLoop_mem (fun b => sub64
      (w64 (b % kNumBlocksPerSuperblock * kBlockDataWidth))
      ((bv.update).data (b * kNumWordsPerBlock) &&&
        setbits kBlockHeaderWidth))
    (sub64 r (sub64 (w64 (U * kSuperblockDataWidth))
      ((bv.update).sbdata U)))
    kNumBlocksPerSuperblock (U * kNumBlocksPerSuperblock) (by
      rw [kNumBlocksPerSuperblock_eq]
      omega)
  rw [← hB2def] at hb2
  rw [readChk_eq ((bv.update).dataSize) _ (B2 * kNumWordsPerBlock)
    (hpg B2 hb2.1 hb2.2)]
  simp only [Option.some_bind]
  have hwg : ∀ j, (0 : Nat) ≤ j → j < 0 + kNumWordsPerBlock →
      B2 * kNumWordsPerBlock + j < (bv.update).dataSize := by
    intro j hj1 hj2
    have a1 := hb2.2
    have a3 := hls2
    rw [kNumBlocksPerSuperblock_eq] at a1 a3
    rw [kNumWordsPerBlock_eq] at hj2
    rw [hdse, kNumWordsPerBlock_eq, kNumBlocksPerSuperblock_eq]
    omega
  rw [wordLoopChk_eq (fun nw => readChk ((bv.update).dataSize)
      (fun i => if nw = 0 then
        popcount (compl64 ((bv.update).data i |||
          setbits kBlockHeaderWidth))
      else popcount (compl64 ((bv.update).data i)))
      (B2 * kNumWordsPerBlock + nw))
    (fun nw => if nw = 0 then
      popcount (compl64 ((bv.update).data (B2 * kNumWordsPerBlock + nw) |||
        setbits kBlockHeaderWidth))
    else popcount (compl64 ((bv.update).data
      (B2 * kNumWordsPerBlock + nw))))
    kNumWordsPerBlock 0
    (sub64 (sub64 r (sub64 (w64 (U * kSuperblockDataWidth))
        ((bv.update).sbdata U)))
      (sub64 (w64 (B2 % kNumBlocksPerSuperblock * kBlockDataWidth))
        ((bv.update).data (B2 * kNumWordsPerBlock) &&&
          setbits kBlockHeaderWidth)))
    (fun j hj1 hj2 => readChk_eq _ _ _ (hwg j hj1 hj2))]
  simp only [Option.some_bind]
  have hwl := wordLoop_fst_le (fun nw => if nw = 0 then
      popcount (compl64 ((bv.update).data (B2 * kNumWordsPerBlock + nw) |||
        setbits kBlockHeaderWidth))
    else popcount (compl64 ((bv.update).data
      (B2 * kNumWordsPerBlock + nw))))
    kNumWordsPerBlock 0
    (sub64 (sub64 r (sub64 (w64 (U * kSuperblockDataWidth))
        ((bv.update).sbdata U)))
      (sub64 (w64 (B2 % kNumBlocksPerSuperblock * kBlockDataWidth))
        ((bv.update).data (B2 * kNumWordsPerBlock) &&&
          setbits kBlockHeaderWidth)))
  rw [readChk_eq ((bv.update).dataSize) ((bv.update).data) _ (by
    have a1 := hb2.2
    have a3 := hls2
    have a4 := hwl
    rw [Nat.zero_add] at a4
    rw [kNumBlocksPerSuperblock_eq] at a1 a3
    rw [kNumWordsPerBlock_eq, kNumBlocksPerSuperblock_eq] at a4
    rw [hdse, kNumWordsPerBlock_eq, kNumBlocksPerSuperblock_eq]
    omega)]
  simp only [Option.some_bind]


/-- Claim C4: for a finalized vector with its select structure, every
memory read performed by `select1 r` for `1 ≤ r ≤ num_ones`, and by
`select0 r` for `1 ≤ r ≤ num_zeros` — sample-array lookups, superblock
probes and block/word data reads, including every binary-search probe —
falls within the allocated sample, superblock and data buffers: the fully
bounds-checked mirrors succeed and agree with the unchecked queries. -/
theorem claim_C4 (bv : BV) (hWF : WF bv) (zmem omem : Nat → Nat)
    (r : Nat) :
    (1 ≤ r → r ≤ bv.ones bv.length →
      (mkSel bv.update (bv.ones bv.length) zmem omem).select1Chk r =
        some ((mkSel bv.update (bv.ones bv.length) zmem omem).select1 r)) ∧
    (1 ≤ r → r ≤ bv.length - bv.ones bv.length →
      (mkSel bv.update (bv.ones bv.length) zmem omem).select0Chk r =
        some ((mkSel bv.update (bv.ones bv.length) zmem omem).select0 r))
    :=
  ⟨fun h1 h2 => select1_safe bv hWF zmem omem r h1 h2,
   fun h1 h2 => select0_safe bv hWF zmem omem r h1 h2⟩

/-- Witness for claim C4 at the one-block vector `bvB498` and rank 1 on
both sides. -/
theorem claim_C4_witness :
    WF bvB498 ∧
    ((1 ≤ 1 → 1 ≤ bvB498.ones bvB498.length →
      (mkSel bvB498.update (bvB498.ones bvB498.length) zeroMem
        zeroMem).select1Chk 1 =
        some ((mkSel bvB498.update (bvB498.ones bvB498.length) zeroMem
          zeroMem).select1 1)) ∧
    (1 ≤ 1 → 1 ≤ bvB498.length - bvB498.ones bvB498.length →
      (mkSel bvB498.update (bvB498.ones bvB498.length) zeroMem
        zeroMem).select0Chk 1 =
        some ((mkSel bvB498.update (bvB498.ones bvB498.length) zeroMem
          zeroMem).select0 1))) :=
  ⟨⟨by decide, by decide, by decide⟩,
    claim_C4 bvB498 ⟨by decide, by decide, by decide⟩ zeroMem zeroMem 1⟩


end Bitsy
